import Mathlib

/-!
Verification of the WSN integrated-firmware core against its specification.

Each C function named in the claims is shallowly embedded as a Lean
definition: pure functions become Lean functions, stateful code becomes
explicit state passing, machine integers become `Nat`/`Int` (with explicit
`% 2^w` where wrap-around matters), C `float` arithmetic is modelled over
`ℚ` (or `ℝ` where transcendental functions appear), and fallible code
returns `Except`.  The definitions mirror the corresponding C sources
(`huffman.c`, `metrics.c`, `auth.c`, `election.c`, `neighbor_manager.c`,
`logger.c`, `blockbuf.c`); theorems at the end settle the specification
claims.
-/

set_option maxHeartbeats 1000000
set_option maxRecDepth 16000

namespace WSN

/-- Error domain used by the embedded ESP-IDF style functions
(`ESP_ERR_INVALID_ARG`, `ESP_ERR_INVALID_SIZE`, `ESP_ERR_NO_MEM`,
`ESP_FAIL`). -/
inductive EspErr where
  | invalidArg
  | invalidSize
  | noMem
  | fail
  deriving DecidableEq, Repr

/-! ## Block buffer (`blockbuf.c`)

`blockbuf_t` holds a fixed capacity `cap` and the stored bytes `data`
(`len` is `data.length`).  `blockbuf_append` mirrors the C function on a
valid (non-null) buffer: the `-1` null-pointer branch is not representable
in the embedding; `-2` is returned when the append would exceed capacity.
C computes `b->len + n` in `size_t`; lengths here are unbounded naturals,
faithful for any realizable buffer. -/

structure blockbuf_t where
  cap : ℕ
  data : List ℕ
  deriving Repr

/-- `blockbuf_append(b, data, n)`: returns the C result code together with
the post-state (C mutates `b` in place). -/
def blockbuf_append (b : blockbuf_t) (d : List ℕ) : ℤ × blockbuf_t :=
  if b.data.length + d.length > b.cap then (-2, b)
  else (0, { b with data := b.data ++ d })

/-! ## Logger flush path (`logger.c`)

Only the compression-policy part of the chunk writers is relevant to the
claims: file I/O, rotation and storage cleanup are dropped; a chunk is
modelled as its header plus stored payload.  The compressor
(`lz_compress_miniz` plus the two allocation attempts) is abstracted as a
function `List ℕ → Option (List ℕ)`; `none` covers both allocation
failure and a non-`ESP_OK` return, each of which falls back to the raw
writer in C.  `crc32_le` is abstracted as an arbitrary function on byte
lists. -/

/-- Packed log chunk header (`log_chunk_hdr_t`). -/
structure log_chunk_hdr_t where
  magic : ℕ
  version : ℕ
  algo : ℕ
  level : ℕ
  raw_len : ℕ
  data_len : ℕ
  crc32 : ℕ
  node_id : ℕ
  timestamp : ℕ
  reserved : ℕ
  deriving Repr

def LOG_MAGIC : ℕ := 0x4D534C47
def LOG_VER : ℕ := 2
def LOGGER_COMPRESS_LEVEL : ℕ := 3
def LOGGER_MIN_COMPRESS_BYTES : ℕ := 1024
def LOGGER_MIN_SAVINGS_DIV : ℕ := 20
/-- `sizeof(log_chunk_hdr_t)` for the packed struct: 4+2+1+1+4+4+4+8+4+4. -/
def LOG_HDR_SIZE : ℕ := 36

/-- `write_chunk_raw(raw, raw_len)`: the chunk stored on flash
(header, payload), ignoring the file-system side effects. -/
def write_chunk_raw (crc : List ℕ → ℕ) (node_id timestamp : ℕ)
    (raw : List ℕ) : log_chunk_hdr_t × List ℕ :=
  (⟨LOG_MAGIC, LOG_VER, 0, 0, raw.length, raw.length, crc raw,
    node_id, timestamp, 0⟩, raw)

/-- `write_chunk_miniz(raw, raw_len)`: compresses and stores the result
when it saves enough, otherwise falls back to `write_chunk_raw`. -/
def write_chunk_miniz (crc : List ℕ → ℕ)
    (compressOp : List ℕ → Option (List ℕ)) (node_id timestamp : ℕ)
    (raw : List ℕ) : log_chunk_hdr_t × List ℕ :=
  -- Small tail flushes are usually not worth it.
  if raw.length < LOGGER_MIN_COMPRESS_BYTES then
    write_chunk_raw crc node_id timestamp raw
  else
    match compressOp raw with
    | none => write_chunk_raw crc node_id timestamp raw
    | some out =>
      -- If we don't save at least ~5%, keep it raw.
      if out.length + LOG_HDR_SIZE ≥
          raw.length - raw.length / LOGGER_MIN_SAVINGS_DIV then
        write_chunk_raw crc node_id timestamp raw
      else
        (⟨LOG_MAGIC, LOG_VER, 1, LOGGER_COMPRESS_LEVEL, raw.length,
          out.length, crc out, node_id, timestamp, 0⟩, out)

/-- The chunk written by `logger_flush` for a non-empty buffered block:
the source hardcodes `use_compression = false` (a `DEBUG` override of the
commented-out `s_bb.len >= LOGGER_MIN_COMPRESS_BYTES` test), so the raw
writer is always taken. -/
def logger_flush_chunk (crc : List ℕ → ℕ)
    (compressOp : List ℕ → Option (List ℕ)) (node_id timestamp : ℕ)
    (buf : List ℕ) : log_chunk_hdr_t × List ℕ :=
  let use_compression := false
  if use_compression then write_chunk_miniz crc compressOp node_id timestamp buf
  else write_chunk_raw crc node_id timestamp buf

/-! ## Battery reading (`metrics.c`, `metrics_read_battery`)

The function is modelled from the successful ADC read on, with the raw
ADC sample as input (`adc_raw ∈ [0, 4095]`).  The `DEMO_MODE` simulation
override (compile-time gated in C, enabled in the shipped `config.h`) is
carried as the `demo` flag. -/

/-- `metrics_read_battery` after a successful `adc_oneshot_read`. -/
def metrics_read_battery (adc_raw : ℕ) (demo : Bool) (node_id : ℕ) : ℚ :=
  let voltage : ℚ := ((adc_raw : ℚ) / 4095) * (33/10)
  -- Check for USB power (increased threshold to 1.0V)
  if voltage < 1 then 1
  else
    -- Simple linear model: 3.0V = 0%, 4.2V = 100%
    let battery_pct : ℚ := (voltage - 3) / (12/10)
    let battery_pct := if battery_pct < 0 then 0 else battery_pct
    let battery_pct := if battery_pct > 1 then 1 else battery_pct
    if demo then
      -- DEMO_MODE: battery depends on node id
      let id_idx : ℕ := node_id % 10
      let id_idx := if id_idx = 0 then 10 else id_idx
      let sim_battery : ℚ := 1 - (id_idx : ℚ) * (1/10)
      if sim_battery < 1/10 then 95/100 else sim_battery
    else battery_pct

/-- The mapping asserted by the specification sentence: linear from
`3.3 V ↔ 0%` to `4.2 V ↔ 100%`, clamped to `[0,1]`.  (Spec-side
definition, for comparison with the code.) -/
def spec_battery_mapping (voltage : ℚ) : ℚ :=
  max 0 (min 1 ((voltage - 33/10) / (42/10 - 33/10)))

/-- The mapping the code actually applies at or above the USB threshold:
linear from `3.0 V ↔ 0%` to `4.2 V ↔ 100%`, clamped to `[0,1]`. -/
def code_battery_mapping (voltage : ℚ) : ℚ :=
  max 0 (min 1 ((voltage - 3) / (12/10)))

/-! ## Replay protection (`auth.c`, `auth_check_replay`)

State is the table of `(node_id, last_timestamp)` pairs in insertion
order (`replay_table[0..replay_count)`).  Timestamps and `now_ms` are
`uint64_t`; the C expressions `now_ms + REPLAY_WINDOW_MS` and
`now_ms - REPLAY_WINDOW_MS` wrap modulo `2^64`, which the model keeps
explicit. -/

def REPLAY_WINDOW_MS : ℕ := 60000
def MAX_REPLAY_ENTRIES : ℕ := 20

/-- Wrapping `uint64_t` addition. -/
def u64add (a b : ℕ) : ℕ := (a + b) % 2^64

/-- Wrapping `uint64_t` subtraction. -/
def u64sub (a b : ℕ) : ℕ := (a + 2^64 - b % 2^64) % 2^64

/-- `auth_check_replay(timestamp, node_id)`: result plus the updated
replay table. -/
def auth_check_replay (tbl : List (ℕ × ℕ)) (now_ms timestamp node_id : ℕ) :
    Bool × List (ℕ × ℕ) :=
  -- Check if timestamp is too old or too far in future
  if timestamp > u64add now_ms REPLAY_WINDOW_MS ∨
     timestamp < u64sub now_ms REPLAY_WINDOW_MS then (false, tbl)
  else
    -- Check replay table
    match tbl.findIdx? (fun e => e.1 == node_id) with
    | some i =>
      if timestamp ≤ (tbl.getD i (0, 0)).2 then (false, tbl)
      else (true, tbl.set i (node_id, timestamp))
    | none =>
      -- New node, add to table
      if tbl.length < MAX_REPLAY_ENTRIES then (true, tbl ++ [(node_id, timestamp)])
      else
        -- Table full, evict oldest (simple FIFO)
        (true, tbl.drop 1 ++ [(node_id, timestamp)])

/-! ## Neighbor table (`neighbor_manager.c`)

The table is the array `neighbor_table[0..neighbor_count)` in insertion
order.  `float` fields are modelled over `ℚ`.  Time stamps come in as
parameters (`now_ms` for `esp_timer_get_time()/1000`).  The ESP-NOW peer
registration and logging are side effects outside the data model.
`neighbor_manager_update` additionally reports one `(successes, failures)`
batch to `metrics_record_ble_reception` on the update-existing path; the
model returns that report alongside the new table. -/

def MAX_NEIGHBORS : ℕ := 20
def RSSI_EWMA_ALPHA : ℚ := 3/10

structure neighbor_entry_t where
  node_id : ℕ
  mac_addr : List ℕ
  rssi_ewma : ℚ
  last_rssi : ℚ
  score : ℚ
  battery : ℚ
  uptime_seconds : ℕ
  trust : ℚ
  link_quality : ℚ
  last_seen_ms : ℕ
  is_ch : Bool
  ch_announce_timestamp : ℕ
  verified : Bool
  last_seq_num : ℕ
  deriving Repr, Inhabited

/-- The missed-packet count computed by `neighbor_manager_update` for a
beacon with sequence number `seq_num` from an entry whose stored number is
`last_seq_num` (C `int` arithmetic; both values are `uint8_t`). -/
def nm_missed (seq_num last_seq_num : ℕ) : ℕ :=
  let diff : ℤ := (seq_num : ℤ) - (last_seq_num : ℤ)
  let diff : ℤ := if diff < 0 then diff + 256 else diff  -- handle wrap-around
  let missed : ℤ := if diff > 1 then diff - 1 else 0
  -- Sanity check: if diff is huge (e.g. node rebooted), ignore
  let missed : ℤ := if missed > 20 then 0 else missed
  missed.toNat

/-- The update applied to an existing entry on a repeated beacon. -/
def nm_update_hit (e : neighbor_entry_t) (now_ms : ℕ) (mac_addr : List ℕ)
    (rssi : ℚ) (score battery : ℚ) (uptime : ℕ) (trust link_quality : ℚ)
    (is_ch : Bool) (seq_num : ℕ) : neighbor_entry_t :=
  { e with
    last_seq_num := seq_num
    mac_addr := mac_addr
    rssi_ewma := if e.rssi_ewma = 0 then rssi
                 else RSSI_EWMA_ALPHA * rssi + (1 - RSSI_EWMA_ALPHA) * e.rssi_ewma
    last_rssi := rssi
    score := score
    battery := battery
    uptime_seconds := uptime
    trust := trust
    link_quality := link_quality
    last_seen_ms := now_ms
    is_ch := is_ch
    ch_announce_timestamp := if is_ch then now_ms else e.ch_announce_timestamp
    verified := true }

/-- The entry created for a previously unknown neighbor. -/
def nm_new_entry (now_ms : ℕ) (node_id : ℕ) (mac_addr : List ℕ)
    (rssi : ℚ) (score battery : ℚ) (uptime : ℕ) (trust link_quality : ℚ)
    (is_ch : Bool) (seq_num : ℕ) : neighbor_entry_t :=
  { node_id := node_id
    mac_addr := mac_addr
    rssi_ewma := rssi
    last_rssi := rssi
    score := score
    battery := battery
    uptime_seconds := uptime
    trust := trust
    link_quality := link_quality
    last_seen_ms := now_ms
    is_ch := is_ch
    ch_announce_timestamp := if is_ch then now_ms else 0
    verified := true
    last_seq_num := seq_num }

/-- `neighbor_manager_update`: upserts the entry and, when the node was
already known, reports `(1, missed)` to `metrics_record_ble_reception`.
The returned pair is (new table, reported reception batch). -/
def neighbor_manager_update (tbl : List neighbor_entry_t) (now_ms : ℕ)
    (node_id : ℕ) (mac_addr : List ℕ) (rssi : ℚ) (score battery : ℚ)
    (uptime : ℕ) (trust link_quality : ℚ) (is_ch : Bool) (seq_num : ℕ) :
    List neighbor_entry_t × Option (ℕ × ℕ) :=
  match tbl.findIdx? (fun e => e.node_id == node_id) with
  | some i =>
    let e := tbl.getD i default
    (tbl.set i (nm_update_hit e now_ms mac_addr rssi score battery uptime
        trust link_quality is_ch seq_num),
     some (1, nm_missed seq_num e.last_seq_num))
  | none =>
    if tbl.length < MAX_NEIGHBORS then
      (tbl ++ [nm_new_entry now_ms node_id mac_addr rssi score battery uptime
          trust link_quality is_ch seq_num], none)
    else (tbl, none)

/-- `neighbor_manager_update_trust(node_id, success)`. -/
def neighbor_manager_update_trust (tbl : List neighbor_entry_t)
    (node_id : ℕ) (success : Bool) : List neighbor_entry_t :=
  match tbl.findIdx? (fun e => e.node_id == node_id) with
  | some i =>
    let e := tbl.getD i default
    let target : ℚ := if success then 1 else 0
    let trust := (9/10) * e.trust + (1/10) * target
    -- Mark as verified if trust is high enough
    let verified := if trust > 3/10 then true else e.verified
    tbl.set i { e with trust := trust, verified := verified }
  | none => tbl

/-- The missed-count formula as the claim words it:
`((seq − last_seq) mod 256) − 1` when positive, otherwise `0`, and a
value above `20` treated as `0`.  (Spec-side definition, for comparison
with `nm_missed`.) -/
def claim_missed (seq_num last_seq_num : ℕ) : ℕ :=
  let g : ℤ := ((seq_num : ℤ) - (last_seq_num : ℤ)) % 256 - 1
  let m : ℤ := if 0 < g then g else 0
  (if 20 < m then 0 else m).toNat

/-- Run a stream of beacons (same node, same metrics, varying sequence
numbers) through `neighbor_manager_update`, collecting the reception
batches it reports. -/
def nm_run_seq_stream (seqs : List ℕ) : List (Option (ℕ × ℕ)) :=
  (seqs.foldl (fun (st : List neighbor_entry_t × List (Option (ℕ × ℕ))) seq =>
    let r := neighbor_manager_update st.1 0 1 [1,2,3,4,5,6] (-60) 0 1 0 (1/2)
      (1/2) false seq
    (r.1, st.2 ++ [r.2])) ([], [])).2

/-! ## STELLAR score (`metrics.c`, `metrics_compute_stellar_score`)

The utility functions use `expf`, `tanhf`, `powf`; the embedding is over
`ℝ` with the corresponding real functions.  The process-global
`g_stellar_weights.weights` is passed explicitly. -/

noncomputable def UTILITY_LAMBDA_B : ℝ := 3
noncomputable def UTILITY_LAMBDA_U : ℝ := 2
noncomputable def UTILITY_GAMMA_L : ℝ := 7/10
noncomputable def UPTIME_MAX_DAYS : ℝ := 365
noncomputable def PARETO_DELTA : ℝ := 15/100
noncomputable def CENTRALITY_EPSILON : ℝ := 1/10

/-- `stellar_utility_battery`: concave exponential. -/
noncomputable def stellar_utility_battery (battery : ℝ) : ℝ :=
  let lambda := UTILITY_LAMBDA_B
  let numerator := 1 - Real.exp (-lambda * battery)
  let denominator := 1 - Real.exp (-lambda)
  let denominator := if denominator < 1/1000000 then 1/1000000 else denominator
  numerator / denominator

/-- `stellar_utility_uptime`: saturating tanh. -/
noncomputable def stellar_utility_uptime (uptime_normalized : ℝ) : ℝ :=
  Real.tanh (UTILITY_LAMBDA_U * uptime_normalized)

/-- `stellar_utility_trust`: smooth-step (Hermite) on the clamped input. -/
noncomputable def stellar_utility_trust (trust : ℝ) : ℝ :=
  let trust := if trust < 0 then 0 else trust
  let trust := if trust > 1 then 1 else trust
  trust * trust * (3 - 2 * trust)

/-- `stellar_utility_linkq`: power utility on the clamped input. -/
noncomputable def stellar_utility_linkq (link_quality : ℝ) : ℝ :=
  let link_quality := if link_quality < 0 then 0 else link_quality
  let link_quality := if link_quality > 1 then 1 else link_quality
  link_quality ^ (1 / UTILITY_GAMMA_L)

/-- Per-node metrics view, restricted to the fields
`metrics_compute_stellar_score` reads. -/
structure node_metrics_t where
  battery : ℝ
  uptime_seconds : ℕ
  trust : ℝ
  link_quality : ℝ

/-- `metrics_compute_stellar_score(metrics, pareto_rank, centrality)` with
the Lyapunov weight vector `sw` passed explicitly (C reads the global
`g_stellar_weights`). -/
noncomputable def metrics_compute_stellar_score (sw : Fin 4 → ℝ)
    (metrics : node_metrics_t) (pareto_rank : ℤ) (centrality : ℝ) : ℝ :=
  -- Normalize uptime to [0, 1]
  let uptime_norm := (metrics.uptime_seconds : ℝ) / (UPTIME_MAX_DAYS * 86400)
  let uptime_norm := if uptime_norm > 1 then 1 else uptime_norm
  -- Apply non-linear utility functions
  let u_battery := stellar_utility_battery metrics.battery
  let u_uptime := stellar_utility_uptime uptime_norm
  let u_trust := stellar_utility_trust metrics.trust
  let u_linkq := stellar_utility_linkq metrics.link_quality
  -- Weighted sum with Lyapunov-adapted weights
  let base_score := sw 0 * u_battery + sw 1 * u_uptime + sw 2 * u_trust +
    sw 3 * u_linkq
  -- Pareto dominance bonus
  let dominance_bonus := PARETO_DELTA * ((pareto_rank : ℝ) / 10)
  -- Centrality factor
  let centrality_factor := 1 / (1 + CENTRALITY_EPSILON * (1 - centrality))
  base_score * centrality_factor + dominance_bonus

/-- The utility vector `(φ_B, φ_U, φ_T, φ_L)` of a metrics record, with
the same uptime normalization the code applies. -/
noncomputable def stellar_utilities (metrics : node_metrics_t) : Fin 4 → ℝ :=
  ![stellar_utility_battery metrics.battery,
    stellar_utility_uptime
      (min ((metrics.uptime_seconds : ℝ) / (UPTIME_MAX_DAYS * 86400)) 1),
    stellar_utility_trust metrics.trust,
    stellar_utility_linkq metrics.link_quality]

/-- The score formula as the specification writes it:
`Ψ(n) = [Σ_i w_i·φ_i(m_i)] · κ(n) + ρ(n)` with
`κ(n) = 1/(1 + ε·(1 − centrality))` and `ρ(n) = δ·(pareto_rank/10)`;
the Pareto bonus is added after the centrality product.  (Spec-side
definition, for comparison with the code.) -/
noncomputable def spec_stellar_score (sw : Fin 4 → ℝ) (metrics : node_metrics_t)
    (pareto_rank : ℤ) (centrality : ℝ) : ℝ :=
  (∑ i : Fin 4, sw i * stellar_utilities metrics i) *
    (1 / (1 + CENTRALITY_EPSILON * (1 - centrality))) +
  PARETO_DELTA * ((pareto_rank : ℝ) / 10)

/-! ## Lyapunov weight adaptation (`metrics.c`)

`metrics_update_stellar_weights` first refreshes the variance estimates
and the entropy confidence vector and then moves the weight vector; the
weight movement depends on that state only through the confidence vector
`entropy_confidence`, which is passed explicitly here.  (Any reachable
confidence vector has entries in `[0,1]`: each is either `exp(-γH)/Σexp`
or, when the normalization guard fails, a non-negative value below the
sum.)  All arithmetic is exact over `ℚ`; the C floats carry rounding
error bounded well below the `1e-5`/`1e-6` tolerances in the claim. -/

def WEIGHT_BATTERY : ℚ := 25/100
def WEIGHT_UPTIME : ℚ := 25/100
def WEIGHT_TRUST : ℚ := 30/100
def WEIGHT_LINK_QUALITY : ℚ := 20/100
def LYAPUNOV_ETA : ℚ := 5/100
def LYAPUNOV_BETA : ℚ := 2/100
def LYAPUNOV_LAMBDA : ℚ := 1/10
def CONVERGENCE_THRESHOLD : ℚ := 1/100
def MIN_WEIGHT_VALUE : ℚ := 5/100

structure stellar_weights_t where
  weights : Fin 4 → ℚ
  target_weights : Fin 4 → ℚ
  lyapunov_value : ℚ
  converged : Bool

/-- Initial value of the global `g_stellar_weights`. -/
def g_stellar_weights_init : stellar_weights_t :=
  { weights := ![WEIGHT_BATTERY, WEIGHT_UPTIME, WEIGHT_TRUST, WEIGHT_LINK_QUALITY]
    target_weights := ![WEIGHT_BATTERY, WEIGHT_UPTIME, WEIGHT_TRUST,
      WEIGHT_LINK_QUALITY]
    lyapunov_value := 0
    converged := false }

/-- `project_onto_simplex(weights, 4)`: clamp to the minimum weight, then
normalize. -/
def project_onto_simplex (w : Fin 4 → ℚ) : Fin 4 → ℚ :=
  let clamped := fun i => if w i < MIN_WEIGHT_VALUE then MIN_WEIGHT_VALUE else w i
  let sum := ∑ i : Fin 4, clamped i
  if sum > 0 then fun i => clamped i / sum else clamped

/-- `base_weights[4]` used by the target-weight computation. -/
def stellar_base_weights : Fin 4 → ℚ :=
  ![WEIGHT_BATTERY, WEIGHT_UPTIME, WEIGHT_TRUST, WEIGHT_LINK_QUALITY]

/-- Entropy-derived target weight before normalization:
`base_weight_i × (1 + 0.5 × (confidence_i − 0.25))`, lower-bounded by
`MIN_WEIGHT_VALUE`. -/
def stellar_target_raw (entropy_confidence : Fin 4 → ℚ) : Fin 4 → ℚ :=
  fun i =>
    let t := stellar_base_weights i * (1 + (1/2) * (entropy_confidence i - 1/4))
    if t < MIN_WEIGHT_VALUE then MIN_WEIGHT_VALUE else t

/-- Normalized target weights `w*(t)`. -/
def stellar_target_weights (entropy_confidence : Fin 4 → ℚ) : Fin 4 → ℚ :=
  fun i =>
    stellar_target_raw entropy_confidence i /
      ∑ j : Fin 4, stellar_target_raw entropy_confidence j

/-- Gradient of the Lyapunov function:
`(w_i − w*_i) + β·(w_i − w*_i)`. -/
def stellar_gradient (w target : Fin 4 → ℚ) : Fin 4 → ℚ :=
  fun i => (w i - target i) + LYAPUNOV_BETA * (w i - target i)

/-- `metrics_update_stellar_weights`, as a function of the current weight
state and the entropy-confidence vector current at the call. -/
def metrics_update_stellar_weights (sw : stellar_weights_t)
    (entropy_confidence : Fin 4 → ℚ) : stellar_weights_t :=
  let target := stellar_target_weights entropy_confidence
  -- Lyapunov gradient descent step
  let gradient := stellar_gradient sw.weights target
  let w1 := fun i => sw.weights i - LYAPUNOV_ETA * gradient i
  let grad_norm_sq := ∑ i : Fin 4, gradient i * gradient i
  -- Project onto probability simplex
  let w2 := project_onto_simplex w1
  -- Lyapunov function value and convergence flag
  let lyap := (∑ i : Fin 4, (1/2) * (w2 i - target i) * (w2 i - target i)) +
    LYAPUNOV_LAMBDA * grad_norm_sq
  { weights := w2
    target_weights := target
    lyapunov_value := lyap
    converged := decide (lyap < CONVERGENCE_THRESHOLD) }

/-- Weight states reachable from boot by any sequence of
`metrics_update_stellar_weights` calls with confidence vectors in
`[0,1]^4`. -/
inductive ReachableWeights : stellar_weights_t → Prop where
  | init : ReachableWeights g_stellar_weights_init
  | step (sw : stellar_weights_t) (c : Fin 4 → ℚ)
      (hsw : ReachableWeights sw) (hc : ∀ i, 0 ≤ c i ∧ c i ≤ 1) :
      ReachableWeights (metrics_update_stellar_weights sw c)

/-- The simplex invariant from the claim: unit sum and the per-weight
floor. -/
def WeightsInvariant (w : Fin 4 → ℚ) : Prop :=
  (∑ i : Fin 4, w i) = 1 ∧ ∀ i, MIN_WEIGHT_VALUE ≤ w i

/-! ## STELLAR election (`election.c`)

Candidates carry the already-computed utility vector (`election.c` fills
`utility_values` from the `stellar_utility_*` transforms before the
phases at issue run); `pareto_rank`, `on_pareto_frontier` and
`stellar_score` are computed in place by the phases.  `logf` is kept
abstract (`ln : ℚ → ℚ`) — the claims about the Pareto phase and the
winner's membership hold for every choice; the adaptive weights come in
as `sw_weights` (C reads `metrics_get_stellar_weights()`). -/

structure stellar_candidate_t where
  node_id : ℕ
  utility_values : Fin 4 → ℚ
  stellar_score : ℚ
  pareto_rank : ℕ
  centrality : ℚ
  is_self : Bool
  on_pareto_frontier : Bool
  deriving Inhabited

/-- The dimension loop of `pareto_dominates`, with the early `return
false` on a strictly worse dimension and the `at_least_one_greater`
flag. -/
def pareto_dominates_loop (a b : stellar_candidate_t) :
    List (Fin 4) → Bool → Bool
  | [], flag => flag
  | i :: rest, flag =>
    if a.utility_values i < b.utility_values i then false
    else pareto_dominates_loop a b rest
      (flag || decide (b.utility_values i < a.utility_values i))

/-- `pareto_dominates(a, b)`: `a ≻ b` iff `∀i: u_i(a) ≥ u_i(b)` and
`∃j: u_j(a) > u_j(b)`. -/
def pareto_dominates (a b : stellar_candidate_t) : Bool :=
  pareto_dominates_loop a b [0, 1, 2, 3] false

/-- Inner loop of `compute_pareto_frontier` for candidate `i`: scan all
`j ≠ i`, counting dominated candidates and clearing the frontier flag
when dominated. -/
def pareto_scan (cands : List stellar_candidate_t) (i : ℕ) :
    ℕ × Bool :=
  (List.range cands.length).foldl
    (fun (st : ℕ × Bool) j =>
      if j = i then st
      else
        let st := if pareto_dominates (cands.getD i default)
            (cands.getD j default) then (st.1 + 1, st.2) else st
        if pareto_dominates (cands.getD j default) (cands.getD i default)
        then (st.1, false) else st)
    (0, true)

/-- `compute_pareto_frontier(candidates, count)`: fills `pareto_rank`
and `on_pareto_frontier` for every candidate. -/
def compute_pareto_frontier (cands : List stellar_candidate_t) :
    List stellar_candidate_t :=
  cands.mapIdx (fun i c =>
    let st := pareto_scan cands i
    { c with pareto_rank := st.1, on_pareto_frontier := st.2 })

/-- Nash disagreement vector
`(DISAGREE_BATTERY, DISAGREE_UPTIME, DISAGREE_TRUST, DISAGREE_LINKQ)`. -/
def nash_disagreement : Fin 4 → ℚ := ![15/100, 0, 30/100, 40/100]

/-- The per-candidate Nash product loop (log-sum over the four surplus
terms), `none` when some surplus is non-positive (`valid = false`). -/
def nash_product_loop (ln : ℚ → ℚ) (sw_weights : Fin 4 → ℚ)
    (cand : stellar_candidate_t) : List (Fin 4) → ℚ → Option ℚ
  | [], acc => some acc
  | j :: rest, acc =>
    let surplus := cand.utility_values j - nash_disagreement j
    if surplus ≤ 0 then none
    else nash_product_loop ln sw_weights cand rest
      (acc + sw_weights j * ln surplus)

/-- `nash_bargaining_selection(candidates, count)`: argmax of the Nash
log-product over frontier candidates; `0` when no candidate qualifies. -/
def nash_bargaining_selection (ln : ℚ → ℚ) (sw_weights : Fin 4 → ℚ)
    (cands : List stellar_candidate_t) : ℕ :=
  (cands.foldl
    (fun (st : ℚ × ℕ) c =>
      if !c.on_pareto_frontier then st
      else
        match nash_product_loop ln sw_weights c [0, 1, 2, 3] 0 with
        | none => st
        | some nash_product =>
          if nash_product > st.1 then (nash_product, c.node_id) else st)
    (-1000000000, 0)).2

/-- The fallback chain after Phase 3 in `election_run_stellar`: keep the
Nash winner when there is one; otherwise the highest STELLAR score on
the frontier; otherwise the highest STELLAR score overall. -/
def election_select_winner (ln : ℚ → ℚ) (sw_weights : Fin 4 → ℚ)
    (cands : List stellar_candidate_t) : ℕ :=
  let winner := nash_bargaining_selection ln sw_weights cands
  let winner :=
    if winner = 0 then
      (cands.foldl
        (fun (st : ℚ × ℕ) c =>
          if c.on_pareto_frontier ∧ c.stellar_score > st.1 then
            (c.stellar_score, c.node_id) else st)
        (-1000000000, 0)).2
    else winner
  if winner = 0 then
    (cands.foldl
      (fun (st : ℚ × ℕ) c =>
        if c.stellar_score > st.1 then (c.stellar_score, c.node_id) else st)
      (-1000000000, 0)).2
  else winner

/-- Pareto dominance as a proposition: `a` weakly better everywhere and
strictly better somewhere. -/
def DominatesProp (a b : stellar_candidate_t) : Prop :=
  (∀ i, b.utility_values i ≤ a.utility_values i) ∧
  (∃ i, b.utility_values i < a.utility_values i)

instance (a b : stellar_candidate_t) : Decidable (DominatesProp a b) := by
  unfold DominatesProp
  infer_instance

/-! ## Huffman codec (`huffman.c`)

Byte strings are `List ℕ` with entries below 256.  The node arena of
`build_code_lengths` (512 `huf_node_t` slots plus the `alive` bitmap) is
modelled as the list of live subtrees in index order: C appends each
merged node at the next fresh index and scans live nodes in index order,
which is exactly the order of this list when the two picked trees are
removed and the merged tree is appended.  The DFS stack, the canonical
code construction, the decode arena (`dec_node_t[2048]`) and the two bit
cursors (`bitw_t`, `bitr_t`) are carried over field by field; `x & 0xFF`
becomes `x % 256`, `(x << n) | (y & mask)` becomes `x * 2^n + y % 2^n`
(equal whenever the mask keeps `y` below `2^n`), and `(x >> n) & 1`
becomes `x / 2^n % 2`. -/

def HUF_MAGIC : ℕ := 0x48554631

/-- Header size: magic + original length + 256 code lengths. -/
def HUF_HEADER_SIZE : ℕ := 264

/-- `wr_u32_le`. -/
def wr_u32_le (v : ℕ) : List ℕ :=
  [v % 256, v / 2^8 % 256, v / 2^16 % 256, v / 2^24 % 256]

/-- `rd_u32_le`. -/
def rd_u32_le (p : List ℕ) : ℕ :=
  p.getD 0 0 + p.getD 1 0 * 2^8 + p.getD 2 0 * 2^16 + p.getD 3 0 * 2^24

/-- The `n` low bits of `v`, MSB first (the order every bit loop in
`huffman.c` uses). -/
def natBits : ℕ → ℕ → List Bool
  | _, 0 => []
  | v, n + 1 => natBits (v / 2) n ++ [decide (v % 2 = 1)]

/-- A byte list as its bit stream, MSB first within each byte. -/
def bytesBits (l : List ℕ) : List Bool := l.flatMap (fun b => natBits b 8)

/-- A live Huffman subtree (leaves carry symbol and frequency; the C
`huf_node_t.freq` of an internal node is the weight of the subtree). -/
inductive HTree where
  | leaf (sym : ℕ) (freq : ℕ)
  | node (left right : HTree)
  deriving Repr, Inhabited, DecidableEq

/-- Stored node frequency: the sum of the leaf frequencies. -/
def HTree.weight : HTree → ℕ
  | .leaf _ f => f
  | .node l r => l.weight + r.weight

/-- Number of nodes of a subtree. -/
def HTree.size : HTree → ℕ
  | .leaf _ _ => 1
  | .node l r => 1 + l.size + r.size

/-- The `(symbol, frequency)` leaves, left to right. -/
def HTree.leaves : HTree → List (ℕ × ℕ)
  | .leaf s f => [(s, f)]
  | .node l r => l.leaves ++ r.leaves

/-- `pick_min_node`: index of the first live node of minimal frequency
(the C scan keeps the earliest index on ties because it moves only on a
strictly smaller frequency). -/
def pick_min_node : List HTree → ℕ
  | [] => 0
  | t :: rest =>
    if rest.isEmpty then 0
    else
      let j := pick_min_node rest
      if (rest.getD j default).weight < t.weight then j + 1 else 0

/-- The combining loop of `build_code_lengths`: repeatedly merge the two
lowest-frequency live nodes (fuel is the initial list length; one merge
removes one live node, so that always suffices). -/
def merge_loop : ℕ → List HTree → HTree
  | 0, ts => ts.headD default
  | fuel + 1, ts =>
    if ts.length ≤ 1 then ts.headD default
    else
      let a := pick_min_node ts
      let ta := ts.getD a default
      let ts1 := ts.eraseIdx a
      let b := pick_min_node ts1
      let tb := ts1.getD b default
      merge_loop fuel ((ts1.eraseIdx b) ++ [HTree.node ta tb])

/-- The DFS over the finished tree (C uses an explicit stack, pushing
left then right, so the right child is expanded first); produces the
`(symbol, depth)` pairs, with the depth-0 safeguard `if (d == 0) d = 1`. -/
def dfs_lens : List (HTree × ℕ) → List (ℕ × ℕ)
  | [] => []
  | (HTree.leaf s _, d) :: rest =>
    (s, if d = 0 then 1 else d) :: dfs_lens rest
  | (HTree.node l r, d) :: rest =>
    dfs_lens ((r, d + 1) :: (l, d + 1) :: rest)
termination_by st => (st.map (fun p => 2 * p.1.size)).sum + st.length
decreasing_by
  · simp [HTree.size]
    omega
  · simp [HTree.size]
    omega

/-- `build_code_lengths(freq)`: leaves for the 256 symbols in order,
empty-input error, the single-symbol special case, the merge loop, the
stack DFS with the `> 32` rejection, and the `lens_out` array writes. -/
def build_code_lengths (freq : ℕ → ℕ) : Except EspErr (ℕ → ℕ) :=
  let leaves := ((List.range 256).filter (fun s => freq s ≠ 0)).map
    (fun s => HTree.leaf s (freq s))
  if leaves.length = 0 then .error .invalidArg
  else if leaves.length = 1 then
    -- Special case: only one symbol. Give it length 1.
    match leaves.headD default with
    | HTree.leaf s _ => pure (Function.update (fun _ => 0) s 1)
    | HTree.node _ _ => .error .fail
  else
    let root := merge_loop leaves.length leaves
    let pairs := dfs_lens [(root, 0)]
    if pairs.any (fun p => 32 < p.2) then .error .invalidSize
    else pure (pairs.foldl (fun f p => Function.update f p.1 p.2) (fun _ => 0))

/-- `cmp_sym_len` as a Boolean order: by length, then by symbol. -/
def sym_len_le (a b : ℕ × ℕ) : Bool :=
  a.2 < b.2 || (a.2 = b.2 && a.1 ≤ b.1)

/-- `build_canonical_codes(lens)`: collect the used symbols (rejecting
lengths above 32 and an empty alphabet), sort by `(length, symbol)`, and
assign consecutive codes, shifting left whenever the length grows.  The
fold state is `(codes array, code, prev_len)`. -/
def build_canonical_codes (lens : ℕ → ℕ) : Except EspErr (ℕ → ℕ) :=
  let list := ((List.range 256).filter (fun s => lens s ≠ 0)).map
    (fun s => (s, lens s))
  if list.any (fun p => 32 < p.2) then .error .invalidSize
  else if list.length = 0 then .error .invalidArg
  else
    let sorted := list.mergeSort sym_len_le
    let st := sorted.foldl
      (fun (st : (ℕ → ℕ) × ℕ × ℕ) p =>
        let code := if st.2.2 < p.2 then st.2.1 * 2^(p.2 - st.2.2) else st.2.1
        let prev_len := if st.2.2 < p.2 then p.2 else st.2.2
        (Function.update st.1 p.1 code, code + 1, prev_len))
      ((fun _ => 0), 0, (sorted.headD (0, 0)).2)
    pure st.1

/-- Decode-arena node (`dec_node_t`; C uses `int16_t` with `-1` for "no
link"). -/
structure dec_node_t where
  left : Option ℕ
  right : Option ℕ
  sym : Option ℕ
  deriving Repr, Inhabited, DecidableEq

/-- Child selection: `bit ? right : left`. -/
def dec_child (nd : dec_node_t) (bit : Bool) : Option ℕ :=
  if bit then nd.right else nd.left

/-- A freshly allocated arena node. -/
def dec_blank : dec_node_t := ⟨none, none, none⟩

/-- One code insertion into the decode arena (the per-symbol body of the
`build_decode_tree` loop): walk the code MSB-first, allocating nodes for
missing links (capacity 2048), then mark the final node with the
symbol. -/
def insert_code (tree : List dec_node_t) (cur : ℕ) (bits : List Bool)
    (s : ℕ) : Except EspErr (List dec_node_t) :=
  match bits with
  | [] => pure (tree.set cur { tree.getD cur default with sym := some s })
  | b :: rest =>
    match dec_child (tree.getD cur default) b with
    | some nxt => insert_code tree nxt rest s
    | none =>
      if 2048 ≤ tree.length then .error .noMem
      else
        let newIdx := tree.length
        let nd := tree.getD cur default
        let tree := tree ++ [⟨none, none, none⟩]
        let tree := tree.set cur
          (if b then { nd with right := some newIdx }
           else { nd with left := some newIdx })
        insert_code tree newIdx rest s

/-- `build_decode_tree(lens, codes)`: node 0 is the root; insert every
used symbol. -/
def build_decode_tree (lens codes : ℕ → ℕ) :
    Except EspErr (List dec_node_t) :=
  (List.range 256).foldlM
    (fun tree s =>
      if lens s = 0 then pure tree
      else insert_code tree 0 (natBits (codes s) (lens s)) s)
    [⟨none, none, none⟩]

/-- Bit-writer state (`bitw_t`): output buffer capacity and position,
the bytes emitted after the header, and the pending-bit buffer. -/
structure bitw_t where
  cap : ℕ
  pos : ℕ
  out : List ℕ
  bitbuf : ℕ
  bitcount : ℕ
  deriving Repr

def bitw_init (cap start_pos : ℕ) : bitw_t := ⟨cap, start_pos, [], 0, 0⟩

/-- The `while (bitcount >= 8)` drain of `bitw_put_bits`: emit the top
byte while at least eight bits are pending. -/
def bitw_drain (w : bitw_t) : Except EspErr bitw_t :=
  if h : 8 ≤ w.bitcount then
    if w.cap ≤ w.pos then .error .noMem
    else
      bitw_drain { w with
        pos := w.pos + 1
        out := w.out ++ [w.bitbuf / 2^(w.bitcount - 8) % 256]
        bitbuf := if w.bitcount - 8 = 0 then 0
                  else w.bitbuf % 2^(w.bitcount - 8)
        bitcount := w.bitcount - 8 }
  else pure w
termination_by w.bitcount
decreasing_by omega

/-- `bitw_put_bits(w, code, nbits)`. -/
def bitw_put_bits (w : bitw_t) (code : ℕ) (nbits : ℕ) :
    Except EspErr bitw_t :=
  if nbits = 0 then pure w
  else if 32 < nbits then .error .invalidSize
  else if 64 < w.bitcount + nbits then .error .invalidSize
  else bitw_drain { w with
    bitbuf := w.bitbuf * 2^nbits + code % 2^nbits
    bitcount := w.bitcount + nbits }

/-- `bitw_flush(w)`: pad the remaining bits with zeros to a full byte. -/
def bitw_flush (w : bitw_t) : Except EspErr bitw_t :=
  if w.bitcount = 0 then pure w
  else if w.cap ≤ w.pos then .error .noMem
  else pure { w with
    pos := w.pos + 1
    out := w.out ++ [w.bitbuf * 2^(8 - w.bitcount) % 256]
    bitbuf := 0
    bitcount := 0 }

/-- Bit-reader state (`bitr_t`). -/
structure bitr_t where
  len : ℕ
  pos : ℕ
  bitbuf : ℕ
  bitcount : ℕ
  deriving Repr

def bitr_init (len start_pos : ℕ) : bitr_t := ⟨len, start_pos, 0, 0⟩

/-- `bitr_get_bit`: refill from the next byte when empty, then hand out
the most significant remaining bit. -/
def bitr_get_bit (src : List ℕ) (r : bitr_t) :
    Except EspErr (Bool × bitr_t) := do
  let r ← if r.bitcount = 0 then
      (if r.len ≤ r.pos then Except.error EspErr.invalidSize
       else pure { r with
          bitbuf := src.getD r.pos 0
          pos := r.pos + 1
          bitcount := 8 })
    else pure r
  pure (decide (r.bitbuf / 2^(r.bitcount - 1) % 2 = 1),
    { r with bitcount := r.bitcount - 1 })

/-- `huffman_bound(in_len)`. -/
def huffman_bound (in_len : ℕ) : ℕ :=
  (4 + 4 + 256) + (in_len * 32 + 7) / 8

/-- The decode loop of `huffman_decompress`: walk the arena bit by bit,
emitting a symbol and resetting to the root at each marked node, until
`orig_len` bytes are produced.  The fuel bounds the iteration count (the
C loop consumes one source bit per step; `8·|src| + 1` always suffices
and the exhaustion branch is proved unreachable). -/
def huffman_walk (src : List ℕ) (tree : List dec_node_t) (orig_len : ℕ) :
    ℕ → ℕ → List ℕ → bitr_t → Except EspErr (List ℕ)
  | fuel, cur, produced, r =>
    if orig_len ≤ produced.length then pure produced
    else
      match fuel with
      | 0 => .error .fail
      | fuel + 1 => do
        let br ← bitr_get_bit src r
        match dec_child (tree.getD cur default) br.1 with
        | none => .error .fail
        | some j =>
          match (tree.getD j default).sym with
          | some s =>
            huffman_walk src tree orig_len fuel 0 (produced ++ [s]) br.2
          | none => huffman_walk src tree orig_len fuel j produced br.2

/-- `huffman_compress(in, in_len, out, out_max)`: returns the written
prefix of the output buffer. -/
def huffman_compress (input : List ℕ) (out_max : ℕ) :
    Except EspErr (List ℕ) := do
  if 0xFFFFFFFF < input.length then throw .invalidSize
  let freq : ℕ → ℕ := fun s => input.count s
  let lens ← build_code_lengths freq
  let codes ← build_canonical_codes lens
  if out_max < HUF_HEADER_SIZE then throw .noMem
  let header := wr_u32_le HUF_MAGIC ++ wr_u32_le input.length ++
    (List.range 256).map lens
  let w0 := bitw_init out_max HUF_HEADER_SIZE
  let w ← input.foldlM
    (fun w s =>
      if lens s = 0 then throw .fail
      else bitw_put_bits w (codes s) (lens s)) w0
  let w ← bitw_flush w
  pure (header ++ w.out)

/-- `huffman_decompress(in, in_len, out, out_max)`. -/
def huffman_decompress (input : List ℕ) (out_max : ℕ) :
    Except EspErr (List ℕ) := do
  if input.length < HUF_HEADER_SIZE then throw .invalidSize
  if rd_u32_le (input.take 4) ≠ HUF_MAGIC then throw .invalidArg
  let orig_len := rd_u32_le ((input.drop 4).take 4)
  if out_max < orig_len then throw .noMem
  let lens : ℕ → ℕ := fun i => (input.drop 8).getD i 0
  if (List.range 256).any (fun i => 32 < lens i) then throw .invalidSize
  let codes ← build_canonical_codes lens
  let tree ← build_decode_tree lens codes
  -- Special case: single-symbol tree (root would be a childless leaf).
  let rootnd := tree.getD 0 default
  if rootnd.sym.isSome ∧ rootnd.left = none ∧ rootnd.right = none then
    pure (List.replicate orig_len (rootnd.sym.getD 0))
  else
    huffman_walk input tree orig_len (8 * input.length + 1) 0 []
      (bitr_init input.length HUF_HEADER_SIZE)

/-! ### Specification vocabulary for the Huffman proofs -/

/-- Numeric value of an MSB-first bit list. -/
def bitsVal (l : List Bool) : ℕ := l.foldl (fun a b => 2 * a + b.toNat) 0

/-- The bit stream a writer state denotes: the flushed bytes followed by
the pending bits. -/
def wBits (w : bitw_t) : List Bool :=
  bytesBits w.out ++ natBits w.bitbuf w.bitcount

/-- The bit stream still ahead of a reader: the pending buffered bits,
then the bits of the unread bytes. -/
def rBits (src : List ℕ) (r : bitr_t) : List Bool :=
  natBits (r.bitbuf % 2^r.bitcount) r.bitcount ++ bytesBits (src.drop r.pos)

/-- Follow a bit path through the decode arena. -/
def follow (tree : List dec_node_t) : ℕ → List Bool → Option ℕ
  | cur, [] => some cur
  | cur, b :: bs =>
    match dec_child (tree.getD cur default) b with
    | none => none
    | some j => follow tree j bs

/-- The symbol a code list assigns to exactly the bit string `p`. -/
def symAt (cl : List (List Bool × ℕ)) (p : List Bool) : Option ℕ :=
  (cl.find? (fun e => e.1 == p)).map (fun e => e.2)

/-- The non-empty prefixes of a set of codes (the arena holds one node
per element, plus the root). -/
def pfxF (cs : List (List Bool)) : Finset (List Bool) :=
  ((cs.flatMap List.inits).filter (fun p => !p.isEmpty)).toFinset

/-- Scaled Kraft sum `Σ 2^(L − l)` of a list of code lengths. -/
def kraft_scaled (L : ℕ) (ls : List ℕ) : ℕ :=
  (ls.map (fun l => 2^(L - l))).sum

/-- Depths of the leaves of a Huffman subtree. -/
def HTree.leafDepths : HTree → List ℕ
  | .leaf _ _ => [0]
  | .node l r => (l.leafDepths ++ r.leafDepths).map (· + 1)

/-- The `(symbol, adjusted depth)` pairs the stack DFS emits for one
subtree pushed at depth `d` (right child first — the stack pops the
last-pushed item). -/
def dfs_pairs_one (t : HTree) (d : ℕ) : List (ℕ × ℕ) :=
  match t with
  | .leaf s _ => [(s, if d = 0 then 1 else d)]
  | .node l r => dfs_pairs_one r (d + 1) ++ dfs_pairs_one l (d + 1)

/-- Fibonacci lower bounds along every leaf path: a leaf at depth `d`
forces subtree weight at least `fib (d + 2)`. -/
def fibOK : HTree → Prop
  | .leaf _ f => 1 ≤ f
  | .node l r => fibOK l ∧ fibOK r ∧
      ∀ d ∈ (HTree.node l r).leafDepths, Nat.fib (d + 2) ≤ (HTree.node l r).weight

/-- The cross bound between two live trees in the merge list: each leaf
depth of one bounds the weight of the other one Fibonacci step lower. -/
def fibCross (t u : HTree) : Prop :=
  (∀ d ∈ t.leafDepths, Nat.fib (d + 1) ≤ u.weight) ∧
  (∀ d ∈ u.leafDepths, Nat.fib (d + 1) ≤ t.weight)

/-- Invariant of the merge loop. -/
def MergeInv (ts : List HTree) : Prop :=
  (∀ t ∈ ts, fibOK t) ∧ ts.Pairwise fibCross

/-- Arena well-formedness: non-empty, and every child link points to a
non-root node inside the arena. -/
def ArenaWF (tree : List dec_node_t) : Prop :=
  tree ≠ [] ∧
  ∀ i < tree.length, ∀ (b : Bool) (j : ℕ),
    dec_child (tree.getD i default) b = some j → 1 ≤ j ∧ j < tree.length

/-- The arena realizes a code list: paths exist exactly for prefixes of
codes, end nodes carry the symbols, distinct paths reach distinct nodes,
and the node count is the prefix count plus the root. -/
def ArenaModels (tree : List dec_node_t) (cl : List (List Bool × ℕ)) :
    Prop :=
  ArenaWF tree ∧
  (∀ p, (∃ c ∈ cl, p <+: c.1) → ∃ j, follow tree 0 p = some j) ∧
  (∀ p j, follow tree 0 p = some j → p = [] ∨ ∃ c ∈ cl, p <+: c.1) ∧
  (∀ p j, follow tree 0 p = some j →
    (tree.getD j default).sym = symAt cl p) ∧
  (∀ p q j, follow tree 0 p = some j → follow tree 0 q = some j → p = q) ∧
  tree.length ≤ 1 + (pfxF (cl.map (fun e => e.1))).card


/-- The code list a `(lens, codes)` table induces on a set of symbols. -/
def clP (lens codes : ℕ → ℕ) (l : List ℕ) : List (List Bool × ℕ) :=
  (l.filter (fun s => lens s ≠ 0)).map
    (fun s => (natBits (codes s) (lens s), s))

/-- Tails of the codes starting with bit `b`. -/
def tailsB (b : Bool) : List (List Bool) → List (List Bool)
  | [] => []
  | [] :: cs => tailsB b cs
  | (c0 :: t) :: cs => if c0 = b then t :: tailsB b cs else tailsB b cs

/-- The canonical-code assignment sequence: the `(entry, code)` pairs
the `build_canonical_codes` fold produces, in order. -/
def canonSeq : List (ℕ × ℕ) → ℕ → ℕ → List ((ℕ × ℕ) × ℕ)
  | [], _, _ => []
  | p :: rest, code, prev =>
    ((p, if prev < p.2 then code * 2^(p.2 - prev) else code) :
      ((ℕ × ℕ) × ℕ)) ::
      canonSeq rest ((if prev < p.2 then code * 2^(p.2 - prev) else code) + 1)
        (if prev < p.2 then p.2 else prev)

/-- Link extension between arenas: every existing link is preserved. -/
def linkExt (t t' : List dec_node_t) : Prop :=
  t.length ≤ t'.length ∧
  ∀ i < t.length, ∀ (b : Bool) (j : ℕ),
    dec_child (t.getD i default) b = some j →
    dec_child (t'.getD i default) b = some j


/-- A concrete two-candidate list for the C7 witness: the first
candidate strictly dominates the second. -/
def c7_witness_cands : List stellar_candidate_t :=
  [{ node_id := 1, utility_values := (fun _ => 1), stellar_score := 0,
     pareto_rank := 0, centrality := 1, is_self := true,
     on_pareto_frontier := false },
   { node_id := 2, utility_values := (fun _ => 1/2), stellar_score := 0,
     pareto_rank := 0, centrality := 1, is_self := false,
     on_pareto_frontier := false }]

/-! # Theorems -/

/-! ## C9: block-buffer append -/

/-- Claim C9: `blockbuf_append(b, data, n)` fails (returns a non-zero
error) exactly when the stored length plus `n` would exceed the buffer
capacity; on failure the buffer is unchanged; on success the length grows
by exactly `n` (and the data is the old data followed by the input). -/
theorem C9_blockbuf_append (b : blockbuf_t) (d : List ℕ) :
    ((blockbuf_append b d).1 ≠ 0 ↔ b.cap < b.data.length + d.length) ∧
    ((blockbuf_append b d).1 ≠ 0 → (blockbuf_append b d).2 = b) ∧
    ((blockbuf_append b d).1 = 0 →
      (blockbuf_append b d).2.data = b.data ++ d ∧
      (blockbuf_append b d).2.data.length = b.data.length + d.length ∧
      (blockbuf_append b d).2.cap = b.cap) := by
  unfold blockbuf_append
  by_cases h : b.data.length + d.length > b.cap <;> simp [h]

/-! ## C3: logger flush compression policy (code bug) -/

/-- Claim C3 names the intended policy of `logger_flush`; the shipped code
hardcodes `use_compression = false` under a `DEBUG` comment, so every
buffered flush is stored raw with `algo = 0` — even when the buffer
reaches `LOGGER_MIN_COMPRESS_BYTES` and the compressor saves more than
`raw_len / LOGGER_MIN_SAVINGS_DIV`.  The second conjunct shows the
bypassed `write_chunk_miniz` would store such a chunk with `algo = 1`,
exhibiting the divergence between `logger_flush` and its own compression
path. -/
theorem C3_logger_flush_always_raw :
    (∀ (crc : List ℕ → ℕ) (compressOp : List ℕ → Option (List ℕ))
       (node_id timestamp : ℕ) (buf : List ℕ),
       (logger_flush_chunk crc compressOp node_id timestamp buf).1.algo = 0) ∧
    (∀ (crc : List ℕ → ℕ) (compressOp : List ℕ → Option (List ℕ))
       (node_id timestamp : ℕ) (buf out : List ℕ),
       LOGGER_MIN_COMPRESS_BYTES ≤ buf.length →
       compressOp buf = some out →
       out.length + LOG_HDR_SIZE <
         buf.length - buf.length / LOGGER_MIN_SAVINGS_DIV →
       (write_chunk_miniz crc compressOp node_id timestamp buf).1.algo = 1) := by
  constructor
  · intro crc compressOp node_id timestamp buf
    rfl
  · intro crc compressOp node_id timestamp buf out hlen hcomp hsave
    unfold write_chunk_miniz
    rw [if_neg (by omega), hcomp]
    simp only [ge_iff_le, not_le.mpr hsave, if_false]

/-- Witness for C3 at a concrete failing input: a 1024-byte buffer and a
compressor that shrinks it to 100 bytes; `logger_flush` stores it raw
while its own `write_chunk_miniz` policy would store it compressed. -/
theorem C3_logger_flush_always_raw_witness :
    (logger_flush_chunk (fun _ => 0) (fun l => some (l.take 100)) 7 9
      (List.replicate 1024 0)).1.algo = 0 ∧
    (write_chunk_miniz (fun _ => 0) (fun l => some (l.take 100)) 7 9
      (List.replicate 1024 0)).1.algo = 1 :=
  ⟨C3_logger_flush_always_raw.1 (fun _ => 0) (fun l => some (l.take 100)) 7 9
      (List.replicate 1024 0),
   C3_logger_flush_always_raw.2 (fun _ => 0) (fun l => some (l.take 100)) 7 9
      (List.replicate 1024 0) ((List.replicate 1024 0).take 100)
      (by simp [LOGGER_MIN_COMPRESS_BYTES]) rfl
      (by simp [LOG_HDR_SIZE, LOGGER_MIN_SAVINGS_DIV])⟩

/-! ## C5: battery mapping (corrected) -/

/-- Counterexample to claim C5 as stated: at the full-scale ADC reading
the measured voltage is `3.3 V`; the claimed `3.3 V ↔ 0%` mapping yields
`0`, but `metrics_read_battery` (simulation disabled) returns `1/4`,
because the code's linear model anchors `0%` at `3.0 V`, not `3.3 V`. -/
theorem C5_battery_counterexample :
    metrics_read_battery 4095 false 0 = 1/4 ∧
    spec_battery_mapping (((4095 : ℚ) / 4095) * (33/10)) = 0 ∧
    (1/4 : ℚ) ≠ 0 := by
  refine ⟨?_, ?_, by norm_num⟩
  · unfold metrics_read_battery
    norm_num
  · unfold spec_battery_mapping
    norm_num

/-- Claim C5, amended: with the compile-time simulation disabled, when
the measured voltage is at or above the 1 V USB-detection threshold the
function returns the linear mapping `3.0 V ↔ 0%`, `4.2 V ↔ 100%` clamped
to `[0,1]`; below the threshold it returns `1`. -/
theorem C5_battery_amended (adc_raw node_id : ℕ) :
    (((adc_raw : ℚ) / 4095) * (33/10) < 1 →
      metrics_read_battery adc_raw false node_id = 1) ∧
    (1 ≤ ((adc_raw : ℚ) / 4095) * (33/10) →
      metrics_read_battery adc_raw false node_id =
        code_battery_mapping (((adc_raw : ℚ) / 4095) * (33/10))) := by
  constructor
  · intro h
    unfold metrics_read_battery
    rw [if_pos h]
  · intro h
    unfold metrics_read_battery code_battery_mapping
    rw [if_neg (not_lt.mpr h)]
    simp only [Bool.false_eq_true, if_false]
    set x : ℚ := (((adc_raw : ℚ) / 4095) * (33/10) - 3) / (12/10) with hx
    rcases lt_or_le x 0 with h0 | h0
    · rw [if_pos h0, if_neg (by norm_num), min_eq_right (by linarith),
        max_eq_left (le_of_lt h0)]
    · rw [if_neg (not_lt.mpr h0)]
      rcases le_or_lt x 1 with h1 | h1
      · rw [if_neg (not_lt.mpr h1), min_eq_right h1, max_eq_right h0]
      · rw [if_pos h1, min_eq_left (le_of_lt h1), max_eq_right (by norm_num)]

/-- Witness for C5 (amended): both branches at concrete ADC readings. -/
theorem C5_battery_amended_witness :
    metrics_read_battery 0 false 3 = 1 ∧
    metrics_read_battery 4095 false 3 =
      code_battery_mapping (((4095 : ℚ) / 4095) * (33/10)) :=
  ⟨(C5_battery_amended 0 3).1 (by norm_num),
   (C5_battery_amended 4095 3).2 (by norm_num)⟩

/-! ## C6: replay window (corrected) -/

/-- Counterexample to claim C6 as stated: at `now = 0` the timestamp `1`
lies inside `now ± REPLAY_WINDOW_MS` and the node is unknown, so the
claim demands acceptance; the code rejects it, because
`now_ms - REPLAY_WINDOW_MS` underflows in `uint64_t` and the freshness
test compares against `2^64 - 60000`. -/
theorem C6_replay_counterexample :
    (auth_check_replay [] 0 1 5).1 = false ∧
    ((0 : ℤ) - (REPLAY_WINDOW_MS : ℤ) ≤ 1 ∧
      (1 : ℤ) ≤ 0 + (REPLAY_WINDOW_MS : ℤ)) ∧
    ([] : List (ℕ × ℕ)).findIdx? (fun e => e.1 == 5) = none := by
  refine ⟨?_, by norm_num [REPLAY_WINDOW_MS], rfl⟩
  unfold auth_check_replay u64add u64sub REPLAY_WINDOW_MS
  norm_num

/-- Claim C6, amended: provided `now ≥ REPLAY_WINDOW_MS` (so the window
subtraction does not underflow) and `now + REPLAY_WINDOW_MS < 2^64`,
`auth_check_replay` accepts exactly the timestamps inside
`now ± REPLAY_WINDOW_MS` that strictly exceed the node's last accepted
timestamp; the table never exceeds `MAX_REPLAY_ENTRIES`, and when full a
new node evicts the oldest entry FIFO. -/
theorem C6_replay_amended (tbl : List (ℕ × ℕ)) (now_ms ts node : ℕ)
    (hwin : REPLAY_WINDOW_MS ≤ now_ms)
    (hnow : now_ms + REPLAY_WINDOW_MS < 2^64)
    (hlen : tbl.length ≤ MAX_REPLAY_ENTRIES) :
    ((auth_check_replay tbl now_ms ts node).1 = true ↔
      (now_ms - REPLAY_WINDOW_MS ≤ ts ∧ ts ≤ now_ms + REPLAY_WINDOW_MS ∧
        ∀ i, tbl.findIdx? (fun e => e.1 == node) = some i →
          (tbl.getD i (0, 0)).2 < ts)) ∧
    (auth_check_replay tbl now_ms ts node).2.length ≤ MAX_REPLAY_ENTRIES ∧
    (tbl.length = MAX_REPLAY_ENTRIES →
      tbl.findIdx? (fun e => e.1 == node) = none →
      (auth_check_replay tbl now_ms ts node).1 = true →
      (auth_check_replay tbl now_ms ts node).2 =
        tbl.drop 1 ++ [(node, ts)]) := by
  have h64 : (2 : ℕ)^64 = 18446744073709551616 := by norm_num
  have hW : REPLAY_WINDOW_MS = 60000 := rfl
  have hM : MAX_REPLAY_ENTRIES = 20 := rfl
  have hadd : u64add now_ms REPLAY_WINDOW_MS = now_ms + REPLAY_WINDOW_MS := by
    unfold u64add
    rw [h64] at hnow ⊢
    rw [hW] at hnow ⊢
    omega
  have hsub : u64sub now_ms REPLAY_WINDOW_MS = now_ms - REPLAY_WINDOW_MS := by
    unfold u64sub
    rw [h64] at hnow ⊢
    rw [hW] at hnow hwin ⊢
    omega
  unfold auth_check_replay
  rw [hadd, hsub]
  by_cases hfresh : ts > now_ms + REPLAY_WINDOW_MS ∨ ts < now_ms - REPLAY_WINDOW_MS
  · rw [if_pos hfresh]
    refine ⟨?_, hlen, fun _ _ h => by simp at h⟩
    simp only [Bool.false_eq_true, false_iff, not_and]
    intro h1 h2
    exact absurd hfresh (by omega)
  · rw [if_neg hfresh]
    push_neg at hfresh
    rcases hidx : tbl.findIdx? (fun e => e.1 == node) with - | i
    · simp only [hidx]
      by_cases hfull : tbl.length < MAX_REPLAY_ENTRIES
      · rw [if_pos hfull]
        refine ⟨?_, by simp [List.length_append]; omega, fun h => by omega⟩
        simp only [true_iff]
        exact ⟨hfresh.2, hfresh.1, fun j hj => by cases hj⟩
      · rw [if_neg hfull]
        refine ⟨?_, ?_, fun _ _ _ => rfl⟩
        · simp only [true_iff]
          exact ⟨hfresh.2, hfresh.1, fun j hj => by cases hj⟩
        · simp only [List.length_append, List.length_drop]
          simp only [List.length_cons, List.length_nil]
          omega
    · simp only [hidx]
      by_cases hlast : ts ≤ (tbl.getD i (0, 0)).2
      · rw [if_pos hlast]
        refine ⟨?_, hlen, fun _ hn => by simp [hidx] at hn⟩
        simp only [Bool.false_eq_true, false_iff, not_and]
        intro _ _
        intro hall
        exact absurd (hall i rfl) (not_lt.mpr hlast)
      · rw [if_neg hlast]
        refine ⟨?_, by simpa using hlen, fun _ hn => by simp [hidx] at hn⟩
        simp only [true_iff]
        refine ⟨hfresh.2, hfresh.1, fun j hj => ?_⟩
        cases hj
        exact not_le.mp hlast

/-- Witness for C6 (amended): a known node with an older stored
timestamp is accepted inside the window. -/
theorem C6_replay_amended_witness :
    (auth_check_replay [(5, 10)] 60000 70000 5).2.length ≤
      MAX_REPLAY_ENTRIES :=
  (C6_replay_amended [(5, 10)] 60000 70000 5 (by norm_num [REPLAY_WINDOW_MS])
    (by norm_num [REPLAY_WINDOW_MS])
    (by norm_num [MAX_REPLAY_ENTRIES])).2.1

/-! ## C8: PER gap accounting -/

/-- The code's missed-count computation agrees with the claim's formula
on `uint8_t` sequence numbers. -/
theorem nm_missed_eq_claim_missed (seq last : ℕ) (hs : seq < 256)
    (hl : last < 256) : nm_missed seq last = claim_missed seq last := by
  simp only [nm_missed, claim_missed]
  omega

/-- Claim C8: for every beacon from an already-known neighbor,
`neighbor_manager_update` reports one batch of `(1 received, missed
lost)` where `missed = ((seq − last_seq) mod 256) − 1` when positive and
`0` otherwise, with values above `20` treated as `0`; and on the
sequence-number stream `0, 2, 3, 7` the reported missed counts are
`1, 0, 3`. -/
theorem C8_per_gap_accounting :
    (∀ (tbl : List neighbor_entry_t) (now_ms node_id : ℕ) (mac : List ℕ)
       (rssi score battery : ℚ) (uptime : ℕ) (trust lq : ℚ) (is_ch : Bool)
       (seq i : ℕ),
       tbl.findIdx? (fun e => e.node_id == node_id) = some i →
       seq < 256 → (tbl.getD i default).last_seq_num < 256 →
       (neighbor_manager_update tbl now_ms node_id mac rssi score battery
         uptime trust lq is_ch seq).2 =
         some (1, claim_missed seq (tbl.getD i default).last_seq_num)) ∧
    nm_run_seq_stream [0, 2, 3, 7] =
      [none, some (1, 1), some (1, 0), some (1, 3)] := by
  constructor
  · intro tbl now_ms node_id mac rssi score battery uptime trust lq is_ch
      seq i hidx hs hl
    unfold neighbor_manager_update
    rw [hidx]
    dsimp only
    rw [nm_missed_eq_claim_missed seq _ hs hl]
  · rfl

/-- Witness for C8: a table holding one entry with `last_seq = 250`
receiving `seq = 2` reports a gap of `7` missed packets. -/
theorem C8_per_gap_accounting_witness :
    (neighbor_manager_update
      [{ (default : neighbor_entry_t) with node_id := 9, last_seq_num := 250 }]
      0 9 [] 0 0 0 0 0 0 false 2).2 = some (1, claim_missed 2 250) :=
  C8_per_gap_accounting.1
    [{ (default : neighbor_entry_t) with node_id := 9, last_seq_num := 250 }]
    0 9 [] 0 0 0 0 0 0 false 2 0 rfl (by norm_num) (by norm_num)

/-! ## C10: unconditional verification in neighbor updates -/

/-- Claim C10: `neighbor_manager_update` sets `verified = true`
unconditionally both when refreshing an existing entry and when
inserting a new one, whatever trust value the beacon carries; the
trust-gated rule (`verified` set only once trust exceeds `0.3`, and
never cleared) lives only in `neighbor_manager_update_trust`. -/
theorem C10_verified_unconditional :
    (∀ (tbl : List neighbor_entry_t) (now_ms node_id : ℕ) (mac : List ℕ)
       (rssi score battery : ℚ) (uptime : ℕ) (trust lq : ℚ) (is_ch : Bool)
       (seq i : ℕ),
       tbl.findIdx? (fun e => e.node_id == node_id) = some i →
       (((neighbor_manager_update tbl now_ms node_id mac rssi score battery
          uptime trust lq is_ch seq).1.getD i default).verified = true)) ∧
    (∀ (tbl : List neighbor_entry_t) (now_ms node_id : ℕ) (mac : List ℕ)
       (rssi score battery : ℚ) (uptime : ℕ) (trust lq : ℚ) (is_ch : Bool)
       (seq : ℕ),
       tbl.findIdx? (fun e => e.node_id == node_id) = none →
       tbl.length < MAX_NEIGHBORS →
       (((neighbor_manager_update tbl now_ms node_id mac rssi score battery
          uptime trust lq is_ch seq).1.getD tbl.length default).verified =
          true)) ∧
    (∀ (tbl : List neighbor_entry_t) (node_id : ℕ) (success : Bool) (i : ℕ),
       tbl.findIdx? (fun e => e.node_id == node_id) = some i →
       ((neighbor_manager_update_trust tbl node_id success).getD i
          default).verified =
         (if (9/10 : ℚ) * (tbl.getD i default).trust +
             (1/10) * (if success then 1 else 0) > 3/10 then true
          else (tbl.getD i default).verified)) := by
  refine ⟨?_, ?_, ?_⟩
  · intro tbl now_ms node_id mac rssi score battery uptime trust lq is_ch
      seq i hidx
    have hi : i < tbl.length :=
      (List.findIdx?_eq_some_iff_findIdx_eq.mp hidx).1
    unfold neighbor_manager_update
    rw [hidx]
    simp only [List.getD_eq_getElem?_getD, List.getElem?_set_self
      (by simpa using hi)]
    rfl
  · intro tbl now_ms node_id mac rssi score battery uptime trust lq is_ch
      seq hidx hlen
    unfold neighbor_manager_update
    rw [hidx, if_pos hlen]
    simp only [List.getD_eq_getElem?_getD, List.getElem?_append_right
      (le_refl tbl.length), Nat.sub_self]
    rfl
  · intro tbl node_id success i hidx
    have hi : i < tbl.length :=
      (List.findIdx?_eq_some_iff_findIdx_eq.mp hidx).1
    unfold neighbor_manager_update_trust
    rw [hidx]
    simp only [List.getD_eq_getElem?_getD, List.getElem?_set_self
      (by simpa using hi)]
    split <;> rfl

/-- Witness for C10: a refresh carrying `trust = 0` still sets
`verified`. -/
theorem C10_verified_unconditional_witness :
    ((neighbor_manager_update
      [{ (default : neighbor_entry_t) with node_id := 4, verified := false }]
      0 4 [] 0 0 0 0 0 0 false 0).1.getD 0 default).verified = true :=
  C10_verified_unconditional.1
    [{ (default : neighbor_entry_t) with node_id := 4, verified := false }]
    0 4 [] 0 0 0 0 0 0 false 0 0 rfl

/-! ## C2: STELLAR score formula -/

/-- Claim C2: `metrics_compute_stellar_score` returns exactly the sum of
the weighted utilities, multiplied by the centrality factor
`1/(1 + ε·(1 − centrality))`, plus the additive Pareto bonus
`δ·(pareto_rank/10)` — the bonus is added after, not inside, the
centrality product (`Ψ = base·κ + ρ`). -/
theorem C2_stellar_score_formula (sw : Fin 4 → ℝ) (metrics : node_metrics_t)
    (pareto_rank : ℤ) (centrality : ℝ) :
    metrics_compute_stellar_score sw metrics pareto_rank centrality =
      spec_stellar_score sw metrics pareto_rank centrality := by
  unfold metrics_compute_stellar_score spec_stellar_score stellar_utilities
  have hmin : min ((metrics.uptime_seconds : ℝ) / (UPTIME_MAX_DAYS * 86400)) 1 =
      (if (metrics.uptime_seconds : ℝ) / (UPTIME_MAX_DAYS * 86400) > 1 then 1
       else (metrics.uptime_seconds : ℝ) / (UPTIME_MAX_DAYS * 86400)) := by
    rcases le_or_lt ((metrics.uptime_seconds : ℝ) / (UPTIME_MAX_DAYS * 86400)) 1
      with h | h
    · rw [min_eq_left h, if_neg (not_lt.mpr h)]
    · rw [min_eq_right h.le, if_pos h]
  rw [Fin.sum_univ_four]
  simp only [Matrix.cons_val_zero, Matrix.cons_val_one, Matrix.head_cons,
    Matrix.cons_val_two, Matrix.tail_cons, Matrix.cons_val_three]
  rw [hmin]

/-! ## C4: simplex invariant of the Lyapunov weight update -/

/-- Componentwise bounds on the base weight vector. -/
theorem stellar_base_weights_bounds :
    ∀ i, 1/5 ≤ stellar_base_weights i ∧ stellar_base_weights i ≤ 3/10 := by
  intro i
  fin_cases i <;>
    norm_num [stellar_base_weights, WEIGHT_BATTERY, WEIGHT_UPTIME,
      WEIGHT_TRUST, WEIGHT_LINK_QUALITY]

/-- The base weights sum to one. -/
theorem stellar_base_weights_sum : (∑ i : Fin 4, stellar_base_weights i) = 1 := by
  rw [Fin.sum_univ_four]
  norm_num [stellar_base_weights, WEIGHT_BATTERY, WEIGHT_UPTIME,
    WEIGHT_TRUST, WEIGHT_LINK_QUALITY]

/-- With a confidence vector in `[0,1]^4` the `MIN_WEIGHT_VALUE` clamp in
the target computation is inactive and the raw target lies in
`[7/40, 33/80]`. -/
theorem stellar_target_raw_bounds (c : Fin 4 → ℚ)
    (hc : ∀ i, 0 ≤ c i ∧ c i ≤ 1) (i : Fin 4) :
    7/40 ≤ stellar_target_raw c i ∧
    stellar_target_raw c i ≤ (11/8) * stellar_base_weights i := by
  obtain ⟨hb1, hb2⟩ := stellar_base_weights_bounds i
  obtain ⟨hc1, hc2⟩ := hc i
  have hfac1 : (7/8 : ℚ) ≤ 1 + (1/2) * (c i - 1/4) := by linarith
  have hfac2 : 1 + (1/2) * (c i - 1/4) ≤ 11/8 := by linarith
  have hlb : 7/40 ≤ stellar_base_weights i * (1 + (1/2) * (c i - 1/4)) := by
    nlinarith
  have hub : stellar_base_weights i * (1 + (1/2) * (c i - 1/4)) ≤
      (11/8) * stellar_base_weights i := by nlinarith
  unfold stellar_target_raw
  dsimp only
  rw [if_neg (by rw [show MIN_WEIGHT_VALUE = 5/100 from rfl]; linarith)]
  exact ⟨hlb, hub⟩

/-- The raw-target sum lies in `[7/10, 11/8]` (in particular it is
positive). -/
theorem stellar_target_raw_sum_bounds (c : Fin 4 → ℚ)
    (hc : ∀ i, 0 ≤ c i ∧ c i ≤ 1) :
    7/10 ≤ (∑ j : Fin 4, stellar_target_raw c j) ∧
    (∑ j : Fin 4, stellar_target_raw c j) ≤ 11/8 := by
  constructor
  · calc (7/10 : ℚ) = ∑ _j : Fin 4, 7/40 := by
          rw [Fin.sum_univ_four]; norm_num
      _ ≤ ∑ j : Fin 4, stellar_target_raw c j :=
          Finset.sum_le_sum fun j _ => (stellar_target_raw_bounds c hc j).1
  · calc (∑ j : Fin 4, stellar_target_raw c j)
        ≤ ∑ j : Fin 4, (11/8) * stellar_base_weights j :=
          Finset.sum_le_sum fun j _ => (stellar_target_raw_bounds c hc j).2
      _ = (11/8) * ∑ j : Fin 4, stellar_base_weights j := by
          rw [Finset.mul_sum]
      _ = 11/8 := by rw [stellar_base_weights_sum, mul_one]

/-- Normalized targets are bounded below by `7/55` and sum to one. -/
theorem stellar_target_weights_spec (c : Fin 4 → ℚ)
    (hc : ∀ i, 0 ≤ c i ∧ c i ≤ 1) :
    (∀ i, 7/55 ≤ stellar_target_weights c i) ∧
    (∑ i : Fin 4, stellar_target_weights c i) = 1 := by
  obtain ⟨hS1, hS2⟩ := stellar_target_raw_sum_bounds c hc
  have hSpos : (0 : ℚ) < ∑ j : Fin 4, stellar_target_raw c j := by linarith
  constructor
  · intro i
    obtain ⟨hti, -⟩ := stellar_target_raw_bounds c hc i
    unfold stellar_target_weights
    rw [le_div_iff₀ hSpos]
    nlinarith
  · unfold stellar_target_weights
    rw [← Finset.sum_div, div_self (ne_of_gt hSpos)]

/-- Projection is the identity on vectors already on the simplex with
the `MIN_WEIGHT_VALUE` floor. -/
theorem project_onto_simplex_eq_self (w : Fin 4 → ℚ)
    (hmin : ∀ i, MIN_WEIGHT_VALUE ≤ w i)
    (hsum : (∑ i : Fin 4, w i) = 1) : project_onto_simplex w = w := by
  unfold project_onto_simplex
  have hcl : ∀ i : Fin 4,
      (if w i < MIN_WEIGHT_VALUE then MIN_WEIGHT_VALUE else w i) = w i :=
    fun i => if_neg (not_lt.mpr (hmin i))
  simp only [hcl, hsum]
  rw [if_pos one_pos]
  funext i
  exact div_one _

/-- One step of `metrics_update_stellar_weights` preserves the simplex
invariant exactly (in exact arithmetic). -/
theorem metrics_update_stellar_weights_invariant (sw : stellar_weights_t)
    (c : Fin 4 → ℚ) (hw : WeightsInvariant sw.weights)
    (hc : ∀ i, 0 ≤ c i ∧ c i ≤ 1) :
    WeightsInvariant (metrics_update_stellar_weights sw c).weights := by
  obtain ⟨hsum, hmin⟩ := hw
  obtain ⟨htlb, htsum⟩ := stellar_target_weights_spec c hc
  have hM : MIN_WEIGHT_VALUE = 5/100 := rfl
  -- the gradient step is the convex combination (949/1000)·w + (51/1000)·t
  have hstep : ∀ i, sw.weights i -
      LYAPUNOV_ETA * stellar_gradient sw.weights (stellar_target_weights c) i =
      (949/1000) * sw.weights i + (51/1000) * stellar_target_weights c i := by
    intro i
    unfold stellar_gradient LYAPUNOV_ETA LYAPUNOV_BETA
    ring
  have hstep_lb : ∀ i, MIN_WEIGHT_VALUE ≤ sw.weights i -
      LYAPUNOV_ETA * stellar_gradient sw.weights (stellar_target_weights c) i := by
    intro i
    rw [hstep i, hM]
    have h1 := hmin i
    have h2 := htlb i
    rw [hM] at h1
    nlinarith
  have hstep_sum : (∑ i : Fin 4, (sw.weights i -
      LYAPUNOV_ETA * stellar_gradient sw.weights (stellar_target_weights c) i))
      = 1 := by
    calc (∑ i : Fin 4, (sw.weights i -
        LYAPUNOV_ETA * stellar_gradient sw.weights (stellar_target_weights c) i))
        = ∑ i : Fin 4, ((949/1000) * sw.weights i +
            (51/1000) * stellar_target_weights c i) :=
          Finset.sum_congr rfl fun i _ => hstep i
      _ = (949/1000) * (∑ i : Fin 4, sw.weights i) +
            (51/1000) * (∑ i : Fin 4, stellar_target_weights c i) := by
          rw [Finset.sum_add_distrib, Finset.mul_sum, Finset.mul_sum]
      _ = 1 := by rw [hsum, htsum]; norm_num
  unfold metrics_update_stellar_weights
  dsimp only
  rw [project_onto_simplex_eq_self _ hstep_lb hstep_sum]
  exact ⟨hstep_sum, hstep_lb⟩

/-- The boot-time weight state satisfies the invariant. -/
theorem g_stellar_weights_init_invariant :
    WeightsInvariant g_stellar_weights_init.weights := by
  constructor
  · rw [Fin.sum_univ_four]
    norm_num [g_stellar_weights_init, WEIGHT_BATTERY, WEIGHT_UPTIME,
      WEIGHT_TRUST, WEIGHT_LINK_QUALITY]
  · intro i
    fin_cases i <;>
      norm_num [g_stellar_weights_init, MIN_WEIGHT_VALUE, WEIGHT_BATTERY,
        WEIGHT_UPTIME, WEIGHT_TRUST, WEIGHT_LINK_QUALITY]

/-- Every reachable weight state satisfies the simplex invariant. -/
theorem reachable_weights_invariant (sw : stellar_weights_t)
    (h : ReachableWeights sw) : WeightsInvariant sw.weights := by
  induction h with
  | init => exact g_stellar_weights_init_invariant
  | step sw c _ hc ih => exact metrics_update_stellar_weights_invariant sw c ih hc

/-- Claim C4: after every call to `metrics_update_stellar_weights` from
any reachable weight state (and any variance/confidence state, whose
confidence vector lies in `[0,1]^4`), the four adaptive weights sum to
`1` within `1e-5` and each weight is at least `MIN_WEIGHT_VALUE − 1e-6`.
In exact arithmetic the sum is exactly `1` and the floor holds without
slack. -/
theorem C4_simplex_invariant (sw : stellar_weights_t) (c : Fin 4 → ℚ)
    (hsw : ReachableWeights sw) (hc : ∀ i, 0 ≤ c i ∧ c i ≤ 1) :
    |(∑ i : Fin 4, (metrics_update_stellar_weights sw c).weights i) - 1| ≤
      1/100000 ∧
    ∀ i, MIN_WEIGHT_VALUE - 1/1000000 ≤
      (metrics_update_stellar_weights sw c).weights i := by
  obtain ⟨h1, h2⟩ := metrics_update_stellar_weights_invariant sw c
    (reachable_weights_invariant sw hsw) hc
  refine ⟨by rw [h1]; norm_num, fun i => by have := h2 i; linarith⟩

/-- Witness for C4 at the boot state with the uniform confidence
vector. -/
theorem C4_simplex_invariant_witness :
    |(∑ i : Fin 4, (metrics_update_stellar_weights g_stellar_weights_init
      (fun _ => 1/4)).weights i) - 1| ≤ 1/100000 :=
  (C4_simplex_invariant g_stellar_weights_init (fun _ => 1/4)
    ReachableWeights.init (fun _ => by norm_num)).1

/-! ## C7: Pareto frontier and Nash selection -/

/-- Unfolding of the `pareto_dominates` dimension loop. -/
theorem pareto_dominates_loop_spec (a b : stellar_candidate_t) :
    ∀ (l : List (Fin 4)) (flag : Bool),
      pareto_dominates_loop a b l flag = true ↔
        ((∀ i ∈ l, b.utility_values i ≤ a.utility_values i) ∧
          (flag = true ∨ ∃ i ∈ l, b.utility_values i < a.utility_values i)) := by
  intro l
  induction l with
  | nil => intro flag; simp [pareto_dominates_loop]
  | cons j rest ih =>
    intro flag
    unfold pareto_dominates_loop
    by_cases hj : a.utility_values j < b.utility_values j
    · rw [if_pos hj]
      simp only [Bool.false_eq_true, false_iff, not_and]
      intro hall
      exact absurd (hall j (List.mem_cons_self j rest)) (not_le.mpr hj)
    · rw [if_neg hj]
      rw [ih]
      push_neg at hj
      constructor
      · rintro ⟨hall, hflag⟩
        refine ⟨?_, ?_⟩
        · intro i hi
          rcases List.mem_cons.mp hi with rfl | hi
          · exact hj
          · exact hall i hi
        · rcases hflag with hflag | ⟨i, hi, hlt⟩
          · rcases Bool.or_eq_true_iff.mp hflag with hf | hf
            · exact Or.inl hf
            · exact Or.inr ⟨j, List.mem_cons_self j rest, of_decide_eq_true hf⟩
          · exact Or.inr ⟨i, List.mem_cons.mpr (Or.inr hi), hlt⟩
      · rintro ⟨hall, hflag⟩
        refine ⟨fun i hi => hall i (List.mem_cons.mpr (Or.inr hi)), ?_⟩
        rcases hflag with hflag | ⟨i, hi, hlt⟩
        · exact Or.inl (by simp [hflag])
        · rcases List.mem_cons.mp hi with rfl | hi
          · exact Or.inl (by simp [hlt])
          · exact Or.inr ⟨i, hi, hlt⟩

/-- `pareto_dominates` decides the dominance proposition. -/
theorem pareto_dominates_iff (a b : stellar_candidate_t) :
    pareto_dominates a b = true ↔ DominatesProp a b := by
  unfold pareto_dominates DominatesProp
  rw [pareto_dominates_loop_spec]
  have hmem : ∀ i : Fin 4, i ∈ ([0, 1, 2, 3] : List (Fin 4)) := by
    intro i
    fin_cases i <;> simp
  constructor
  · rintro ⟨hall, hflag⟩
    refine ⟨fun i => hall i (hmem i), ?_⟩
    rcases hflag with h | ⟨i, -, hlt⟩
    · cases h
    · exact ⟨i, hlt⟩
  · rintro ⟨hall, i, hlt⟩
    exact ⟨fun i _ => hall i, Or.inr ⟨i, hmem i, hlt⟩⟩

/-- Characterization of the `pareto_scan` fold: the first component
counts the dominated candidates, the second is the non-dominated flag. -/
theorem pareto_scan_spec (cands : List stellar_candidate_t) (i : ℕ) :
    (pareto_scan cands i).1 =
      ((List.range cands.length).filter (fun j => j ≠ i ∧
        pareto_dominates (cands.getD i default) (cands.getD j default))).length ∧
    ((pareto_scan cands i).2 = true ↔
      ∀ j, j < cands.length → j ≠ i →
        ¬ pareto_dominates (cands.getD j default) (cands.getD i default) = true) := by
  have key : ∀ (l : List ℕ) (st : ℕ × Bool),
      l.foldl (fun (st : ℕ × Bool) j =>
        if j = i then st
        else
          let st := if pareto_dominates (cands.getD i default)
              (cands.getD j default) then (st.1 + 1, st.2) else st
          if pareto_dominates (cands.getD j default) (cands.getD i default)
          then (st.1, false) else st) st =
      (st.1 + (l.filter (fun j => j ≠ i ∧
          pareto_dominates (cands.getD i default) (cands.getD j default))).length,
       st.2 && l.all (fun j => j = i ||
          !pareto_dominates (cands.getD j default) (cands.getD i default))) := by
    intro l
    induction l with
    | nil => intro st; simp
    | cons j rest ih =>
      intro st
      rw [List.foldl_cons, ih]
      by_cases hj : j = i
      · subst hj
        simp [List.filter_cons, List.all_cons]
      · by_cases hd1 : pareto_dominates (cands[i]?.getD default)
            (cands[j]?.getD default) = true
        · by_cases hd2 : pareto_dominates (cands[j]?.getD default)
              (cands[i]?.getD default) = true
          · simp only [hj, hd1, hd2, List.filter_cons, List.all_cons]
            simp [hj, hd1, hd2]
            omega
          · simp only [hj, hd1, hd2, List.filter_cons, List.all_cons]
            simp [hj, hd1, hd2]
            omega
        · by_cases hd2 : pareto_dominates (cands[j]?.getD default)
              (cands[i]?.getD default) = true
          · simp [hj, hd1, hd2, List.filter_cons, List.all_cons]
          · simp [hj, hd1, hd2, List.filter_cons, List.all_cons]
  unfold pareto_scan
  rw [key]
  constructor
  · simp
  · simp only [Bool.true_and, List.all_eq_true]
    constructor
    · intro hall j hjlt hji
      have := hall j (List.mem_range.mpr hjlt)
      simpa [hji] using this
    · intro hall j hj
      rcases eq_or_ne j i with rfl | hji
      · simp
      · have h := hall j (List.mem_range.mp hj) hji
        rw [List.getD_eq_getElem?_getD, List.getD_eq_getElem?_getD] at h
        simp [hji, h]

/-- Access to the frontier computation at index `i`. -/
theorem compute_pareto_frontier_getD (cands : List stellar_candidate_t)
    (i : ℕ) (hi : i < cands.length) :
    (compute_pareto_frontier cands).getD i default =
      { cands.getD i default with
        pareto_rank := (pareto_scan cands i).1
        on_pareto_frontier := (pareto_scan cands i).2 } := by
  unfold compute_pareto_frontier
  have hi' : i < (cands.mapIdx (fun i c =>
      let st := pareto_scan cands i
      { c with pareto_rank := st.1, on_pareto_frontier := st.2 })).length := by
    rw [List.length_mapIdx]; exact hi
  simp only [List.getD_eq_getElem?_getD, List.getElem?_eq_getElem hi',
    List.getElem_mapIdx, Option.getD_some, List.getElem?_eq_getElem hi]

/-- The Nash fold only ever installs the id of a frontier member. -/
theorem nash_fold_membership (ln : ℚ → ℚ) (sw_weights : Fin 4 → ℚ)
    (cands : List stellar_candidate_t) :
    ∀ (l : List stellar_candidate_t) (st : ℚ × ℕ),
      (∀ c ∈ l, c ∈ cands) →
      (st.2 = 0 ∨ ∃ c ∈ cands, c.on_pareto_frontier = true ∧ c.node_id = st.2) →
      ((l.foldl (fun (st : ℚ × ℕ) c =>
        if !c.on_pareto_frontier then st
        else
          match nash_product_loop ln sw_weights c [0, 1, 2, 3] 0 with
          | none => st
          | some nash_product =>
            if nash_product > st.1 then (nash_product, c.node_id) else st) st).2
        = 0 ∨
       ∃ c ∈ cands, c.on_pareto_frontier = true ∧
         c.node_id = (l.foldl (fun (st : ℚ × ℕ) c =>
          if !c.on_pareto_frontier then st
          else
            match nash_product_loop ln sw_weights c [0, 1, 2, 3] 0 with
            | none => st
            | some nash_product =>
              if nash_product > st.1 then (nash_product, c.node_id) else st)
          st).2) := by
  intro l
  induction l with
  | nil => intro st _ hst; exact hst
  | cons c rest ih =>
    intro st hmem hst
    rw [List.foldl_cons]
    refine ih _ (fun d hd => hmem d (List.mem_cons.mpr (Or.inr hd))) ?_
    by_cases hf : c.on_pareto_frontier
    · rw [if_neg (by simp [hf])]
      rcases hnp : nash_product_loop ln sw_weights c [0, 1, 2, 3] 0 with - | p
      · exact hst
      · dsimp only
        by_cases hgt : p > st.1
        · rw [if_pos hgt]
          exact Or.inr ⟨c, hmem c (List.mem_cons_self c rest), hf, rfl⟩
        · rw [if_neg hgt]
          exact hst
    · rw [if_pos (by simp [hf])]
      exact hst

/-- Claim C7: after `compute_pareto_frontier`, a candidate is marked
`on_pareto_frontier` iff no other candidate dominates it; its
`pareto_rank` is the number of candidates it dominates; the node
returned by `nash_bargaining_selection` (when it returns a winner) is
the id of a candidate marked `on_pareto_frontier`; and the score-based
fallbacks in the election apply only when Nash returns no winner. -/
theorem C7_pareto_nash (cands : List stellar_candidate_t)
    (ln : ℚ → ℚ) (sw_weights : Fin 4 → ℚ) (i : ℕ) (hi : i < cands.length) :
    (((compute_pareto_frontier cands).getD i default).on_pareto_frontier = true ↔
      ∀ j, j < cands.length → j ≠ i →
        ¬ DominatesProp (cands.getD j default) (cands.getD i default)) ∧
    ((compute_pareto_frontier cands).getD i default).pareto_rank =
      ((List.range cands.length).filter (fun j => decide (j ≠ i ∧
        DominatesProp (cands.getD i default) (cands.getD j default)))).length ∧
    (nash_bargaining_selection ln sw_weights cands ≠ 0 →
      ∃ c ∈ cands, c.on_pareto_frontier = true ∧
        c.node_id = nash_bargaining_selection ln sw_weights cands) ∧
    (nash_bargaining_selection ln sw_weights cands ≠ 0 →
      election_select_winner ln sw_weights cands =
        nash_bargaining_selection ln sw_weights cands) := by
  obtain ⟨hrank, hflag⟩ := pareto_scan_spec cands i
  refine ⟨?_, ?_, ?_, ?_⟩
  · rw [compute_pareto_frontier_getD cands i hi]
    show (pareto_scan cands i).2 = true ↔ _
    rw [hflag]
    constructor
    · intro h j hj hji hdom
      exact h j hj hji ((pareto_dominates_iff _ _).mpr hdom)
    · intro h j hj hji hdom
      exact h j hj hji ((pareto_dominates_iff _ _).mp hdom)
  · rw [compute_pareto_frontier_getD cands i hi]
    show (pareto_scan cands i).1 = _
    rw [hrank]
    congr 1
    apply List.filter_congr
    intro j _
    rw [decide_eq_decide]
    exact and_congr_right fun _ => pareto_dominates_iff _ _
  · intro hne
    have := nash_fold_membership ln sw_weights cands cands
      (-1000000000, 0) (fun c hc => hc) (Or.inl rfl)
    unfold nash_bargaining_selection at hne ⊢
    rcases this with h | h
    · exact absurd h hne
    · exact h
  · intro hne
    unfold election_select_winner
    simp only [if_neg hne]

/-- Witness for C7 on a concrete two-candidate list: the first strictly
dominates the second, so it alone is on the frontier. -/
theorem C7_pareto_nash_witness :
    ((compute_pareto_frontier c7_witness_cands).getD 0
        default).on_pareto_frontier = true ↔
      ∀ j, j < c7_witness_cands.length → j ≠ 0 →
        ¬ DominatesProp (c7_witness_cands.getD j default)
          (c7_witness_cands.getD 0 default) :=
  (C7_pareto_nash c7_witness_cands id (fun _ => 1/4) 0
    (by norm_num [c7_witness_cands])).1


/-! ### Bit-list toolkit -/

theorem natBits_length (v n : ℕ) : (natBits v n).length = n := by
  induction n generalizing v with
  | zero => rfl
  | succ n ih => simp [natBits, ih]

theorem bitsVal_from (l : List Bool) :
    ∀ a : ℕ, l.foldl (fun a b => 2 * a + b.toNat) a =
      a * 2^l.length + bitsVal l := by
  induction l with
  | nil => intro a; simp [bitsVal]
  | cons b l ih =>
    intro a
    show List.foldl _ (2 * a + b.toNat) l = _
    rw [ih (2 * a + b.toNat)]
    unfold bitsVal
    rw [List.foldl_cons, ih (2 * 0 + b.toNat)]
    simp only [List.length_cons, pow_succ]
    unfold bitsVal
    ring

theorem bitsVal_append (l1 l2 : List Bool) :
    bitsVal (l1 ++ l2) = bitsVal l1 * 2^l2.length + bitsVal l2 := by
  unfold bitsVal
  rw [List.foldl_append]
  rw [bitsVal_from l2 (List.foldl (fun a b => 2 * a + b.toNat) 0 l1)]
  rfl

theorem bitsVal_natBits (v n : ℕ) : bitsVal (natBits v n) = v % 2^n := by
  induction n generalizing v with
  | zero => simp [natBits, bitsVal, Nat.mod_one]
  | succ n ih =>
    show bitsVal (natBits (v / 2) n ++ [decide (v % 2 = 1)]) = _
    rw [bitsVal_append, ih]
    have hb : (decide (v % 2 = 1)).toNat = v % 2 := by
      rcases Nat.mod_two_eq_zero_or_one v with h | h <;> simp [h]
    simp only [bitsVal, List.foldl_cons, List.foldl_nil, List.length_cons,
      List.length_nil, hb]
    have hr : v % 2^(n+1) = v % 2 + 2 * (v / 2 % 2^n) := by
      rw [pow_succ', Nat.mod_mul]
    rw [hr]
    norm_num
    omega

theorem natBits_mod (v n : ℕ) : natBits (v % 2^n) n = natBits v n := by
  induction n generalizing v with
  | zero => rfl
  | succ n ih =>
    show natBits (v % 2^(n+1) / 2) n ++ _ = natBits (v / 2) n ++ _
    have h1 : v % 2^(n+1) / 2 = v / 2 % 2^n := by
      rw [pow_succ', Nat.mod_mul]
      omega
    have h2 : v % 2^(n+1) % 2 = v % 2 := by
      rw [pow_succ', Nat.mod_mul]
      omega
    rw [h1, ih, h2]

theorem natBits_split (v a b : ℕ) :
    natBits v (a + b) = natBits (v / 2^b) a ++ natBits v b := by
  induction b generalizing v with
  | zero => simp [natBits]
  | succ b ih =>
    show natBits (v / 2) (a + b) ++ _ = _
    rw [ih (v / 2)]
    have : v / 2 / 2^b = v / 2^(b+1) := by
      rw [Nat.div_div_eq_div_mul, pow_succ']
    rw [this, List.append_assoc]
    rfl

theorem natBits_zero_val (n : ℕ) : natBits 0 n = List.replicate n false := by
  induction n with
  | zero => rfl
  | succ n ih =>
    show natBits 0 n ++ [decide (0 % 2 = 1)] = _
    rw [ih]
    simp [List.replicate_succ']

theorem natBits_succ_msb (v n : ℕ) :
    natBits v (n + 1) = decide (v / 2^n % 2 = 1) :: natBits v n := by
  induction n generalizing v with
  | zero => simp [natBits]
  | succ n ih =>
    show natBits (v / 2) (n + 1) ++ _ = _
    rw [ih (v / 2)]
    have : v / 2 / 2^n = v / 2^(n+1) := by
      rw [Nat.div_div_eq_div_mul, pow_succ']
    rw [this]
    rfl

theorem natBits_inj (v w n : ℕ) (hv : v < 2^n) (hw : w < 2^n)
    (h : natBits v n = natBits w n) : v = w := by
  have := bitsVal_natBits v n
  rw [h, bitsVal_natBits] at this
  rw [Nat.mod_eq_of_lt hv, Nat.mod_eq_of_lt hw] at this
  exact this.symm

theorem natBits_take (b n m : ℕ) (h : m ≤ n) :
    (natBits b n).take m = natBits (b / 2^(n - m)) m := by
  have : natBits b n = natBits (b / 2^(n-m)) m ++ natBits b (n - m) := by
    rw [← natBits_split b m (n - m), Nat.add_sub_cancel' h]
  rw [this, List.take_append_of_le_length (by rw [natBits_length]),
    List.take_of_length_le (by rw [natBits_length])]

theorem bytesBits_append (l1 l2 : List ℕ) :
    bytesBits (l1 ++ l2) = bytesBits l1 ++ bytesBits l2 := by
  unfold bytesBits
  rw [List.flatMap_append]

theorem bytesBits_length (l : List ℕ) :
    (bytesBits l).length = 8 * l.length := by
  induction l with
  | nil => rfl
  | cons b l ih =>
    show (natBits b 8 ++ bytesBits l).length = _
    rw [List.length_append, natBits_length, ih, List.length_cons]
    ring

/-! ### Bit-writer correctness -/

theorem bitw_drain_spec : ∀ (n : ℕ) (w : bitw_t), w.bitcount ≤ n →
    w.bitbuf < 2^w.bitcount →
    w.pos + w.bitcount / 8 ≤ w.cap →
    ∃ w' : bitw_t, bitw_drain w = .ok w' ∧
      w'.cap = w.cap ∧
      w'.pos = w.pos + w.bitcount / 8 ∧
      w'.out.length = w.out.length + w.bitcount / 8 ∧
      w'.bitcount = w.bitcount % 8 ∧
      w'.bitbuf < 2^w'.bitcount ∧
      wBits w' = wBits w ∧
      (∀ b ∈ w'.out, b ∈ w.out ∨ b < 256) := by
  intro n
  induction n with
  | zero =>
    intro w hn hbuf hcap
    have h0 : w.bitcount = 0 := Nat.le_zero.mp hn
    refine ⟨w, ?_, rfl, by omega, by omega, by omega, hbuf, rfl,
      fun b hb => Or.inl hb⟩
    unfold bitw_drain
    rw [dif_neg (by omega)]
    rfl
  | succ n ih =>
    intro w hn hbuf hcap
    by_cases h8 : 8 ≤ w.bitcount
    · have hpos : w.pos < w.cap := by
        have : 1 ≤ w.bitcount / 8 := (Nat.one_le_div_iff (by norm_num)).mpr h8
        omega
      set w1 : bitw_t :=
        { w with
          pos := w.pos + 1
          out := w.out ++ [w.bitbuf / 2^(w.bitcount - 8) % 256]
          bitbuf := if w.bitcount - 8 = 0 then 0
                    else w.bitbuf % 2^(w.bitcount - 8)
          bitcount := w.bitcount - 8 } with hw1
      have hstep : bitw_drain w = bitw_drain w1 := by
        conv_lhs => unfold bitw_drain
        rw [dif_pos h8, if_neg (by omega)]
      have hbuf1 : w1.bitbuf < 2^w1.bitcount := by
        rw [hw1]
        dsimp only
        by_cases hz : w.bitcount - 8 = 0
        · rw [if_pos hz, hz]
          norm_num
        · rw [if_neg hz]
          exact Nat.mod_lt _ (Nat.pos_pow_of_pos _ (by norm_num))
      have hcap1 : w1.pos + w1.bitcount / 8 ≤ w1.cap := by
        rw [hw1]
        dsimp only
        omega
      obtain ⟨w', hrun, hc, hp, hl, hbc, hbuf2, hbits, hbytes⟩ :=
        ih w1 (by rw [hw1]; dsimp only; omega) hbuf1 hcap1
      refine ⟨w', hstep ▸ hrun, by rw [hc, hw1], by rw [hp, hw1]; dsimp only; omega,
        ?_, by rw [hbc, hw1]; dsimp only; omega, hbuf2, ?_, ?_⟩
      · rw [hl, hw1]
        simp only [List.length_append, List.length_cons, List.length_nil]
        omega
      · rw [hbits]
        rw [hw1]
        unfold wBits
        dsimp only
        rw [bytesBits_append]
        have hsplit : natBits w.bitbuf w.bitcount =
            natBits (w.bitbuf / 2^(w.bitcount - 8)) 8 ++
            natBits w.bitbuf (w.bitcount - 8) := by
          conv_lhs => rw [show w.bitcount = 8 + (w.bitcount - 8) by omega]
          exact natBits_split w.bitbuf 8 (w.bitcount - 8)
        rw [hsplit]
        have h1 : bytesBits [w.bitbuf / 2^(w.bitcount - 8) % 256] =
            natBits (w.bitbuf / 2^(w.bitcount - 8)) 8 := by
          show natBits (w.bitbuf / 2^(w.bitcount - 8) % 256) 8 ++ [] = _
          rw [List.append_nil, show (256 : ℕ) = 2^8 by norm_num, natBits_mod]
        have h2 : natBits (if w.bitcount - 8 = 0 then 0
              else w.bitbuf % 2^(w.bitcount - 8)) (w.bitcount - 8) =
            natBits w.bitbuf (w.bitcount - 8) := by
          by_cases hz : w.bitcount - 8 = 0
          · rw [if_pos hz, hz]
            rfl
          · rw [if_neg hz, natBits_mod]
        rw [h1, h2, List.append_assoc]
      · intro b hb
        rcases hbytes b hb with hin | hlt
        · rw [hw1] at hin
          simp only [List.mem_append, List.mem_cons, List.not_mem_nil,
            or_false] at hin
          rcases hin with hin | rfl
          · exact Or.inl hin
          · exact Or.inr (Nat.mod_lt _ (by norm_num))
        · exact Or.inr hlt
    · refine ⟨w, ?_, rfl, by omega, by omega, by omega, hbuf, rfl,
        fun b hb => Or.inl hb⟩
      unfold bitw_drain
      rw [dif_neg h8]
      rfl

theorem bitw_put_bits_spec (w : bitw_t) (code nbits : ℕ)
    (hn : nbits ≤ 32) (hbc : w.bitcount < 8) (hbuf : w.bitbuf < 2^w.bitcount)
    (hcap : 8 * w.pos + w.bitcount + nbits ≤ 8 * w.cap) :
    ∃ w', bitw_put_bits w code nbits = .ok w' ∧
      w'.cap = w.cap ∧
      8 * w'.pos + w'.bitcount = 8 * w.pos + w.bitcount + nbits ∧
      w'.bitcount < 8 ∧
      w'.bitbuf < 2^w'.bitcount ∧
      wBits w' = wBits w ++ natBits code nbits ∧
      (∀ b ∈ w'.out, b ∈ w.out ∨ b < 256) := by
  by_cases h0 : nbits = 0
  · subst h0
    refine ⟨w, ?_, rfl, by omega, hbc, hbuf, by simp [natBits], fun b hb => Or.inl hb⟩
    unfold bitw_put_bits
    rw [if_pos rfl]
    rfl
  · set w1 : bitw_t :=
      { w with
        bitbuf := w.bitbuf * 2^nbits + code % 2^nbits
        bitcount := w.bitcount + nbits } with hw1
    have hstep : bitw_put_bits w code nbits = bitw_drain w1 := by
      unfold bitw_put_bits
      rw [if_neg h0, if_neg (by omega), if_neg (by omega)]
    have hbuf1 : w1.bitbuf < 2^w1.bitcount := by
      rw [hw1]
      dsimp only
      have h1 : code % 2^nbits < 2^nbits := Nat.mod_lt _ (Nat.pos_pow_of_pos _ (by norm_num))
      calc w.bitbuf * 2^nbits + code % 2^nbits
          < w.bitbuf * 2^nbits + 2^nbits := by omega
        _ = (w.bitbuf + 1) * 2^nbits := by ring
        _ ≤ 2^w.bitcount * 2^nbits := by
            exact Nat.mul_le_mul_right _ (by omega)
        _ = 2^(w.bitcount + nbits) := by rw [pow_add]
    have hcap1 : w1.pos + w1.bitcount / 8 ≤ w1.cap := by
      rw [hw1]
      dsimp only
      omega
    obtain ⟨w', hrun, hc, hp, hl, hbc2, hbuf2, hbits, hbytes⟩ :=
      bitw_drain_spec w1.bitcount w1 le_rfl hbuf1 hcap1
    refine ⟨w', hstep ▸ hrun, by rw [hc, hw1], ?_, ?_, hbuf2, ?_, ?_⟩
    · rw [hp, hbc2, hw1]
      dsimp only
      omega
    · rw [hbc2]
      exact Nat.mod_lt _ (by norm_num)
    · rw [hbits, hw1]
      unfold wBits
      dsimp only
      have hsplit : natBits (w.bitbuf * 2^nbits + code % 2^nbits)
          (w.bitcount + nbits) =
          natBits w.bitbuf w.bitcount ++ natBits code nbits := by
        rw [natBits_split _ w.bitcount nbits]
        congr 1
        · congr 1
          rw [Nat.mul_comm w.bitbuf (2^nbits),
            Nat.mul_add_div (Nat.pos_pow_of_pos _ (by norm_num)),
            Nat.div_eq_of_lt (Nat.mod_lt _ (Nat.pos_pow_of_pos _ (by norm_num)))]
          omega
        · rw [← natBits_mod (w.bitbuf * 2^nbits + code % 2^nbits) nbits,
            Nat.mul_comm, Nat.mul_add_mod, Nat.mod_mod_of_dvd _ dvd_rfl,
            natBits_mod]
      rw [hsplit, List.append_assoc]
    · exact hbytes

theorem bitw_flush_spec (w : bitw_t) (hbc : w.bitcount < 8)
    (hbuf : w.bitbuf < 2^w.bitcount)
    (hcap : 8 * w.pos + w.bitcount ≤ 8 * w.cap) :
    ∃ w', bitw_flush w = .ok w' ∧
      bytesBits w'.out = wBits w ++
        List.replicate ((8 - w.bitcount) % 8) false ∧
      (∀ b ∈ w'.out, b ∈ w.out ∨ b < 256) := by
  by_cases h0 : w.bitcount = 0
  · refine ⟨w, ?_, ?_, fun b hb => Or.inl hb⟩
    · unfold bitw_flush
      rw [if_pos h0]
      rfl
    · rw [h0]
      unfold wBits
      rw [h0]
      simp [natBits]
  · have hpos : w.pos < w.cap := by omega
    refine ⟨{ w with
      pos := w.pos + 1
      out := w.out ++ [w.bitbuf * 2^(8 - w.bitcount) % 256]
      bitbuf := 0
      bitcount := 0 }, ?_, ?_, ?_⟩
    · unfold bitw_flush
      rw [if_neg h0, if_neg (by omega)]
      rfl
    · dsimp only
      rw [bytesBits_append]
      unfold wBits
      have hlt : w.bitbuf * 2^(8 - w.bitcount) < 256 := by
        have h1 : w.bitbuf + 1 ≤ 2^w.bitcount := hbuf
        calc w.bitbuf * 2^(8 - w.bitcount)
            ≤ (2^w.bitcount - 1) * 2^(8 - w.bitcount) := by
              exact Nat.mul_le_mul_right _ (by omega)
          _ < 2^w.bitcount * 2^(8 - w.bitcount) := by
              have hp : (0:ℕ) < 2^w.bitcount := Nat.pos_pow_of_pos _ (by norm_num)
              exact (Nat.mul_lt_mul_right
                (Nat.pos_pow_of_pos (8 - w.bitcount) (by norm_num))).mpr (by omega)
          _ = 2^(w.bitcount + (8 - w.bitcount)) := by rw [pow_add]
          _ = 256 := by rw [show w.bitcount + (8 - w.bitcount) = 8 by omega]; norm_num
      have hmod : w.bitbuf * 2^(8 - w.bitcount) % 256 =
          w.bitbuf * 2^(8 - w.bitcount) := Nat.mod_eq_of_lt hlt
      have hbb : bytesBits [w.bitbuf * 2^(8 - w.bitcount) % 256] =
          natBits (w.bitbuf * 2^(8 - w.bitcount)) 8 := by
        show natBits _ 8 ++ [] = _
        rw [List.append_nil, hmod]
      rw [hbb]
      have hsplit : natBits (w.bitbuf * 2^(8 - w.bitcount)) 8 =
          natBits w.bitbuf w.bitcount ++
          List.replicate ((8 - w.bitcount) % 8) false := by
        conv_lhs => rw [show (8:ℕ) = w.bitcount + (8 - w.bitcount) by omega]
        rw [natBits_split _ w.bitcount (8 - w.bitcount)]
        congr 1
        · rw [show w.bitcount + (8 - w.bitcount) - w.bitcount = 8 - w.bitcount
            by omega,
            Nat.mul_div_cancel _ (Nat.pos_pow_of_pos _ (by norm_num))]
        · rw [show w.bitcount + (8 - w.bitcount) - w.bitcount = 8 - w.bitcount
            by omega,
            ← natBits_mod _ (8 - w.bitcount), Nat.mul_mod_left,
            natBits_zero_val, Nat.mod_eq_of_lt (by omega)]
      rw [hsplit, List.append_assoc]
    · intro b hb
      simp only [List.mem_append, List.mem_singleton] at hb
      rcases hb with hb | rfl
      · exact Or.inl hb
      · exact Or.inr (Nat.mod_lt _ (by norm_num))

theorem bitw_encode_spec (lens codes : ℕ → ℕ) (xs : List ℕ) :
    ∀ (w : bitw_t), (∀ s ∈ xs, 1 ≤ lens s ∧ lens s ≤ 32) →
    w.bitcount < 8 → w.bitbuf < 2^w.bitcount →
    8 * w.pos + w.bitcount + (xs.map lens).sum ≤ 8 * w.cap →
    ∃ w', xs.foldlM (fun w s =>
        if lens s = 0 then throw EspErr.fail
        else bitw_put_bits w (codes s) (lens s)) w = .ok w' ∧
      w'.cap = w.cap ∧
      8 * w'.pos + w'.bitcount = 8 * w.pos + w.bitcount + (xs.map lens).sum ∧
      w'.bitcount < 8 ∧
      w'.bitbuf < 2^w'.bitcount ∧
      wBits w' = wBits w ++
        xs.flatMap (fun s => natBits (codes s) (lens s)) ∧
      (∀ b ∈ w'.out, b ∈ w.out ∨ b < 256) := by
  induction xs with
  | nil =>
    intro w hlens hbc hbuf hcap
    exact ⟨w, rfl, rfl, by simp, hbc, hbuf, by simp, fun b hb => Or.inl hb⟩
  | cons x xs ih =>
    intro w hlens hbc hbuf hcap
    obtain ⟨hx1, hx2⟩ := hlens x (List.mem_cons_self x xs)
    obtain ⟨w1, hrun1, hc1, hp1, hbc1, hbuf1, hbits1, hbytes1⟩ :=
      bitw_put_bits_spec w (codes x) (lens x) hx2 hbc hbuf
        (by simp only [List.map_cons, List.sum_cons] at hcap; omega)
    obtain ⟨w', hrun2, hc2, hp2, hbc2, hbuf2, hbits2, hbytes2⟩ :=
      ih w1 (fun s hs => hlens s (List.mem_cons_of_mem x hs)) hbc1 hbuf1
        (by
          rw [hc1, hp1]
          simp only [List.map_cons, List.sum_cons] at hcap
          omega)
    refine ⟨w', ?_, by rw [hc2, hc1], ?_, hbc2, hbuf2, ?_, ?_⟩
    · rw [List.foldlM_cons, if_neg (by omega), hrun1]
      exact hrun2
    · rw [hp2, hp1]
      simp only [List.map_cons, List.sum_cons]
      omega
    · rw [hbits2, hbits1, List.flatMap_cons, List.append_assoc]
    · intro b hb
      rcases hbytes2 b hb with hin | hlt
      · exact hbytes1 b hin
      · exact Or.inr hlt

/-! ### Bit-reader correctness -/

theorem bitr_get_bit_spec (src : List ℕ) (r : bitr_t)
    (hlen : r.len = src.length) (hbc : r.bitcount ≤ 8)
    (hav : r.bitcount ≠ 0 ∨ r.pos < r.len) :
    ∃ b r', bitr_get_bit src r = .ok (b, r') ∧
      rBits src r = b :: rBits src r' ∧
      r'.len = r.len ∧ r'.bitcount ≤ 8 := by
  by_cases h0 : r.bitcount = 0
  · have hpos : r.pos < r.len := by
      rcases hav with h | h
      · exact absurd h0 h
      · exact h
    refine ⟨decide (src.getD r.pos 0 / 2^7 % 2 = 1),
      { r with
        bitbuf := src.getD r.pos 0
        pos := r.pos + 1
        bitcount := 7 }, ?_, ?_, rfl, by norm_num⟩
    · unfold bitr_get_bit
      rw [if_pos h0, if_neg (by omega)]
      rfl
    · unfold rBits
      rw [h0]
      dsimp only
      have h00 : natBits (r.bitbuf % 2^0) 0 = [] := rfl
      have hdrop : src.drop r.pos = src.getD r.pos 0 :: src.drop (r.pos + 1) := by
        have hp : r.pos < src.length := by omega
        rw [List.getD_eq_getElem src 0 hp]
        exact List.drop_eq_getElem_cons hp
      rw [h00, List.nil_append, hdrop]
      show natBits (src.getD r.pos 0) 8 ++ bytesBits (src.drop (r.pos + 1)) = _
      rw [natBits_succ_msb (src.getD r.pos 0) 7]
      conv_lhs => rw [← natBits_mod (src.getD r.pos 0) 7]
      rfl
  · refine ⟨decide (r.bitbuf / 2^(r.bitcount - 1) % 2 = 1),
      { r with bitcount := r.bitcount - 1 }, ?_, ?_, rfl, ?_⟩
    · unfold bitr_get_bit
      rw [if_neg h0]
      rfl
    · unfold rBits
      dsimp only
      obtain ⟨m, hm⟩ : ∃ m, r.bitcount = m + 1 := ⟨r.bitcount - 1, by omega⟩
      rw [hm]
      simp only [Nat.add_sub_cancel]
      rw [natBits_succ_msb]
      have harg : r.bitbuf % 2^(m + 1) / 2^m % 2 = r.bitbuf / 2^m % 2 := by
        rw [pow_succ, Nat.mod_mul_right_div_self]
        omega
      have hmm : natBits (r.bitbuf % 2^(m + 1)) m =
          natBits (r.bitbuf % 2^m) m := by
        conv_lhs => rw [← natBits_mod (r.bitbuf % 2^(m + 1)) m]
        rw [Nat.mod_mod_of_dvd _ (pow_dvd_pow 2 (by omega))]
      rw [harg, hmm]
      rfl
    · show r.bitcount - 1 ≤ 8
      omega

/-! ### Decode-walk correctness -/

theorem follow_append (tree : List dec_node_t) :
    ∀ (p q : List Bool) (cur : ℕ),
    follow tree cur (p ++ q) =
      (follow tree cur p).bind (fun j => follow tree j q) := by
  intro p
  induction p with
  | nil => intro q cur; rfl
  | cons b p ih =>
    intro q cur
    show follow tree cur (b :: (p ++ q)) = _
    rw [follow]
    rcases h : dec_child (tree.getD cur default) b with - | j
    · rw [follow]
      rw [h]
      rfl
    · rw [follow]
      rw [h]
      exact ih q j

theorem walk_code_aux (src : List ℕ) (tree : List dec_node_t)
    (cl : List (List Bool × ℕ)) (hm : ArenaModels tree cl)
    (orig_len : ℕ) (c : List Bool) (s : ℕ)
    (hfull : symAt cl c = some s)
    (hmem : ∃ e ∈ cl, e.1 = c)
    (hproper : ∀ p, p <+: c → p ≠ c → symAt cl p = none) :
    ∀ (d p : List Bool) (j : ℕ), p ++ d = c → d ≠ [] →
    follow tree 0 p = some j →
    ∀ (fuel : ℕ) (acc : List ℕ) (r : bitr_t) (rest : List Bool),
    d.length ≤ fuel → r.len = src.length → r.bitcount ≤ 8 →
    rBits src r = d ++ rest → acc.length < orig_len →
    ∃ r', huffman_walk src tree orig_len fuel j acc r =
        huffman_walk src tree orig_len (fuel - d.length) 0 (acc ++ [s]) r' ∧
      rBits src r' = rest ∧ r'.len = src.length ∧ r'.bitcount ≤ 8 := by
  intro d
  induction d with
  | nil => intro p j hpc hne; exact absurd rfl hne
  | cons b d ih =>
    intro p j hpc hne hfol fuel acc r rest hfuel hlen hbc hbits hacc
    obtain ⟨f, rfl⟩ : ∃ f, fuel = f + 1 :=
      ⟨fuel - 1, by simp at hfuel; omega⟩
    have hav : r.bitcount ≠ 0 ∨ r.pos < r.len := by
      by_contra hno
      push_neg at hno
      obtain ⟨h1, h2⟩ := hno
      have hnil : rBits src r = [] := by
        unfold rBits
        rw [h1, List.drop_eq_nil_of_le (by omega)]
        rfl
      rw [hnil] at hbits
      exact List.cons_ne_nil _ _ hbits.symm
    obtain ⟨b0, r1, hrun, hcons, hlen1, hbc1⟩ :=
      bitr_get_bit_spec src r hlen hbc hav
    rw [hbits] at hcons
    obtain ⟨hb, hr1⟩ := (List.cons.injEq _ _ _ _).mp hcons
    rw [← hb] at hrun
    -- the child pointer taken by this bit exists in the arena
    have hpb : (p ++ [b]) <+: c := by
      rw [← hpc]
      exact ⟨d, by simp⟩
    obtain ⟨j1, hj1⟩ : ∃ j1, follow tree 0 (p ++ [b]) = some j1 := by
      obtain ⟨e, he, hec⟩ := hmem
      exact hm.2.1 _ ⟨e, he, hec ▸ hpb⟩
    have hstep : dec_child (tree.getD j default) b = some j1 := by
      rw [follow_append, hfol] at hj1
      have hj1' : follow tree j [b] = some j1 := hj1
      rw [follow] at hj1'
      rcases h : dec_child (tree.getD j default) b with - | j2
      · rw [h] at hj1'
        simp at hj1'
      · rw [h] at hj1'
        simp only [follow] at hj1'
        exact hj1'
    have hsym1 : (tree.getD j1 default).sym = symAt cl (p ++ [b]) :=
      hm.2.2.2.1 _ _ hj1
    have hunf : huffman_walk src tree orig_len (f + 1) j acc r =
        match (tree.getD j1 default).sym with
        | some s0 => huffman_walk src tree orig_len f 0 (acc ++ [s0]) r1
        | none => huffman_walk src tree orig_len f j1 acc r1 := by
      have h1 : huffman_walk src tree orig_len (f + 1) j acc r =
          match dec_child (tree.getD j default) b with
          | none => .error .fail
          | some j2 =>
            match (tree.getD j2 default).sym with
            | some s0 => huffman_walk src tree orig_len f 0 (acc ++ [s0]) r1
            | none => huffman_walk src tree orig_len f j2 acc r1 := by
        conv_lhs => rw [huffman_walk]
        rw [if_neg (by omega), hrun]
        rfl
      rw [h1, hstep]
    rcases hd : d with - | ⟨b2, d2⟩
    · -- last bit of the code: the child carries the symbol, walk emits it
      subst hd
      have hpbc : p ++ [b] = c := by simpa using hpc
      refine ⟨r1, ?_, by simpa using hr1.symm, by rw [hlen1, hlen], hbc1⟩
      rw [hunf, hsym1, hpbc, hfull]
      norm_num
    · -- interior node: no symbol here, continue down the path
      subst hd
      have hpr : symAt cl (p ++ [b]) = none := by
        refine hproper _ hpb ?_
        intro hcontra
        rw [← hpc] at hcontra
        have hlc := congrArg List.length hcontra
        simp at hlc
      obtain ⟨r', hrec, hbits', hlen', hbc'⟩ :=
        ih (p ++ [b]) j1 (by simpa using hpc) (by simp) hj1 f acc r1
          rest (by simp at hfuel ⊢; omega) (by rw [hlen1, hlen])
          hbc1 hr1.symm hacc
      refine ⟨r', ?_, hbits', hlen', hbc'⟩
      rw [hunf, hsym1, hpr, hrec]
      have hfm : f - (b2 :: d2).length = f + 1 - (b :: b2 :: d2).length := by
        simp
      rw [hfm]

theorem huffman_walk_spec (src : List ℕ) (tree : List dec_node_t)
    (cl : List (List Bool × ℕ)) (hm : ArenaModels tree cl)
    (orig_len : ℕ) (enc : ℕ → List Bool) :
    ∀ (xs : List ℕ) (fuel : ℕ) (acc : List ℕ) (r : bitr_t)
      (rest : List Bool),
    (∀ s ∈ xs, enc s ≠ [] ∧ symAt cl (enc s) = some s ∧
      (∃ e ∈ cl, e.1 = enc s) ∧
      ∀ p, p <+: enc s → p ≠ enc s → symAt cl p = none) →
    r.len = src.length → r.bitcount ≤ 8 →
    rBits src r = xs.flatMap enc ++ rest →
    acc.length + xs.length = orig_len →
    (xs.flatMap enc).length < fuel →
    huffman_walk src tree orig_len fuel 0 acc r = .ok (acc ++ xs) := by
  intro xs
  induction xs with
  | nil =>
    intro fuel acc r rest hcodes hlen hbc hbits hcount hfuel
    obtain ⟨f, rfl⟩ : ∃ f, fuel = f + 1 := ⟨fuel - 1, by omega⟩
    conv_lhs => rw [huffman_walk]
    rw [if_pos (by simp at hcount; omega)]
    simp only [List.append_nil]
    rfl
  | cons x xs ih =>
    intro fuel acc r rest hcodes hlen hbc hbits hcount hfuel
    obtain ⟨hne, hfull, hmem, hproper⟩ := hcodes x (List.mem_cons_self x xs)
    obtain ⟨r', hstep, hbits', hlen', hbc'⟩ :=
      walk_code_aux src tree cl hm orig_len (enc x) x hfull hmem hproper
        (enc x) [] 0 (by simp) hne rfl fuel acc r
        (xs.flatMap enc ++ rest)
        (by
          simp only [List.flatMap_cons, List.length_append] at hfuel
          omega)
        hlen hbc
        (by rw [hbits, List.flatMap_cons, List.append_assoc])
        (by simp at hcount ⊢; omega)
    rw [hstep]
    have hres : acc ++ x :: xs = (acc ++ [x]) ++ xs := by simp
    rw [hres]
    exact ih (fuel - (enc x).length) (acc ++ [x]) r' rest
      (fun s hs => hcodes s (List.mem_cons_of_mem x hs))
      (by rw [hlen'])
      hbc' hbits'
      (by simp at hcount ⊢; omega)
      (by
        simp only [List.flatMap_cons, List.length_append] at hfuel
        omega)

/-! ### Arena construction -/

theorem dec_child_default (b : Bool) :
    dec_child (default : dec_node_t) b = none := by
  cases b <;> rfl

theorem follow_cur_lt (tree : List dec_node_t) :
    ∀ (q : List Bool) (cur j : ℕ), q ≠ [] →
    follow tree cur q = some j → cur < tree.length := by
  intro q cur j hq hf
  rcases q with - | ⟨b, q⟩
  · exact absurd rfl hq
  · by_contra hge
    rw [follow] at hf
    rw [List.getD_eq_default _ _ (by omega), dec_child_default] at hf
    simp at hf

theorem follow_lt_length (tree : List dec_node_t)
    (hwf : ArenaWF tree) :
    ∀ (q : List Bool) (cur j : ℕ), cur < tree.length →
    follow tree cur q = some j → j < tree.length := by
  intro q
  induction q with
  | nil =>
    intro cur j hcur hf
    rw [follow] at hf
    simp at hf
    omega
  | cons b q ih =>
    intro cur j hcur hf
    rw [follow] at hf
    rcases h : dec_child (tree.getD cur default) b with - | j1
    · rw [h] at hf
      simp at hf
    · rw [h] at hf
      exact ih j1 j (hwf.2 cur hcur b j1 h).2 hf

theorem follow_pos (tree : List dec_node_t) (hwf : ArenaWF tree) :
    ∀ (q : List Bool) (cur j : ℕ), q ≠ [] → cur < tree.length →
    follow tree cur q = some j → 1 ≤ j := by
  intro q
  induction q with
  | nil => intro cur j hq; exact absurd rfl hq
  | cons b q ih =>
    intro cur j hq hcur hf
    rw [follow] at hf
    rcases h : dec_child (tree.getD cur default) b with - | j1
    · rw [h] at hf
      simp at hf
    · rw [h] at hf
      rcases q with - | ⟨b2, q2⟩
      · have hf' : (some j1 : Option ℕ) = some j := hf
        have h1 := (hwf.2 cur hcur b j1 h).1
        simp at hf'
        omega
      · exact ih j1 j (by simp) (hwf.2 cur hcur b j1 h).2 hf

theorem follow_mono (t t' : List dec_node_t) (h : linkExt t t') :
    ∀ (q : List Bool) (cur j : ℕ), follow t cur q = some j →
    follow t' cur q = some j := by
  intro q
  induction q with
  | nil => intro cur j hf; exact hf
  | cons b q ih =>
    intro cur j hf
    rw [follow] at hf
    rcases hc : dec_child (t.getD cur default) b with - | j1
    · rw [hc] at hf
      simp at hf
    · rw [hc] at hf
      have hcur : cur < t.length := by
        by_contra hge
        rw [List.getD_eq_default _ _ (by omega), dec_child_default] at hc
        exact Option.noConfusion hc
      rw [follow, h.2 cur hcur b j1 hc]
      exact ih j1 j hf

theorem mem_pfxF (cs : List (List Bool)) (q : List Bool) :
    q ∈ pfxF cs ↔ q ≠ [] ∧ ∃ c ∈ cs, q <+: c := by
  unfold pfxF
  rw [List.mem_toFinset, List.mem_filter, List.mem_flatMap]
  constructor
  · rintro ⟨⟨c, hc, hpc⟩, hq⟩
    refine ⟨?_, c, hc, by simpa [List.mem_inits] using hpc⟩
    intro hnil
    subst hnil
    simp at hq
  · rintro ⟨hq, c, hc, hpc⟩
    refine ⟨⟨c, hc, by simpa [List.mem_inits] using hpc⟩, ?_⟩
    cases q
    · exact absurd rfl hq
    · rfl

theorem symAt_some (cl : List (List Bool × ℕ)) (q : List Bool) (t : ℕ)
    (h : symAt cl q = some t) : (q, t) ∈ cl := by
  unfold symAt at h
  rcases hf : cl.find? (fun e => e.1 == q) with - | e
  · rw [hf] at h
    simp at h
  · rw [hf] at h
    have h2 : e.2 = t := Option.some.inj h
    have hmem := List.mem_of_find?_eq_some hf
    have hp := List.find?_some hf
    simp only [beq_iff_eq] at hp
    rw [← h2, ← hp]
    exact hmem

theorem symAt_none (cl : List (List Bool × ℕ)) (q : List Bool)
    (h : ∀ e ∈ cl, e.1 ≠ q) : symAt cl q = none := by
  unfold symAt
  have hn : cl.find? (fun e => e.1 == q) = none :=
    List.find?_eq_none.mpr (by intro e he; simpa using h e he)
  rw [hn]
  rfl

theorem symAt_append_right (cl cl' : List (List Bool × ℕ)) (q : List Bool)
    (h : symAt cl q = none) :
    symAt (cl ++ cl') q = symAt cl' q := by
  unfold symAt at h ⊢
  rw [List.find?_append]
  rcases hf : cl.find? (fun e => e.1 == q) with - | e
  · rw [hf]
    rfl
  · rw [hf] at h
    simp at h

theorem getD_set (l : List dec_node_t) (i j : ℕ) (a d : dec_node_t) :
    (l.set i a).getD j d =
      if i = j ∧ i < l.length then a else l.getD j d := by
  rw [List.getD_eq_getElem?_getD, List.getD_eq_getElem?_getD,
    List.getElem?_set]
  by_cases hij : i = j
  · subst hij
    by_cases hl : i < l.length
    · rw [if_pos rfl, if_pos hl, if_pos ⟨rfl, hl⟩]
      rfl
    · rw [if_pos rfl, if_neg hl, if_neg (by tauto),
        List.getElem?_eq_none (by omega)]
  · rw [if_neg hij, if_neg (by tauto)]

theorem follow_congr (t t' : List dec_node_t)
    (h : ∀ (i : ℕ) (b : Bool),
      dec_child (t'.getD i default) b = dec_child (t.getD i default) b) :
    ∀ (q : List Bool) (cur : ℕ), follow t' cur q = follow t cur q := by
  intro q
  induction q with
  | nil => intro cur; rfl
  | cons b q ih =>
    intro cur
    rw [follow, follow, h cur b]
    rcases dec_child (t.getD cur default) b with - | j1
    · rfl
    · exact ih j1

theorem follow_alloc_cases (tree : List dec_node_t) (cur : ℕ) (b : Bool)
    (nd1 : dec_node_t) (hwf : ArenaWF tree) (hcur : cur < tree.length)
    (hsame : ∀ b', b' ≠ b → dec_child nd1 b' =
      dec_child (tree.getD cur default) b')
    (hnew : dec_child nd1 b = some tree.length) :
    ∀ (q : List Bool) (j : ℕ),
    follow ((tree ++ [dec_blank]).set cur nd1) 0 q = some j →
    follow tree 0 q = some j ∨
      (∃ q0, q = q0 ++ [b] ∧ follow tree 0 q0 = some cur ∧
        j = tree.length) := by
  intro q
  induction q using List.reverseRecOn with
  | nil =>
    intro j hf
    left
    exact hf
  | append_singleton q0 b' ih =>
    intro j hf
    rw [follow_append] at hf
    rcases hf0 : follow ((tree ++ [dec_blank]).set cur nd1) 0 q0
      with - | j0
    · rw [hf0] at hf
      simp at hf
    · rw [hf0] at hf
      have hstep : dec_child
          (((tree ++ [dec_blank]).set cur nd1).getD j0 default) b'
          = some j := by
        have hf' : follow ((tree ++ [dec_blank]).set cur nd1) j0 [b']
            = some j := hf
        rw [follow] at hf'
        rcases hc : dec_child
            (((tree ++ [dec_blank]).set cur nd1).getD j0 default) b'
          with - | j2
        · rw [hc] at hf'
          simp at hf'
        · rw [hc] at hf'
          exact hf'
      rcases ih j0 hf0 with hold | ⟨q00, rfl, hfq00, rfl⟩
      · -- q0 reachable in the old tree; j0 is an old node
        have hj0 : j0 < tree.length :=
          follow_lt_length tree hwf q0 0 j0 (by omega) hold
        by_cases hj0c : j0 = cur
        · subst hj0c
          rw [getD_set] at hstep
          rw [if_pos ⟨rfl, by simp; omega⟩] at hstep
          by_cases hb : b' = b
          · subst hb
            rw [hnew] at hstep
            right
            exact ⟨q0, rfl, hold, (Option.some.inj hstep).symm⟩
          · rw [hsame b' hb] at hstep
            left
            rw [follow_append, hold]
            show follow tree j0 [b'] = some j
            rw [follow, hstep]
            rfl
        · rw [getD_set, if_neg (by tauto),
            List.getD_eq_getElem?_getD, List.getElem?_append_left hj0,
            ← List.getD_eq_getElem?_getD] at hstep
          left
          rw [follow_append, hold]
          show follow tree j0 [b'] = some j
          rw [follow, hstep]
          rfl
      · -- q0 ends at the freshly allocated node, which has no children
        exfalso
        have hget : ((tree ++ [dec_blank]).set cur nd1).getD
            tree.length default = dec_blank := by
          rw [getD_set, if_neg (by rintro ⟨h1, -⟩; omega)]
          rw [List.getD_eq_getElem?_getD, List.getElem?_append_right le_rfl]
          simp
        rw [hget] at hstep
        have hnone : dec_child dec_blank b' = none := by
          cases b' <;> rfl
        rw [hnone] at hstep
        exact Option.noConfusion hstep

theorem prefix_snoc_iff (q p : List Bool) (b : Bool) :
    q <+: p ++ [b] ↔ q <+: p ∨ q = p ++ [b] := by
  constructor
  · intro h
    by_cases hl : q.length ≤ p.length
    · exact Or.inl (List.prefix_of_prefix_length_le h (List.prefix_append p [b]) hl)
    · right
      refine List.IsPrefix.eq_of_length h ?_
      have hlen := h.length_le
      simp at hlen ⊢
      omega
  · rintro (h | rfl)
    · exact h.trans (List.prefix_append p [b])
    · exact List.prefix_rfl

theorem insert_code_spec (cl : List (List Bool × ℕ)) (c : List Bool) (s : ℕ)
    (hnc : ∀ e ∈ cl, ¬ (e.1 <+: c)) :
    ∀ (bits p : List Bool) (tree : List dec_node_t) (cur : ℕ),
    p ++ bits = c →
    ArenaWF tree →
    (∀ q, (∃ e ∈ cl, q <+: e.1) → ∃ j, follow tree 0 q = some j) →
    (∀ q, q <+: p → ∃ j, follow tree 0 q = some j) →
    (∀ q j, follow tree 0 q = some j →
      q = [] ∨ (∃ e ∈ cl, q <+: e.1) ∨ q <+: p) →
    (∀ q j, follow tree 0 q = some j →
      (tree.getD j default).sym = symAt cl q) →
    (∀ q q' j, follow tree 0 q = some j → follow tree 0 q' = some j →
      q = q') →
    follow tree 0 p = some cur →
    tree.length + bits.length ≤ 2048 →
    tree.length ≤ 1 + (pfxF (cl.map (fun e => e.1))).card +
      (p.inits.toFinset.erase [] \ pfxF (cl.map (fun e => e.1))).card →
    ∃ tree', insert_code tree cur bits s = .ok tree' ∧
      ArenaWF tree' ∧
      (∀ q, ((∃ e ∈ cl, q <+: e.1) ∨ q <+: c) →
        ∃ j, follow tree' 0 q = some j) ∧
      (∀ q j, follow tree' 0 q = some j →
        q = [] ∨ (∃ e ∈ cl, q <+: e.1) ∨ q <+: c) ∧
      (∀ q j, follow tree' 0 q = some j →
        (tree'.getD j default).sym =
          (if q = c then some s else symAt cl q)) ∧
      (∀ q q' j, follow tree' 0 q = some j → follow tree' 0 q' = some j →
        q = q') ∧
      tree'.length ≤ 1 + (pfxF (cl.map (fun e => e.1))).card +
        (c.inits.toFinset.erase [] \ pfxF (cl.map (fun e => e.1))).card := by
  intro bits
  induction bits with
  | nil =>
    intro p tree cur hpc hwf h2 h2b h3 h4 h5 hp h6 h7
    rw [List.append_nil] at hpc
    subst hpc
    have hlen0 : 0 < tree.length := List.length_pos.mpr hwf.1
    have hcur : cur < tree.length :=
      follow_lt_length tree hwf p 0 cur hlen0 hp
    have hsame : ∀ (i : ℕ) (b : Bool),
        dec_child ((tree.set cur
          { tree.getD cur default with sym := some s }).getD i default) b =
        dec_child (tree.getD i default) b := by
      intro i b
      rw [getD_set]
      by_cases h : cur = i ∧ cur < tree.length
      · rw [if_pos h]
        obtain ⟨rfl, -⟩ := h
        cases b <;> rfl
      · rw [if_neg h]
    have hfol := follow_congr tree _ hsame
    refine ⟨tree.set cur { tree.getD cur default with sym := some s },
      ?_, ?_, ?_, ?_, ?_, ?_, ?_⟩
    · rw [insert_code]
      rfl
    · refine ⟨fun hcon => hwf.1 (by simpa using congrArg List.length hcon), ?_⟩
      intro i hi b j hl
      rw [hsame i b] at hl
      rw [List.length_set] at hi ⊢
      exact hwf.2 i hi b j hl
    · intro q hq
      rw [hfol q 0]
      rcases hq with hq | hq
      · exact h2 q hq
      · exact h2b q hq
    · intro q j hf
      rw [hfol q 0] at hf
      exact h3 q j hf
    · intro q j hf
      rw [hfol q 0] at hf
      rw [getD_set]
      by_cases hjc : cur = j ∧ cur < tree.length
      · obtain ⟨rfl, -⟩ := hjc
        rw [if_pos ⟨rfl, hcur⟩]
        have hqp : q = p := h5 q p cur hf hp
        subst hqp
        rw [if_pos rfl]
      · rw [if_neg hjc]
        have hjcur : j ≠ cur := by
          intro hj
          subst hj
          exact hjc ⟨rfl, hcur⟩
        have hqc : q ≠ p := by
          intro hq
          subst hq
          rw [hp] at hf
          exact hjcur (Option.some.inj hf).symm
        rw [if_neg hqc]
        exact h4 q j hf
    · intro q q' j hf hf'
      rw [hfol] at hf hf'
      exact h5 q q' j hf hf'
    · rw [List.length_set]
      exact h7
  | cons b rest ih =>
    intro p tree cur hpc hwf h2 h2b h3 h4 h5 hp h6 h7
    have hlen0 : 0 < tree.length := List.length_pos.mpr hwf.1
    have hcur : cur < tree.length :=
      follow_lt_length tree hwf p 0 cur hlen0 hp
    have hpbc : (p ++ [b]) ++ rest = c := by simpa using hpc
    have hpbpfx : (p ++ [b]) <+: c := ⟨rest, hpbc⟩
    rcases hchild : dec_child (tree.getD cur default) b with - | nxt
    · -- missing link: allocate a fresh node
      have hcap : tree.length < 2048 := by
        simp only [List.length_cons] at h6
        omega
      set nd1 : dec_node_t :=
        if b then { tree.getD cur default with right := some tree.length }
        else { tree.getD cur default with left := some tree.length } with hnd1
      set tree1 : List dec_node_t :=
        (tree ++ [dec_blank]).set cur nd1 with htree1
      have hnd1_same : ∀ b', b' ≠ b → dec_child nd1 b' =
          dec_child (tree.getD cur default) b' := by
        intro b' hb
        rw [hnd1]
        cases b <;> cases b' <;> first | exact absurd rfl hb | rfl
      have hnd1_b : dec_child nd1 b = some tree.length := by
        rw [hnd1]
        cases b <;> rfl
      have hnd1_sym : nd1.sym = (tree.getD cur default).sym := by
        rw [hnd1]
        cases b <;> rfl
      have f_len1 : tree1.length = tree.length + 1 := by
        rw [htree1, List.length_set, List.length_append]
        rfl
      have f_ext : linkExt tree tree1 := by
        refine ⟨by omega, ?_⟩
        intro i hi b' j hl
        rw [htree1, getD_set]
        by_cases hic : cur = i
        · subst hic
          rw [if_pos ⟨rfl, by rw [List.length_append]; simp; omega⟩]
          by_cases hb : b' = b
          · subst hb
            rw [hchild] at hl
            exact Option.noConfusion hl
          · rw [hnd1_same b' hb]
            exact hl
        · rw [if_neg (by tauto), List.getD_eq_getElem?_getD,
            List.getElem?_append_left hi, ← List.getD_eq_getElem?_getD]
          exact hl
      have hmono := follow_mono tree tree1 f_ext
      have htree1cur : tree1.getD cur default = nd1 := by
        rw [htree1, getD_set,
          if_pos ⟨rfl, by rw [List.length_append]; simp; omega⟩]
      have hcases := follow_alloc_cases tree cur b nd1 hwf hcur
        hnd1_same hnd1_b
      rw [← htree1] at hcases
      have hp1 : follow tree1 0 (p ++ [b]) = some tree.length := by
        rw [follow_append, hmono p 0 cur hp]
        show follow tree1 cur [b] = some tree.length
        rw [follow, htree1cur, hnd1_b]
        rfl
      have hnotreach : ∀ jx, follow tree 0 (p ++ [b]) = some jx → False := by
        intro jx hfx
        rw [follow_append, hp] at hfx
        have hfx' : follow tree cur [b] = some jx := hfx
        rw [follow, hchild] at hfx'
        exact Option.noConfusion hfx'
      have hwf1 : ArenaWF tree1 := by
        refine ⟨by intro hcon; have := congrArg List.length hcon; simp [f_len1] at this, ?_⟩
        intro i hi b' j hl
        rw [f_len1] at hi
        rw [htree1, getD_set] at hl
        by_cases hic : cur = i
        · subst hic
          rw [if_pos ⟨rfl, by rw [List.length_append]; simp; omega⟩] at hl
          by_cases hb : b' = b
          · subst hb
            rw [hnd1_b] at hl
            have hj := Option.some.inj hl
            omega
          · rw [hnd1_same b' hb] at hl
            have := hwf.2 cur hcur b' j hl
            omega
        · rw [if_neg (by tauto)] at hl
          by_cases hil : i < tree.length
          · rw [List.getD_eq_getElem?_getD, List.getElem?_append_left hil,
              ← List.getD_eq_getElem?_getD] at hl
            have := hwf.2 i hil b' j hl
            omega
          · have hieq : i = tree.length := by omega
            subst hieq
            rw [List.getD_eq_getElem?_getD,
              List.getElem?_append_right le_rfl] at hl
            simp at hl
            rw [show (dec_blank : dec_node_t) = ⟨none, none, none⟩ from rfl] at hl
            cases b' <;> simp [dec_child] at hl
      -- apply the induction hypothesis to the extended arena
      have hres := ih (p ++ [b]) tree1 tree.length hpbc hwf1
        (fun q hq => by
          obtain ⟨jx, hjx⟩ := h2 q hq
          exact ⟨jx, hmono q 0 jx hjx⟩)
        (fun q hq => by
          rcases (prefix_snoc_iff q p b).mp hq with hq | rfl
          · obtain ⟨jx, hjx⟩ := h2b q hq
            exact ⟨jx, hmono q 0 jx hjx⟩
          · exact ⟨tree.length, hp1⟩)
        (fun q j hf => by
          rcases hcases q j hf with hold | ⟨q0, rfl, hfq0, rfl⟩
          · rcases h3 q j hold with h | h | h
            · exact Or.inl h
            · exact Or.inr (Or.inl h)
            · exact Or.inr (Or.inr (h.trans (List.prefix_append p [b])))
          · have hq0p : q0 = p := h5 q0 p cur hfq0 hp
            subst hq0p
            exact Or.inr (Or.inr List.prefix_rfl))
        (fun q j hf => by
          rcases hcases q j hf with hold | ⟨q0, rfl, hfq0, rfl⟩
          · have hjlt : j < tree.length :=
              follow_lt_length tree hwf q 0 j hlen0 hold
            have hnode : tree1.getD j default =
                (if j = cur then nd1 else tree.getD j default) := by
              rw [htree1, getD_set]
              by_cases hjc : cur = j
              · subst hjc
                rw [if_pos ⟨rfl, by rw [List.length_append]; simp; omega⟩,
                  if_pos rfl]
              · rw [if_neg (by tauto), if_neg (by omega),
                  List.getD_eq_getElem?_getD, List.getElem?_append_left hjlt,
                  ← List.getD_eq_getElem?_getD]
            rw [hnode]
            by_cases hjc : j = cur
            · rw [if_pos hjc, hnd1_sym, ← hjc]
              exact h4 q j hold
            · rw [if_neg hjc]
              exact h4 q j hold
          · have hq0p : q0 = p := h5 q0 p cur hfq0 hp
            have hnode : tree1.getD tree.length default = dec_blank := by
              rw [htree1, getD_set, if_neg (by rintro ⟨h1, -⟩; omega),
                List.getD_eq_getElem?_getD, List.getElem?_append_right le_rfl]
              simp
            rw [hnode, hq0p]
            have hsa : symAt cl (p ++ [b]) = none := by
              apply symAt_none
              intro e he hec
              exact hnc e he (hec ▸ hpbpfx)
            rw [hsa]
            rfl)
        (fun q q' j hf hf' => by
          rcases hcases q j hf with hold | ⟨q0, heq, hfq0, hj⟩
          · rcases hcases q' j hf' with hold' | ⟨q0', heq', hfq0', hj'⟩
            · exact h5 q q' j hold hold'
            · exfalso
              rw [hj'] at hold
              have := follow_lt_length tree hwf q 0 tree.length hlen0 hold
              omega
          · rcases hcases q' j hf' with hold' | ⟨q0', heq', hfq0', hj'⟩
            · exfalso
              rw [hj] at hold'
              have := follow_lt_length tree hwf q' 0 tree.length hlen0 hold'
              omega
            · rw [heq, heq']
              have hq0 : q0 = q0' := h5 q0 q0' cur hfq0 hfq0'
              rw [hq0])
        hp1
        (by
          rw [f_len1]
          simp only [List.length_cons] at h6
          omega)
        (by
          rw [f_len1]
          have hnotin : (p ++ [b]) ∉ pfxF (cl.map (fun e => e.1)) := by
            intro hmem
            rw [mem_pfxF] at hmem
            obtain ⟨-, cc, hcc, hpcc⟩ := hmem
            obtain ⟨e, he, rfl⟩ := List.mem_map.mp hcc
            obtain ⟨jx, hjx⟩ := h2 (p ++ [b]) ⟨e, he, hpcc⟩
            exact hnotreach jx hjx
          have hsub : insert (p ++ [b])
              (p.inits.toFinset.erase [] \ pfxF (cl.map (fun e => e.1))) ⊆
              (p ++ [b]).inits.toFinset.erase [] \
                pfxF (cl.map (fun e => e.1)) := by
            intro q hq
            rw [Finset.mem_insert] at hq
            rcases hq with rfl | hq
            · rw [Finset.mem_sdiff, Finset.mem_erase, List.mem_toFinset,
                List.mem_inits]
              exact ⟨⟨by simp, List.prefix_rfl⟩, hnotin⟩
            · rw [Finset.mem_sdiff, Finset.mem_erase, List.mem_toFinset,
                List.mem_inits] at hq ⊢
              exact ⟨⟨hq.1.1, hq.1.2.trans (List.prefix_append p [b])⟩, hq.2⟩
          have hnotmem : (p ++ [b]) ∉
              p.inits.toFinset.erase [] \ pfxF (cl.map (fun e => e.1)) := by
            rw [Finset.mem_sdiff, Finset.mem_erase, List.mem_toFinset,
              List.mem_inits]
            rintro ⟨⟨-, hpref⟩, -⟩
            have := hpref.length_le
            simp at this
          have hcard := Finset.card_le_card hsub
          rw [Finset.card_insert_of_not_mem hnotmem] at hcard
          omega)
      obtain ⟨tree', hrun, hc1, hc2, hc3, hc4, hc5, hc6⟩ := hres
      refine ⟨tree', ?_, hc1, hc2, hc3, hc4, hc5, hc6⟩
      rw [insert_code, hchild, if_neg (by omega)]
      exact hrun
    · -- link already present: just descend
      have hp1 : follow tree 0 (p ++ [b]) = some nxt := by
        rw [follow_append, hp]
        show follow tree cur [b] = some nxt
        rw [follow, hchild]
        rfl
      have hres := ih (p ++ [b]) tree nxt hpbc hwf h2
        (fun q hq => by
          rcases (prefix_snoc_iff q p b).mp hq with hq | rfl
          · exact h2b q hq
          · exact ⟨nxt, hp1⟩)
        (fun q j hf => by
          rcases h3 q j hf with h | h | h
          · exact Or.inl h
          · exact Or.inr (Or.inl h)
          · exact Or.inr (Or.inr (h.trans (List.prefix_append p [b]))))
        h4 h5 hp1
        (by simp only [List.length_cons] at h6; omega)
        (by
          have hsub : p.inits.toFinset.erase [] \
              pfxF (cl.map (fun e => e.1)) ⊆
              (p ++ [b]).inits.toFinset.erase [] \
                pfxF (cl.map (fun e => e.1)) := by
            intro q hq
            rw [Finset.mem_sdiff, Finset.mem_erase, List.mem_toFinset,
              List.mem_inits] at hq ⊢
            exact ⟨⟨hq.1.1, hq.1.2.trans (List.prefix_append p [b])⟩, hq.2⟩
          have := Finset.card_le_card hsub
          omega)
      obtain ⟨tree', hrun, hc1, hc2, hc3, hc4, hc5, hc6⟩ := hres
      refine ⟨tree', ?_, hc1, hc2, hc3, hc4, hc5, hc6⟩
      rw [insert_code, hchild]
      exact hrun

theorem symAt_append_left (cl cl' : List (List Bool × ℕ)) (q : List Bool)
    (t : ℕ) (h : symAt cl q = some t) : symAt (cl ++ cl') q = some t := by
  unfold symAt at h ⊢
  rw [List.find?_append]
  rcases hf : cl.find? (fun e => e.1 == q) with - | e
  · rw [hf] at h
    simp at h
  · rw [hf] at h ⊢
    exact h

theorem pfxF_mono (cs cs' : List (List Bool)) (h : ∀ c ∈ cs, c ∈ cs') :
    pfxF cs ⊆ pfxF cs' := by
  intro q hq
  rw [mem_pfxF] at hq ⊢
  obtain ⟨hne, c, hc, hpc⟩ := hq
  exact ⟨hne, c, h c hc, hpc⟩

theorem pfxF_snoc (cs : List (List Bool)) (c : List Bool) :
    pfxF (cs ++ [c]) = pfxF cs ∪ c.inits.toFinset.erase [] := by
  ext q
  rw [mem_pfxF, Finset.mem_union, mem_pfxF, Finset.mem_erase,
    List.mem_toFinset, List.mem_inits]
  constructor
  · rintro ⟨hne, cc, hcc, hpc⟩
    rw [List.mem_append] at hcc
    rcases hcc with hcc | hcc
    · exact Or.inl ⟨hne, cc, hcc, hpc⟩
    · rw [List.mem_singleton] at hcc
      subst hcc
      exact Or.inr ⟨hne, hpc⟩
  · rintro (⟨hne, cc, hcc, hpc⟩ | ⟨hne, hpc⟩)
    · exact ⟨hne, cc, List.mem_append_left _ hcc, hpc⟩
    · exact ⟨hne, c, List.mem_append_right _ (List.mem_singleton_self c), hpc⟩

theorem clP_mem (lens codes : ℕ → ℕ) (l : List ℕ)
    (e : List Bool × ℕ) (he : e ∈ clP lens codes l) :
    e.2 ∈ l ∧ lens e.2 ≠ 0 ∧ e.1 = natBits (codes e.2) (lens e.2) := by
  unfold clP at he
  rw [List.mem_map] at he
  obtain ⟨t, ht, rfl⟩ := he
  rw [List.mem_filter] at ht
  exact ⟨ht.1, by simpa using ht.2, rfl⟩

theorem clP_snoc_zero (lens codes : ℕ → ℕ) (l : List ℕ) (s : ℕ)
    (h0 : lens s = 0) :
    clP lens codes (l ++ [s]) = clP lens codes l := by
  unfold clP
  rw [List.filter_append]
  simp [h0]

theorem clP_snoc_pos (lens codes : ℕ → ℕ) (l : List ℕ) (s : ℕ)
    (h0 : lens s ≠ 0) :
    clP lens codes (l ++ [s]) =
      clP lens codes l ++ [(natBits (codes s) (lens s), s)] := by
  unfold clP
  rw [List.filter_append]
  simp [h0]

theorem build_tree_fold_spec (lens codes : ℕ → ℕ)
    (hpf : ∀ s t, s < 256 → t < 256 → lens s ≠ 0 → lens t ≠ 0 → s ≠ t →
      ¬ (natBits (codes s) (lens s) <+: natBits (codes t) (lens t)))
    (hlen32 : ∀ s, lens s ≤ 32)
    (hcard : (pfxF ((clP lens codes (List.range 256)).map
      (fun e => e.1))).card ≤ 510) :
    ∀ (todo done : List ℕ) (tree : List dec_node_t),
    done ++ todo = List.range 256 →
    ArenaWF tree →
    (∀ q, (∃ e ∈ clP lens codes done, q <+: e.1) →
      ∃ j, follow tree 0 q = some j) →
    (∀ q j, follow tree 0 q = some j →
      q = [] ∨ ∃ e ∈ clP lens codes done, q <+: e.1) →
    (∀ q j, follow tree 0 q = some j →
      (tree.getD j default).sym = symAt (clP lens codes done) q) →
    (∀ q q' j, follow tree 0 q = some j → follow tree 0 q' = some j →
      q = q') →
    tree.length ≤ 1 + (pfxF ((clP lens codes done).map (fun e => e.1))).card →
    ∃ tree', todo.foldlM (fun tree s =>
        if lens s = 0 then pure tree
        else insert_code tree 0 (natBits (codes s) (lens s)) s) tree
        = .ok tree' ∧
      ArenaWF tree' ∧
      (∀ q, (∃ e ∈ clP lens codes (done ++ todo), q <+: e.1) →
        ∃ j, follow tree' 0 q = some j) ∧
      (∀ q j, follow tree' 0 q = some j →
        q = [] ∨ ∃ e ∈ clP lens codes (done ++ todo), q <+: e.1) ∧
      (∀ q j, follow tree' 0 q = some j →
        (tree'.getD j default).sym =
          symAt (clP lens codes (done ++ todo)) q) ∧
      (∀ q q' j, follow tree' 0 q = some j → follow tree' 0 q' = some j →
        q = q') ∧
      tree'.length ≤ 1 +
        (pfxF ((clP lens codes (done ++ todo)).map (fun e => e.1))).card := by
  intro todo
  induction todo with
  | nil =>
    intro done tree hr hwf h2 h3 h4 h5 h7
    rw [List.append_nil]
    exact ⟨tree, rfl, hwf, h2, h3, h4, h5, h7⟩
  | cons s todo ih =>
    intro done tree hr hwf h2 h3 h4 h5 h7
    have hassoc : ((done ++ [s]) ++ todo : List ℕ) = done ++ s :: todo := by
      simp
    have hsnotin : s ∉ done := by
      have hnd : (done ++ s :: todo).Nodup := by
        rw [hr]
        exact List.nodup_range 256
      rw [List.nodup_append] at hnd
      intro hs
      exact hnd.2.2 hs (List.mem_cons_self s todo)
    by_cases h0 : lens s = 0
    · have hcl := clP_snoc_zero lens codes done s h0
      obtain ⟨tree', hrun, hwf1, hc1, hc2, hc3, hc4, hc5⟩ :=
        ih (done ++ [s]) tree (by rw [hassoc]; exact hr) hwf
          (by rw [hcl]; exact h2) (by rw [hcl]; exact h3)
          (by rw [hcl]; exact h4) h5 (by rw [hcl]; exact h7)
      rw [hassoc] at hc1 hc2 hc3 hc5
      refine ⟨tree', ?_, hwf1, hc1, hc2, hc3, hc4, hc5⟩
      rw [List.foldlM_cons, if_pos h0]
      exact hrun
    · -- insert the code for symbol s
      have hnc : ∀ e ∈ clP lens codes done,
          ¬ (e.1 <+: natBits (codes s) (lens s)) := by
        intro e he
        obtain ⟨hmem, hl, hc⟩ := clP_mem lens codes done e he
        rw [hc]
        have hs256 : s < 256 := by
          have hsm : s ∈ List.range 256 := by
            rw [← hr]
            exact List.mem_append_right _ (List.mem_cons_self _ _)
          exact List.mem_range.mp hsm
        have he256 : e.2 < 256 := by
          have hem : e.2 ∈ List.range 256 := by
            rw [← hr]
            exact List.mem_append_left _ hmem
          exact List.mem_range.mp hem
        exact hpf e.2 s he256 hs256 hl h0 (by rintro rfl; exact hsnotin hmem)
      have hsub : pfxF ((clP lens codes done).map (fun e => e.1)) ⊆
          pfxF ((clP lens codes (List.range 256)).map (fun e => e.1)) := by
        apply pfxF_mono
        intro cc hcc
        rw [List.mem_map] at hcc ⊢
        obtain ⟨e, he, rfl⟩ := hcc
        refine ⟨e, ?_, rfl⟩
        unfold clP at he ⊢
        rw [List.mem_map] at he ⊢
        obtain ⟨t, ht, rfl⟩ := he
        refine ⟨t, ?_, rfl⟩
        rw [List.mem_filter] at ht ⊢
        exact ⟨by rw [← hr]; exact List.mem_append_left _ ht.1, ht.2⟩
      have hcards : (pfxF ((clP lens codes done).map (fun e => e.1))).card
          ≤ 510 := le_trans (Finset.card_le_card hsub) hcard
      obtain ⟨tree1, hins, g1, g2, g3, g4, g5, g6⟩ :=
        insert_code_spec (clP lens codes done)
          (natBits (codes s) (lens s)) s hnc
          (natBits (codes s) (lens s)) [] tree 0 rfl hwf h2
          (by
            intro q hq
            rw [List.prefix_nil] at hq
            subst hq
            exact ⟨0, rfl⟩)
          (by
            intro q j hf
            rcases h3 q j hf with h | h
            · exact Or.inl h
            · exact Or.inr (Or.inl h))
          h4 h5 rfl
          (by
            rw [natBits_length]
            have := hlen32 s
            omega)
          (by
            have hz : (([] : List Bool).inits.toFinset.erase [] \
                pfxF ((clP lens codes done).map (fun e => e.1))) = ∅ := by
              simp
            rw [hz]
            simpa using h7)
      have hcl := clP_snoc_pos lens codes done s h0
      have hsymc : symAt (clP lens codes done)
          (natBits (codes s) (lens s)) = none := by
        rcases hsy : symAt (clP lens codes done)
            (natBits (codes s) (lens s)) with - | t
        · rfl
        · exfalso
          have hmem := symAt_some _ _ _ hsy
          exact hnc _ hmem List.prefix_rfl
      have hsymsnoc : ∀ q, symAt (clP lens codes (done ++ [s])) q =
          (if q = natBits (codes s) (lens s) then some s
           else symAt (clP lens codes done) q) := by
        intro q
        rw [hcl]
        by_cases hq : q = natBits (codes s) (lens s)
        · subst hq
          rw [if_pos rfl, symAt_append_right _ _ _ hsymc]
          simp [symAt]
        · rw [if_neg hq]
          rcases hsy : symAt (clP lens codes done) q with - | t
          · rw [symAt_append_right _ _ _ hsy]
            apply symAt_none
            intro e he
            rw [List.mem_singleton] at he
            subst he
            exact fun hc => hq hc.symm
          · exact symAt_append_left _ _ _ _ hsy
      have hpfxsnoc : pfxF ((clP lens codes (done ++ [s])).map
          (fun e => e.1)) =
          pfxF ((clP lens codes done).map (fun e => e.1)) ∪
          (natBits (codes s) (lens s)).inits.toFinset.erase [] := by
        rw [hcl, List.map_append]
        exact pfxF_snoc _ _
      obtain ⟨tree', hrun, hwf1, hc1, hc2, hc3, hc4, hc5⟩ :=
        ih (done ++ [s]) tree1 (by rw [hassoc]; exact hr) g1
          (by
            intro q hq
            apply g2
            obtain ⟨e, he, hpe⟩ := hq
            rw [hcl, List.mem_append] at he
            rcases he with he | he
            · exact Or.inl ⟨e, he, hpe⟩
            · rw [List.mem_singleton] at he
              subst he
              exact Or.inr hpe)
          (by
            intro q j hf
            rcases g3 q j hf with h | h | h
            · exact Or.inl h
            · obtain ⟨e, he, hpe⟩ := h
              exact Or.inr ⟨e, by rw [hcl]; exact List.mem_append_left _ he,
                hpe⟩
            · refine Or.inr ⟨(natBits (codes s) (lens s), s), ?_, h⟩
              rw [hcl]
              exact List.mem_append_right _ (List.mem_singleton_self _))
          (by
            intro q j hf
            rw [hsymsnoc q]
            exact g4 q j hf)
          g5
          (by
            rw [hpfxsnoc]
            have hkey : (pfxF ((clP lens codes done).map
                (fun e => e.1))).card +
                ((natBits (codes s) (lens s)).inits.toFinset.erase [] \
                  pfxF ((clP lens codes done).map (fun e => e.1))).card =
                (pfxF ((clP lens codes done).map (fun e => e.1)) ∪
                  (natBits (codes s) (lens s)).inits.toFinset.erase []).card := by
              rw [add_comm, Finset.card_sdiff_add_card, Finset.union_comm]
            omega)
      rw [hassoc] at hc1 hc2 hc3 hc5
      refine ⟨tree', ?_, hwf1, hc1, hc2, hc3, hc4, hc5⟩
      rw [List.foldlM_cons, if_neg h0, hins]
      exact hrun

theorem build_decode_tree_spec (lens codes : ℕ → ℕ)
    (hpf : ∀ s t, s < 256 → t < 256 → lens s ≠ 0 → lens t ≠ 0 → s ≠ t →
      ¬ (natBits (codes s) (lens s) <+: natBits (codes t) (lens t)))
    (hlen32 : ∀ s, lens s ≤ 32)
    (hcard : (pfxF ((clP lens codes (List.range 256)).map
      (fun e => e.1))).card ≤ 510) :
    ∃ tree, build_decode_tree lens codes = .ok tree ∧
      ArenaModels tree (clP lens codes (List.range 256)) := by
  have hwf0 : ArenaWF [(⟨none, none, none⟩ : dec_node_t)] := by
    refine ⟨by simp, ?_⟩
    intro i hi b j hl
    simp at hi
    subst hi
    have hd : dec_child
        (List.getD [(⟨none, none, none⟩ : dec_node_t)] 0 default) b
        = none := by
      cases b <;> rfl
    rw [hd] at hl
    exact Option.noConfusion hl
  have hreach0 : ∀ (q : List Bool) (j : ℕ),
      follow [(⟨none, none, none⟩ : dec_node_t)] 0 q = some j →
      q = [] ∧ j = 0 := by
    intro q j hf
    rcases q with - | ⟨b, q⟩
    · rw [follow] at hf
      exact ⟨rfl, (Option.some.inj hf).symm⟩
    · rw [follow] at hf
      have hd : dec_child
          (List.getD [(⟨none, none, none⟩ : dec_node_t)] 0 default) b
          = none := by
        cases b <;> rfl
      rw [hd] at hf
      exact Option.noConfusion hf
  have hclnil : clP lens codes [] = [] := rfl
  obtain ⟨tree, hrun, m1, m2, m3, m4, m5, m6⟩ :=
    build_tree_fold_spec lens codes hpf hlen32 hcard (List.range 256) []
      [(⟨none, none, none⟩ : dec_node_t)] rfl hwf0
      (by
        intro q hq
        rw [hclnil] at hq
        obtain ⟨e, he, -⟩ := hq
        exact absurd he (List.not_mem_nil e))
      (by
        intro q j hf
        exact Or.inl (hreach0 q j hf).1)
      (by
        intro q j hf
        obtain ⟨rfl, rfl⟩ := hreach0 q j hf
        rfl)
      (by
        intro q q' j hf hf'
        rw [(hreach0 q j hf).1, (hreach0 q' j hf').1])
      (by simp)
  exact ⟨tree, hrun, m1, m2, m3, m4, m5, m6⟩

/-! ### Kraft counting for prefix-free code sets -/

theorem tailsB_length (cs : List (List Bool)) (hne : [] ∉ cs) :
    (tailsB false cs).length + (tailsB true cs).length = cs.length := by
  induction cs with
  | nil => rfl
  | cons c cs ih =>
    have hcs : [] ∉ cs := fun h => hne (List.mem_cons_of_mem c h)
    have ihh := ih hcs
    rcases c with - | ⟨c0, t⟩
    · exact absurd (List.mem_cons_self _ _) hne
    · cases c0
      · have h1 : tailsB false ((false :: t) :: cs) = t :: tailsB false cs := by
          rw [tailsB, if_pos rfl]
        have h2 : tailsB true ((false :: t) :: cs) = tailsB true cs := by
          rw [tailsB, if_neg (by simp)]
        rw [h1, h2, List.length_cons, List.length_cons]
        omega
      · have h1 : tailsB false ((true :: t) :: cs) = tailsB false cs := by
          rw [tailsB, if_neg (by simp)]
        have h2 : tailsB true ((true :: t) :: cs) = t :: tailsB true cs := by
          rw [tailsB, if_pos rfl]
        rw [h1, h2, List.length_cons, List.length_cons]
        omega

theorem tailsB_mem (b : Bool) (cs : List (List Bool)) (t : List Bool) :
    t ∈ tailsB b cs ↔ (b :: t) ∈ cs := by
  induction cs with
  | nil => simp [tailsB]
  | cons c cs ih =>
    rcases c with - | ⟨c0, tt⟩
    · rw [show tailsB b ([] :: cs) = tailsB b cs from by rw [tailsB]]
      rw [ih]
      simp
    · by_cases hc : c0 = b
      · rw [show tailsB b ((c0 :: tt) :: cs) = tt :: tailsB b cs from by
          rw [tailsB, if_pos hc]]
        rw [List.mem_cons, List.mem_cons, ih]
        constructor
        · rintro (rfl | h)
          · left
            rw [hc]
          · exact Or.inr h
        · rintro (h | h)
          · exact Or.inl (List.cons.inj h).2
          · exact Or.inr h
      · rw [show tailsB b ((c0 :: tt) :: cs) = tailsB b cs from by
          rw [tailsB, if_neg hc]]
        rw [ih, List.mem_cons]
        constructor
        · exact Or.inr
        · rintro (h | h)
          · exact absurd (List.cons.inj h).1.symm hc
          · exact h

theorem tailsB_kraft (L : ℕ) (cs : List (List Bool)) (hne : [] ∉ cs) :
    kraft_scaled (L + 1) (cs.map List.length) =
      kraft_scaled L ((tailsB false cs).map List.length) +
      kraft_scaled L ((tailsB true cs).map List.length) := by
  induction cs with
  | nil => rfl
  | cons c cs ih =>
    have hcs : [] ∉ cs := fun h => hne (List.mem_cons_of_mem c h)
    have ihh := ih hcs
    rcases c with - | ⟨c0, t⟩
    · exact absurd (List.mem_cons_self _ _) hne
    · have hexp : L + 1 - (t.length + 1) = L - t.length := by omega
      cases c0
      · have h1 : tailsB false ((false :: t) :: cs) = t :: tailsB false cs := by
          rw [tailsB, if_pos rfl]
        have h2 : tailsB true ((false :: t) :: cs) = tailsB true cs := by
          rw [tailsB, if_neg (by simp)]
        rw [h1, h2]
        simp only [kraft_scaled, List.map_cons, List.sum_cons,
          List.length_cons] at ihh ⊢
        rw [hexp]
        omega
      · have h1 : tailsB false ((true :: t) :: cs) = tailsB false cs := by
          rw [tailsB, if_neg (by simp)]
        have h2 : tailsB true ((true :: t) :: cs) = t :: tailsB true cs := by
          rw [tailsB, if_pos rfl]
        rw [h1, h2]
        simp only [kraft_scaled, List.map_cons, List.sum_cons,
          List.length_cons] at ihh ⊢
        rw [hexp]
        omega

theorem tailsB_pairwise (b : Bool) (cs : List (List Bool))
    (h : cs.Pairwise (fun a c => ¬ a <+: c ∧ ¬ c <+: a)) :
    (tailsB b cs).Pairwise (fun a c => ¬ a <+: c ∧ ¬ c <+: a) := by
  induction cs with
  | nil => exact List.Pairwise.nil
  | cons c cs ih =>
    rw [List.pairwise_cons] at h
    obtain ⟨hrel, htl⟩ := h
    rcases c with - | ⟨c0, t⟩
    · rw [show tailsB b ([] :: cs) = tailsB b cs from by rw [tailsB]]
      exact ih htl
    · by_cases hc : c0 = b
      · rw [show tailsB b ((c0 :: t) :: cs) = t :: tailsB b cs from by
          rw [tailsB, if_pos hc]]
        rw [List.pairwise_cons]
        refine ⟨?_, ih htl⟩
        intro t' ht'
        have hmem : (b :: t') ∈ cs := (tailsB_mem b cs t').mp ht'
        have hrel' := hrel (b :: t') hmem
        subst hc
        constructor
        · intro hp
          exact hrel'.1 ((List.cons_prefix_cons).mpr ⟨rfl, hp⟩)
        · intro hp
          exact hrel'.2 ((List.cons_prefix_cons).mpr ⟨rfl, hp⟩)
      · rw [show tailsB b ((c0 :: t) :: cs) = tailsB b cs from by
          rw [tailsB, if_neg hc]]
        exact ih htl

theorem tailsB_len_le (b : Bool) (L : ℕ) (cs : List (List Bool))
    (h : ∀ c ∈ cs, c.length ≤ L + 1) :
    ∀ t ∈ tailsB b cs, t.length ≤ L := by
  intro t ht
  have := h (b :: t) ((tailsB_mem b cs t).mp ht)
  simpa using this

theorem kraft_le (L : ℕ) : ∀ cs : List (List Bool),
    cs.Pairwise (fun a c => ¬ a <+: c ∧ ¬ c <+: a) →
    (∀ c ∈ cs, c.length ≤ L) →
    kraft_scaled L (cs.map List.length) ≤ 2^L := by
  induction L with
  | zero =>
    intro cs hpw hlen
    rcases cs with - | ⟨c, cs⟩
    · simp [kraft_scaled]
    · have hc : c = [] := List.length_eq_zero.mp
        (Nat.le_zero.mp (hlen c (List.mem_cons_self _ _)))
      rcases cs with - | ⟨c2, cs'⟩
      · subst hc
        simp [kraft_scaled]
      · exfalso
        have hc2 : c2 = [] := List.length_eq_zero.mp
          (Nat.le_zero.mp (hlen c2 (by simp)))
        have hrel := (List.pairwise_cons.mp hpw).1 c2 (List.mem_cons_self _ _)
        subst hc
        subst hc2
        exact hrel.1 List.prefix_rfl
  | succ L ih =>
    intro cs hpw hlen
    by_cases hnil : [] ∈ cs
    · rcases cs with - | ⟨c, cs⟩
      · simp [kraft_scaled]
      · rcases cs with - | ⟨c2, cs'⟩
        · have hc : c = [] := by simpa using hnil
          subst hc
          simp [kraft_scaled]
        · exfalso
          have hrel := (List.pairwise_cons.mp hpw).1
          rcases List.mem_cons.mp hnil with hcnil | htail
          · exact (hrel c2 (List.mem_cons_self _ _)).1
              (by rw [← hcnil]; exact List.nil_prefix)
          · exact (hrel [] htail).2 (List.nil_prefix)
    · have hk := tailsB_kraft L cs hnil
      have hA := ih (tailsB false cs) (tailsB_pairwise _ _ hpw)
        (tailsB_len_le _ L cs hlen)
      have hB := ih (tailsB true cs) (tailsB_pairwise _ _ hpw)
        (tailsB_len_le _ L cs hlen)
      rw [hk, pow_succ]
      omega

theorem pfx_card_le (L : ℕ) : ∀ cs : List (List Bool),
    cs.Pairwise (fun a c => ¬ a <+: c ∧ ¬ c <+: a) →
    (∀ c ∈ cs, c.length ≤ L) →
    kraft_scaled L (cs.map List.length) = 2^L →
    (pfxF cs).card + 2 ≤ 2 * cs.length := by
  induction L with
  | zero =>
    intro cs hpw hlen hk
    rcases cs with - | ⟨c, cs⟩
    · simp [kraft_scaled] at hk
    · have hc : c = [] := List.length_eq_zero.mp
        (Nat.le_zero.mp (hlen c (List.mem_cons_self _ _)))
      rcases cs with - | ⟨c2, cs'⟩
      · subst hc
        have hpe : pfxF [([] : List Bool)] = ∅ := by
          ext q
          rw [mem_pfxF]
          simp only [Finset.not_mem_empty, iff_false, not_and]
          rintro hq ⟨cc, hcc, hpc⟩
          rw [List.mem_singleton] at hcc
          subst hcc
          exact hq (List.prefix_nil.mp hpc)
        rw [hpe]
        simp
      · exfalso
        have hc2 : c2 = [] := List.length_eq_zero.mp
          (Nat.le_zero.mp (hlen c2 (by simp)))
        have hrel := (List.pairwise_cons.mp hpw).1 c2 (List.mem_cons_self _ _)
        subst hc
        subst hc2
        exact hrel.1 List.prefix_rfl
  | succ L ih =>
    intro cs hpw hlen hk
    by_cases hnil : [] ∈ cs
    · rcases cs with - | ⟨c, cs⟩
      · simp [kraft_scaled] at hk
        have : (0:ℕ) < 2^(L+1) := Nat.pos_pow_of_pos _ (by norm_num)
        omega
      · rcases cs with - | ⟨c2, cs'⟩
        · have hc : c = [] := by simpa using hnil
          subst hc
          have hpe : pfxF [([] : List Bool)] = ∅ := by
            ext q
            rw [mem_pfxF]
            simp only [Finset.not_mem_empty, iff_false, not_and]
            rintro hq ⟨cc, hcc, hpc⟩
            rw [List.mem_singleton] at hcc
            subst hcc
            exact hq (List.prefix_nil.mp hpc)
          rw [hpe]
          simp
        · exfalso
          have hrel := (List.pairwise_cons.mp hpw).1
          rcases List.mem_cons.mp hnil with hcnil | htail
          · exact (hrel c2 (List.mem_cons_self _ _)).1
              (by rw [← hcnil]; exact List.nil_prefix)
          · exact (hrel [] htail).2 (List.nil_prefix)
    · have hk2 := tailsB_kraft L cs hnil
      have hA := kraft_le L (tailsB false cs) (tailsB_pairwise _ _ hpw)
        (tailsB_len_le _ L cs hlen)
      have hB := kraft_le L (tailsB true cs) (tailsB_pairwise _ _ hpw)
        (tailsB_len_le _ L cs hlen)
      have hAB : kraft_scaled L ((tailsB false cs).map List.length) = 2^L ∧
          kraft_scaled L ((tailsB true cs).map List.length) = 2^L := by
        rw [hk2, pow_succ] at hk
        omega
      have ihA := ih (tailsB false cs) (tailsB_pairwise _ _ hpw)
        (tailsB_len_le _ L cs hlen) hAB.1
      have ihB := ih (tailsB true cs) (tailsB_pairwise _ _ hpw)
        (tailsB_len_le _ L cs hlen) hAB.2
      have hsub : pfxF cs ⊆ insert [false] (insert [true]
          (((pfxF (tailsB false cs)).image (fun t => false :: t)) ∪
           ((pfxF (tailsB true cs)).image (fun t => true :: t)))) := by
        intro q hq
        rw [mem_pfxF] at hq
        obtain ⟨hqne, c, hc, hpc⟩ := hq
        rcases c with - | ⟨c0, ct⟩
        · exact absurd hc hnil
        · rcases q with - | ⟨q0, qt⟩
          · exact absurd rfl hqne
          · rw [List.cons_prefix_cons] at hpc
            obtain ⟨rfl, hqct⟩ := hpc
            rcases qt with - | ⟨q1, qt'⟩
            · cases q0
              · exact Finset.mem_insert_self _ _
              · exact Finset.mem_insert_of_mem (Finset.mem_insert_self _ _)
            · have hqt : (q1 :: qt') ∈ pfxF (tailsB q0 cs) := by
                rw [mem_pfxF]
                exact ⟨by simp, ct, (tailsB_mem q0 cs ct).mpr hc, hqct⟩
              cases q0
              · exact Finset.mem_insert_of_mem (Finset.mem_insert_of_mem
                  (Finset.mem_union_left _
                    (Finset.mem_image_of_mem _ hqt)))
              · exact Finset.mem_insert_of_mem (Finset.mem_insert_of_mem
                  (Finset.mem_union_right _
                    (Finset.mem_image_of_mem _ hqt)))
      have hcard : (pfxF cs).card ≤ 2 +
          ((pfxF (tailsB false cs)).card + (pfxF (tailsB true cs)).card) := by
        calc (pfxF cs).card
            ≤ (insert [false] (insert [true]
              (((pfxF (tailsB false cs)).image (fun t => false :: t)) ∪
               ((pfxF (tailsB true cs)).image (fun t => true :: t))))).card :=
              Finset.card_le_card hsub
          _ ≤ 1 + (insert [true]
              (((pfxF (tailsB false cs)).image (fun t => false :: t)) ∪
               ((pfxF (tailsB true cs)).image (fun t => true :: t)))).card := by
              have := Finset.card_insert_le ([false])
                (insert [true]
                  (((pfxF (tailsB false cs)).image (fun t => false :: t)) ∪
                   ((pfxF (tailsB true cs)).image (fun t => true :: t))))
              omega
          _ ≤ 1 + (1 +
              ((((pfxF (tailsB false cs)).image (fun t => false :: t)) ∪
               ((pfxF (tailsB true cs)).image (fun t => true :: t)))).card) := by
              have := Finset.card_insert_le ([true])
                ((((pfxF (tailsB false cs)).image (fun t => false :: t)) ∪
                 ((pfxF (tailsB true cs)).image (fun t => true :: t))))
              omega
          _ ≤ 2 + ((pfxF (tailsB false cs)).card +
              (pfxF (tailsB true cs)).card) := by
              have h1 := Finset.card_union_le
                ((pfxF (tailsB false cs)).image (fun t => false :: t))
                ((pfxF (tailsB true cs)).image (fun t => true :: t))
              have h2 := Finset.card_image_le (s := pfxF (tailsB false cs))
                (f := fun t => false :: t)
              have h3 := Finset.card_image_le (s := pfxF (tailsB true cs))
                (f := fun t => true :: t)
              omega
      have hlens := tailsB_length cs hnil
      omega

theorem pfxF_single_card (c : List Bool) : (pfxF [c]).card ≤ c.length := by
  have hsub : pfxF [c] ⊆ c.inits.toFinset.erase [] := by
    intro q hq
    rw [mem_pfxF] at hq
    obtain ⟨hqne, cc, hcc, hpc⟩ := hq
    rw [List.mem_singleton] at hcc
    subst hcc
    rw [Finset.mem_erase, List.mem_toFinset, List.mem_inits]
    exact ⟨hqne, hpc⟩
  have h1 := Finset.card_le_card hsub
  have h2 : ([] : List Bool) ∈ c.inits.toFinset := by
    rw [List.mem_toFinset, List.mem_inits]
    exact List.nil_prefix
  have h3 := Finset.card_erase_of_mem h2
  have h4 : c.inits.toFinset.card ≤ c.inits.length := List.toFinset_card_le _
  have h5 : c.inits.length = c.length + 1 := by
    induction c with
    | nil => rfl
    | cons b t ih => simp [List.inits]
  omega

/-! ### Canonical code assignment -/

theorem canon_foldl_notmem (l : List (ℕ × ℕ)) :
    ∀ (f : ℕ → ℕ) (code prev x : ℕ), x ∉ l.map Prod.fst →
    (l.foldl
      (fun (st : (ℕ → ℕ) × ℕ × ℕ) p =>
        let code := if st.2.2 < p.2 then st.2.1 * 2^(p.2 - st.2.2) else st.2.1
        let prev_len := if st.2.2 < p.2 then p.2 else st.2.2
        (Function.update st.1 p.1 code, code + 1, prev_len))
      (f, code, prev)).1 x = f x := by
  induction l with
  | nil => intro f code prev x hx; rfl
  | cons p rest ih =>
    intro f code prev x hx
    rw [List.map_cons, List.mem_cons] at hx
    push_neg at hx
    rw [List.foldl_cons]
    rw [ih _ _ _ x hx.2]
    exact Function.update_noteq hx.1 _ _

theorem canon_foldl_mem (l : List (ℕ × ℕ)) :
    ∀ (f : ℕ → ℕ) (code prev : ℕ), (l.map Prod.fst).Nodup →
    ∀ e ∈ canonSeq l code prev,
    (l.foldl
      (fun (st : (ℕ → ℕ) × ℕ × ℕ) p =>
        let code := if st.2.2 < p.2 then st.2.1 * 2^(p.2 - st.2.2) else st.2.1
        let prev_len := if st.2.2 < p.2 then p.2 else st.2.2
        (Function.update st.1 p.1 code, code + 1, prev_len))
      (f, code, prev)).1 e.1.1 = e.2 := by
  induction l with
  | nil => intro f code prev hnd e he; exact absurd he (List.not_mem_nil e)
  | cons p rest ih =>
    intro f code prev hnd e he
    rw [List.map_cons, List.nodup_cons] at hnd
    rw [canonSeq, List.mem_cons] at he
    rw [List.foldl_cons]
    rcases he with rfl | he
    · show (rest.foldl _ (Function.update f p.1 _, _, _)).1 p.1 = _
      rw [canon_foldl_notmem rest _ _ _ p.1 hnd.1]
      exact Function.update_same p.1 _ f
    · exact ih _ _ _ hnd.2 e he

theorem canonSeq_spec (L : ℕ) : ∀ (l : List (ℕ × ℕ)) (code prev : ℕ),
    l.Pairwise (fun a b => sym_len_le a b) →
    (∀ p ∈ l, prev ≤ p.2) →
    (∀ p ∈ l, 1 ≤ p.2 ∧ p.2 ≤ L) →
    code * 2^(L - prev) + kraft_scaled L (l.map Prod.snd) ≤ 2^L →
    (∀ e ∈ canonSeq l code prev,
      code * 2^(L - prev) ≤ e.2 * 2^(L - e.1.2) ∧
      (e.2 + 1) * 2^(L - e.1.2) ≤ 2^L ∧
      1 ≤ e.1.2 ∧ e.1.2 ≤ L ∧ prev ≤ e.1.2) ∧
    (canonSeq l code prev).Pairwise (fun a b =>
      (a.2 + 1) * 2^(L - a.1.2) ≤ b.2 * 2^(L - b.1.2) ∧ a.1.2 ≤ b.1.2) := by
  intro l
  induction l with
  | nil =>
    intro code prev _ _ _ _
    exact ⟨fun e he => absurd he (List.not_mem_nil e), List.Pairwise.nil⟩
  | cons p rest ih =>
    intro code prev hsort hprev hlen hroom
    have hp2 := hlen p (List.mem_cons_self _ _)
    have hprevp : prev ≤ p.2 := hprev p (List.mem_cons_self _ _)
    have hscaled : (if prev < p.2 then code * 2^(p.2 - prev) else code) *
        2^(L - p.2) = code * 2^(L - prev) := by
      by_cases h : prev < p.2
      · rw [if_pos h, mul_assoc, ← pow_add,
          show p.2 - prev + (L - p.2) = L - prev by omega]
      · rw [if_neg h, show p.2 = prev by omega]
    have hprev' : (if prev < p.2 then p.2 else prev) = p.2 := by
      by_cases h : prev < p.2
      · rw [if_pos h]
      · rw [if_neg h]
        omega
    have hkcons : kraft_scaled L ((p :: rest).map Prod.snd) =
        2^(L - p.2) + kraft_scaled L (rest.map Prod.snd) := by
      simp [kraft_scaled]
    have hroomrest : ((if prev < p.2 then code * 2^(p.2 - prev) else code)
        + 1) * 2^(L - p.2) +
        kraft_scaled L (rest.map Prod.snd) ≤ 2^L := by
      rw [add_mul, one_mul, hscaled]
      rw [hkcons] at hroom
      omega
    have hrel := (List.pairwise_cons.mp hsort).1
    have hsort' := (List.pairwise_cons.mp hsort).2
    have hprevrest : ∀ q ∈ rest, p.2 ≤ q.2 := by
      intro q hq
      have hpq := hrel q hq
      unfold sym_len_le at hpq
      simp only [Bool.or_eq_true, decide_eq_true_eq, Bool.and_eq_true] at hpq
      rcases hpq with h | ⟨h, -⟩
      · omega
      · omega
    obtain ⟨ihforall, ihpw⟩ :=
      ih ((if prev < p.2 then code * 2^(p.2 - prev) else code) + 1) p.2
        hsort' hprevrest
        (fun q hq => hlen q (List.mem_cons_of_mem p hq)) hroomrest
    rw [canonSeq, hprev']
    constructor
    · intro e he
      rw [List.mem_cons] at he
      rcases he with rfl | he
      · refine ⟨hscaled.symm.le, ?_, hp2.1, hp2.2, hprevp⟩
        show ((if prev < p.2 then code * 2^(p.2 - prev) else code) + 1) *
            2^(L - p.2) ≤ 2^L
        omega
      · obtain ⟨g1, g2, g3, g4, g5⟩ := ihforall e he
        refine ⟨?_, g2, g3, g4, le_trans hprevp g5⟩
        calc code * 2^(L - prev)
            = (if prev < p.2 then code * 2^(p.2 - prev) else code) *
              2^(L - p.2) := hscaled.symm
          _ ≤ ((if prev < p.2 then code * 2^(p.2 - prev) else code) + 1) *
              2^(L - p.2) := by
              exact Nat.mul_le_mul_right _ (by omega)
          _ ≤ e.2 * 2^(L - e.1.2) := g1
    · rw [List.pairwise_cons]
      refine ⟨?_, ihpw⟩
      intro e he
      obtain ⟨g1, g2, g3, g4, g5⟩ := ihforall e he
      exact ⟨g1, g5⟩

theorem canon_not_pfx (L ca cb la lb : ℕ)
    (hla1 : 1 ≤ la) (hlaL : la ≤ L) (hlbL : lb ≤ L)
    (hca : ca < 2^la) (hcb : cb < 2^lb)
    (hord : (ca + 1) * 2^(L - la) ≤ cb * 2^(L - lb))
    (hlab : la ≤ lb) :
    ¬ (natBits ca la <+: natBits cb lb) ∧
    ¬ (natBits cb lb <+: natBits ca la) := by
  have hD : (0:ℕ) < 2^(lb - la) := Nat.pos_pow_of_pos _ (by norm_num)
  have hE : (0:ℕ) < 2^(L - lb) := Nat.pos_pow_of_pos _ (by norm_num)
  have hcb' : (ca + 1) * 2^(lb - la) ≤ cb := by
    have hexp : (ca + 1) * 2^(L - la) =
        ((ca + 1) * 2^(lb - la)) * 2^(L - lb) := by
      rw [mul_assoc, ← pow_add, show lb - la + (L - lb) = L - la by omega]
    rw [hexp] at hord
    exact Nat.le_of_mul_le_mul_right hord hE
  constructor
  · intro hp
    have htake := List.prefix_iff_eq_take.mp hp
    rw [natBits_length, natBits_take _ _ _ hlab] at htake
    have hdivlt : cb / 2^(lb - la) < 2^la := by
      rw [Nat.div_lt_iff_lt_mul hD, ← pow_add,
        show la + (lb - la) = lb by omega]
      exact hcb
    have heq : ca = cb / 2^(lb - la) := natBits_inj ca _ la hca hdivlt htake
    have hge : ca + 1 ≤ cb / 2^(lb - la) :=
      (Nat.le_div_iff_mul_le hD).mpr hcb'
    omega
  · intro hp
    have hlen := hp.length_le
    rw [natBits_length, natBits_length] at hlen
    have hll : la = lb := by omega
    subst hll
    have heq := hp.eq_of_length (by rw [natBits_length, natBits_length])
    have heq2 : cb = ca := natBits_inj cb ca la hcb hca heq
    simp at hcb'
    omega

theorem canonSeq_mem_of_mem : ∀ (l : List (ℕ × ℕ)) (code prev : ℕ)
    (p : ℕ × ℕ), p ∈ l → ∃ c, ((p, c) : (ℕ × ℕ) × ℕ) ∈ canonSeq l code prev
  | [], _, _, p, hp => absurd hp (List.not_mem_nil p)
  | q :: rest, code, prev, p, hp => by
    rw [canonSeq]
    rcases List.mem_cons.mp hp with rfl | hp
    · exact ⟨_, List.mem_cons_self _ _⟩
    · obtain ⟨c, hc⟩ := canonSeq_mem_of_mem rest _ _ p hp
      exact ⟨c, List.mem_cons_of_mem _ hc⟩

theorem canonSeq_fst_mem : ∀ (l : List (ℕ × ℕ)) (code prev : ℕ)
    (e : (ℕ × ℕ) × ℕ), e ∈ canonSeq l code prev → e.1 ∈ l
  | [], _, _, e, he => absurd he (List.not_mem_nil e)
  | q :: rest, code, prev, e, he => by
    rw [canonSeq] at he
    rcases List.mem_cons.mp he with rfl | he
    · exact List.mem_cons_self _ _
    · exact List.mem_cons_of_mem _ (canonSeq_fst_mem rest _ _ e he)

theorem sym_len_le_trans : ∀ (a b c : ℕ × ℕ), sym_len_le a b = true →
    sym_len_le b c = true → sym_len_le a c = true := by
  intro a b c hab hbc
  unfold sym_len_le at hab hbc ⊢
  simp only [Bool.or_eq_true, decide_eq_true_eq, Bool.and_eq_true] at hab hbc ⊢
  omega

theorem sym_len_le_total : ∀ (a b : ℕ × ℕ),
    (sym_len_le a b || sym_len_le b a) = true := by
  intro a b
  unfold sym_len_le
  simp only [Bool.or_eq_true, decide_eq_true_eq, Bool.and_eq_true]
  omega

theorem build_canonical_codes_spec (lens : ℕ → ℕ)
    (h32 : ∀ s, s < 256 → lens s ≤ 32)
    (hne : ((List.range 256).filter (fun s => lens s ≠ 0)).length ≠ 0)
    (hkraft : kraft_scaled 32 (((List.range 256).filter
      (fun s => lens s ≠ 0)).map lens) ≤ 2^32) :
    ∃ codes, build_canonical_codes lens = .ok codes ∧
      (∀ s, s < 256 → lens s ≠ 0 → codes s < 2^(lens s)) ∧
      (∀ s t, s < 256 → t < 256 → lens s ≠ 0 → lens t ≠ 0 → s ≠ t →
        ¬ (natBits (codes s) (lens s) <+: natBits (codes t) (lens t))) := by
  have hany : (((List.range 256).filter (fun s => lens s ≠ 0)).map
      (fun s => (s, lens s))).any (fun p => 32 < p.2) = false := by
    rw [List.any_eq_false]
    intro p hp
    rw [List.mem_map] at hp
    obtain ⟨t, ht, rfl⟩ := hp
    rw [List.mem_filter, List.mem_range] at ht
    have := h32 t ht.1
    simp only [decide_eq_true_eq]
    omega
  have hlen : (((List.range 256).filter (fun s => lens s ≠ 0)).map
      (fun s => (s, lens s))).length ≠ 0 := by
    rw [List.length_map]
    exact hne
  set SL := (((List.range 256).filter (fun s => lens s ≠ 0)).map
    (fun s => (s, lens s))).mergeSort sym_len_le with hSL
  have hperm : SL.Perm (((List.range 256).filter (fun s => lens s ≠ 0)).map
      (fun s => (s, lens s))) := List.mergeSort_perm _ sym_len_le
  have hsorted : SL.Pairwise (fun a b => sym_len_le a b = true) :=
    List.sorted_mergeSort sym_len_le_trans sym_len_le_total _
  have hmemchar : ∀ p ∈ SL, p.1 < 256 ∧ lens p.1 ≠ 0 ∧ p.2 = lens p.1 := by
    intro p hp
    rw [hperm.mem_iff, List.mem_map] at hp
    obtain ⟨t, ht, rfl⟩ := hp
    rw [List.mem_filter, List.mem_range] at ht
    exact ⟨ht.1, by simpa using ht.2, rfl⟩
  have hlens_elts : ∀ p ∈ SL, 1 ≤ p.2 ∧ p.2 ≤ 32 := by
    intro p hp
    obtain ⟨h1, h2, h3⟩ := hmemchar p hp
    rw [h3]
    have := h32 p.1 h1
    omega
  have hkraft2 : kraft_scaled 32 (SL.map Prod.snd) ≤ 2^32 := by
    have hms : (((List.range 256).filter (fun s => lens s ≠ 0)).map
        (fun s => (s, lens s))).map Prod.snd =
        ((List.range 256).filter (fun s => lens s ≠ 0)).map lens := by
      rw [List.map_map]
      rfl
    unfold kraft_scaled
    rw [((hperm.map Prod.snd).map _).sum_eq, hms]
    exact hkraft
  have hkeys : (SL.map Prod.fst).Nodup := by
    rw [(hperm.map Prod.fst).nodup_iff]
    have hid : (((List.range 256).filter (fun s => lens s ≠ 0)).map
        (fun s => (s, lens s))).map Prod.fst =
        (List.range 256).filter (fun s => lens s ≠ 0) := by
      rw [List.map_map]
      exact List.map_id _
    rw [hid]
    exact (List.nodup_range 256).filter _
  have hSLne : SL ≠ [] := by
    intro h
    have hl := hperm.length_eq
    rw [h] at hl
    exact hlen hl.symm
  have hhead : (SL.headD (0, 0)).2 = (SL.headD (0, 0)).2 := rfl
  have hprevle : ∀ p ∈ SL, (SL.headD (0, 0)).2 ≤ p.2 := by
    rcases hsl : SL with - | ⟨p0, rest⟩
    · intro p hp
      exact absurd hp (List.not_mem_nil p)
    · intro p hp
      rw [List.headD_cons]
      rw [hsl] at hsorted
      rcases List.mem_cons.mp hp with rfl | hp
      · exact le_refl _
      · have hrel := (List.pairwise_cons.mp hsorted).1 p hp
        unfold sym_len_le at hrel
        simp only [Bool.or_eq_true, decide_eq_true_eq,
          Bool.and_eq_true] at hrel
        rcases hrel with h | ⟨h, -⟩
        · omega
        · omega
  obtain ⟨hforall, hpw⟩ := canonSeq_spec 32 SL 0 (SL.headD (0, 0)).2
    hsorted hprevle hlens_elts
    (by
      rw [zero_mul, zero_add]
      exact hkraft2)
  have hbuild : build_canonical_codes lens = pure ((SL.foldl
      (fun (st : (ℕ → ℕ) × ℕ × ℕ) p =>
        let code := if st.2.2 < p.2 then st.2.1 * 2^(p.2 - st.2.2) else st.2.1
        let prev_len := if st.2.2 < p.2 then p.2 else st.2.2
        (Function.update st.1 p.1 code, code + 1, prev_len))
      ((fun _ => 0), 0, (SL.headD (0, 0)).2)).1) := by
    unfold build_canonical_codes
    simp only []
    rw [hany]
    rw [if_neg (by simp), if_neg hlen]
  have hcodes : ∀ s, s < 256 → lens s ≠ 0 →
      ∃ c, (((s, lens s), c) : (ℕ × ℕ) × ℕ) ∈
          canonSeq SL 0 (SL.headD (0, 0)).2 ∧
        (SL.foldl
          (fun (st : (ℕ → ℕ) × ℕ × ℕ) p =>
            let code := if st.2.2 < p.2 then st.2.1 * 2^(p.2 - st.2.2)
              else st.2.1
            let prev_len := if st.2.2 < p.2 then p.2 else st.2.2
            (Function.update st.1 p.1 code, code + 1, prev_len))
          ((fun _ => 0), 0, (SL.headD (0, 0)).2)).1 s = c ∧
        c < 2^(lens s) := by
    intro s hs hs0
    have hmem : (s, lens s) ∈ SL := by
      rw [hperm.mem_iff, List.mem_map]
      exact ⟨s, by rw [List.mem_filter, List.mem_range]; exact ⟨hs,
        by simpa using hs0⟩, rfl⟩
    obtain ⟨c, hc⟩ := canonSeq_mem_of_mem SL 0 (SL.headD (0, 0)).2
      (s, lens s) hmem
    refine ⟨c, hc, ?_, ?_⟩
    · exact canon_foldl_mem SL _ 0 (SL.headD (0, 0)).2 hkeys _ hc
    · obtain ⟨-, g2, -, g4, -⟩ := hforall _ hc
      have hD : (0:ℕ) < 2^(32 - lens s) := Nat.pos_pow_of_pos _ (by norm_num)
      have h2exp : (2:ℕ)^32 = 2^(lens s) * 2^(32 - lens s) := by
        rw [← pow_add]
        congr 1
        have := h32 s hs
        omega
      rw [h2exp] at g2
      have := Nat.le_of_mul_le_mul_right g2 hD
      omega
  refine ⟨_, hbuild, ?_, ?_⟩
  · intro s hs hs0
    obtain ⟨c, -, heq, hlt⟩ := hcodes s hs hs0
    rw [heq]
    exact hlt
  · intro s t hs ht hs0 ht0 hst
    obtain ⟨cs, hcsmem, hcseq, hcslt⟩ := hcodes s hs hs0
    obtain ⟨ct, hctmem, hcteq, hctlt⟩ := hcodes t ht ht0
    have hpwS : (canonSeq SL 0 (SL.headD (0, 0)).2).Pairwise
        (fun a b => ((a.2 + 1) * 2^(32 - a.1.2) ≤ b.2 * 2^(32 - b.1.2) ∧
            a.1.2 ≤ b.1.2) ∨
          ((b.2 + 1) * 2^(32 - b.1.2) ≤ a.2 * 2^(32 - a.1.2) ∧
            b.1.2 ≤ a.1.2)) := hpw.imp Or.inl
    have hS : Symmetric (fun (a b : (ℕ × ℕ) × ℕ) =>
        ((a.2 + 1) * 2^(32 - a.1.2) ≤ b.2 * 2^(32 - b.1.2) ∧
            a.1.2 ≤ b.1.2) ∨
          ((b.2 + 1) * 2^(32 - b.1.2) ≤ a.2 * 2^(32 - a.1.2) ∧
            b.1.2 ≤ a.1.2)) := by
      intro a b h
      exact h.symm
    have hne2 : (((s, lens s), cs) : (ℕ × ℕ) × ℕ) ≠ ((t, lens t), ct) := by
      intro h
      exact hst (congrArg (fun e => e.1.1) h)
    have hrel := hpwS.forall hS hcsmem hctmem hne2
    rw [hcseq, hcteq]
    rcases hrel with ⟨hord, hle⟩ | ⟨hord, hle⟩
    · exact (canon_not_pfx 32 cs ct (lens s) (lens t)
        (by omega) (h32 s hs) (h32 t ht) hcslt hctlt hord hle).1
    · exact (canon_not_pfx 32 ct cs (lens t) (lens s)
        (by omega) (h32 t ht) (h32 s hs) hctlt hcslt hord hle).2

/-! ### Huffman tree construction -/

theorem perm_getD_eraseIdx (l : List HTree) (i : ℕ) (h : i < l.length) :
    l.Perm (l.getD i default :: l.eraseIdx i) := by
  rw [List.getD_eq_getElem l default h]
  exact (List.perm_cons_erase (List.getElem_mem h)).trans
    ((List.erase_getElem h).cons _)

theorem pick_min_lt : ∀ (ts : List HTree), ts ≠ [] →
    pick_min_node ts < ts.length := by
  intro ts
  induction ts with
  | nil => intro h; exact absurd rfl h
  | cons t rest ih =>
    intro hcne
    rw [pick_min_node]
    by_cases he : rest.isEmpty
    · rw [if_pos he]
      simp
    · rw [if_neg he]
      have hrne : rest ≠ [] := by
        intro h
        rw [h] at he
        exact he rfl
      have := ih hrne
      by_cases hlt : (rest.getD (pick_min_node rest) default).weight <
          t.weight
      · rw [if_pos hlt]
        simp only [List.length_cons]
        omega
      · rw [if_neg hlt]
        simp

theorem pick_min_le : ∀ (ts : List HTree) (i : ℕ), i < ts.length →
    (ts.getD (pick_min_node ts) default).weight ≤
    (ts.getD i default).weight := by
  intro ts
  induction ts with
  | nil => intro i hi; simp at hi
  | cons t rest ih =>
    intro i hi
    rw [pick_min_node]
    by_cases he : rest.isEmpty
    · rw [if_pos he]
      have hr : rest = [] := by
        cases rest
        · rfl
        · simp at he
      subst hr
      simp at hi
      subst hi
      exact le_refl _
    · rw [if_neg he]
      by_cases hlt : (rest.getD (pick_min_node rest) default).weight <
          t.weight
      · rw [if_pos hlt]
        rcases i with - | i
        · show (rest.getD (pick_min_node rest) default).weight ≤ t.weight
          omega
        · show (rest.getD (pick_min_node rest) default).weight ≤
            (rest.getD i default).weight
          exact ih i (by simpa using hi)
      · rw [if_neg hlt]
        rcases i with - | i
        · exact le_refl _
        · show t.weight ≤ (rest.getD i default).weight
          have := ih i (by simpa using hi)
          omega

theorem HTree.weight_pos : ∀ (t : HTree), fibOK t → 1 ≤ t.weight := by
  intro t
  induction t with
  | leaf s f => intro h; exact h
  | node l r ihl ihr =>
    intro h
    have := ihl h.1
    show 1 ≤ l.weight + r.weight
    omega

theorem leafDepths_ne_nil : ∀ (t : HTree), t.leafDepths ≠ [] := by
  intro t
  induction t with
  | leaf s f => simp [HTree.leafDepths]
  | node l r ihl ihr =>
    simp only [HTree.leafDepths]
    intro h
    rw [List.map_eq_nil_iff, List.append_eq_nil] at h
    exact ihl h.1

theorem fibOK_depth_bound : ∀ (t : HTree), fibOK t →
    ∀ d ∈ t.leafDepths, Nat.fib (d + 2) ≤ t.weight := by
  intro t
  rcases t with ⟨s, f⟩ | ⟨l, r⟩
  · intro h d hd
    simp [HTree.leafDepths] at hd
    subst hd
    exact h
  · intro h d hd
    exact h.2.2 d hd

theorem fibCross_symm (t u : HTree) (h : fibCross t u) : fibCross u t :=
  ⟨h.2, h.1⟩

theorem fibCross_self (t : HTree) (h : fibOK t) : fibCross t t := by
  have hbound : ∀ d ∈ t.leafDepths, Nat.fib (d + 1) ≤ t.weight := by
    intro d hd
    have h2 := fibOK_depth_bound t h d hd
    have hm : Nat.fib (d + 1) ≤ Nat.fib (d + 2) := Nat.fib_mono (by omega)
    omega
  exact ⟨hbound, hbound⟩

theorem weight_leaves : ∀ (t : HTree),
    t.weight = (t.leaves.map Prod.snd).sum := by
  intro t
  induction t with
  | leaf s f => simp [HTree.weight, HTree.leaves]
  | node l r ihl ihr =>
    show l.weight + r.weight = _
    rw [ihl, ihr]
    simp [HTree.leaves]

theorem merge_step (ts : List HTree) (hlen : 2 ≤ ts.length)
    (hinv : MergeInv ts) :
    MergeInv (((ts.eraseIdx (pick_min_node ts)).eraseIdx
        (pick_min_node (ts.eraseIdx (pick_min_node ts)))) ++
      [HTree.node (ts.getD (pick_min_node ts) default)
        ((ts.eraseIdx (pick_min_node ts)).getD
          (pick_min_node (ts.eraseIdx (pick_min_node ts))) default)]) ∧
    ((((ts.eraseIdx (pick_min_node ts)).eraseIdx
        (pick_min_node (ts.eraseIdx (pick_min_node ts)))) ++
      [HTree.node (ts.getD (pick_min_node ts) default)
        ((ts.eraseIdx (pick_min_node ts)).getD
          (pick_min_node (ts.eraseIdx (pick_min_node ts))) default)]).flatMap
        HTree.leaves).Perm (ts.flatMap HTree.leaves) ∧
    (((ts.eraseIdx (pick_min_node ts)).eraseIdx
        (pick_min_node (ts.eraseIdx (pick_min_node ts)))) ++
      [HTree.node (ts.getD (pick_min_node ts) default)
        ((ts.eraseIdx (pick_min_node ts)).getD
          (pick_min_node (ts.eraseIdx (pick_min_node ts))) default)]).length
      + 1 = ts.length := by
  have htsne : ts ≠ [] := by
    intro h
    rw [h] at hlen
    simp at hlen
  have ha := pick_min_lt ts htsne
  have hts1len : (ts.eraseIdx (pick_min_node ts)).length + 1 = ts.length :=
    List.length_eraseIdx_add_one ha
  have hts1ne : ts.eraseIdx (pick_min_node ts) ≠ [] := by
    intro h
    rw [h] at hts1len
    simp at hts1len
    omega
  have hb := pick_min_lt _ hts1ne
  have hts2len : ((ts.eraseIdx (pick_min_node ts)).eraseIdx
      (pick_min_node (ts.eraseIdx (pick_min_node ts)))).length + 1 =
      (ts.eraseIdx (pick_min_node ts)).length :=
    List.length_eraseIdx_add_one hb
  have hF1 := perm_getD_eraseIdx ts (pick_min_node ts) ha
  have hF2 := perm_getD_eraseIdx (ts.eraseIdx (pick_min_node ts))
    (pick_min_node (ts.eraseIdx (pick_min_node ts))) hb
  have hta_mem : ts.getD (pick_min_node ts) default ∈ ts :=
    hF1.symm.subset (List.mem_cons_self _ _)
  have htb_mem1 : (ts.eraseIdx (pick_min_node ts)).getD
      (pick_min_node (ts.eraseIdx (pick_min_node ts))) default ∈
      ts.eraseIdx (pick_min_node ts) :=
    hF2.symm.subset (List.mem_cons_self _ _)
  have hsub1 : ∀ u ∈ ts.eraseIdx (pick_min_node ts), u ∈ ts := by
    intro u hu
    exact (List.eraseIdx_sublist ts (pick_min_node ts)).subset hu
  have hsub2 : ∀ u ∈ (ts.eraseIdx (pick_min_node ts)).eraseIdx
      (pick_min_node (ts.eraseIdx (pick_min_node ts))),
      u ∈ ts.eraseIdx (pick_min_node ts) := by
    intro u hu
    exact (List.eraseIdx_sublist _ _).subset hu
  have htb_mem : (ts.eraseIdx (pick_min_node ts)).getD
      (pick_min_node (ts.eraseIdx (pick_min_node ts))) default ∈ ts :=
    hsub1 _ htb_mem1
  have hmin_a : ∀ u ∈ ts, (ts.getD (pick_min_node ts) default).weight ≤
      u.weight := by
    intro u hu
    obtain ⟨i, hi, rfl⟩ := List.mem_iff_getElem.mp hu
    rw [← List.getD_eq_getElem ts default hi]
    exact pick_min_le ts i hi
  have hmin_b : ∀ u ∈ ts.eraseIdx (pick_min_node ts),
      ((ts.eraseIdx (pick_min_node ts)).getD
        (pick_min_node (ts.eraseIdx (pick_min_node ts))) default).weight ≤
      u.weight := by
    intro u hu
    obtain ⟨i, hi, rfl⟩ := List.mem_iff_getElem.mp hu
    rw [← List.getD_eq_getElem _ default hi]
    exact pick_min_le _ i hi
  have hcross : ∀ u ∈ ts, ∀ v ∈ ts, fibCross u v := by
    intro u hu v hv
    by_cases huv : u = v
    · subst huv
      exact fibCross_self u (hinv.1 u hu)
    · exact hinv.2.forall (fun a b h => fibCross_symm a b h) hu hv huv
  have hOKa := hinv.1 _ hta_mem
  have hOKb := hinv.1 _ htb_mem
  have hnodeOK : fibOK (HTree.node (ts.getD (pick_min_node ts) default)
      ((ts.eraseIdx (pick_min_node ts)).getD
        (pick_min_node (ts.eraseIdx (pick_min_node ts))) default)) := by
    refine ⟨hOKa, hOKb, ?_⟩
    intro d hd
    simp only [HTree.leafDepths, List.mem_map, List.mem_append] at hd
    obtain ⟨d', hd', rfl⟩ := hd
    show Nat.fib (d' + 1 + 2) ≤ _
    rw [show d' + 1 + 2 = (d' + 1) + 2 from rfl, Nat.fib_add_two,
      show d' + 1 + 1 = d' + 2 by omega]
    show _ ≤ (ts.getD (pick_min_node ts) default).weight +
      ((ts.eraseIdx (pick_min_node ts)).getD
        (pick_min_node (ts.eraseIdx (pick_min_node ts))) default).weight
    rcases hd' with hd' | hd'
    · have h1 := fibOK_depth_bound _ hOKa d' hd'
      have h2 := (hcross _ hta_mem _ htb_mem).1 d' hd'
      omega
    · have h1 := fibOK_depth_bound _ hOKb d' hd'
      have h2 := (hcross _ htb_mem _ hta_mem).1 d' hd'
      omega
  refine ⟨⟨?_, ?_⟩, ?_, ?_⟩
  · intro t ht
    rw [List.mem_append, List.mem_singleton] at ht
    rcases ht with ht | rfl
    · exact hinv.1 t (hsub1 _ (hsub2 _ ht))
    · exact hnodeOK
  · rw [List.pairwise_append]
    refine ⟨hinv.2.sublist ((List.eraseIdx_sublist _ _).trans
      (List.eraseIdx_sublist _ _)), List.pairwise_singleton _ _, ?_⟩
    intro u hu v hv
    rw [List.mem_singleton] at hv
    subst hv
    have humem : u ∈ ts := hsub1 _ (hsub2 _ hu)
    constructor
    · intro d hd
      have h1 := (hcross _ humem _ hta_mem).1 d hd
      show _ ≤ (ts.getD (pick_min_node ts) default).weight +
        ((ts.eraseIdx (pick_min_node ts)).getD
          (pick_min_node (ts.eraseIdx (pick_min_node ts))) default).weight
      omega
    · intro d hd
      simp only [HTree.leafDepths, List.mem_map, List.mem_append] at hd
      obtain ⟨d', hd', rfl⟩ := hd
      rcases hd' with hd' | hd'
      · have h1 := fibOK_depth_bound _ hOKa d' hd'
        have h2 := hmin_a u humem
        have hm : Nat.fib (d' + 1 + 1) ≤ Nat.fib (d' + 2) :=
          Nat.fib_mono (by omega)
        omega
      · have h1 := fibOK_depth_bound _ hOKb d' hd'
        have h2 := hmin_b u (hsub2 _ hu)
        have hm : Nat.fib (d' + 1 + 1) ≤ Nat.fib (d' + 2) :=
          Nat.fib_mono (by omega)
        omega
  · have hchain : (ts.flatMap HTree.leaves).Perm
        ((ts.getD (pick_min_node ts) default).leaves ++
        (((ts.eraseIdx (pick_min_node ts)).getD
          (pick_min_node (ts.eraseIdx (pick_min_node ts))) default).leaves
        ++ ((ts.eraseIdx (pick_min_node ts)).eraseIdx
          (pick_min_node (ts.eraseIdx (pick_min_node ts)))).flatMap
          HTree.leaves)) := by
      refine (hF1.flatMap_right HTree.leaves).trans ?_
      rw [List.flatMap_cons]
      refine List.Perm.append_left _ ?_
      refine (hF2.flatMap_right HTree.leaves).trans ?_
      rw [List.flatMap_cons]
    have hexpand : (((ts.eraseIdx (pick_min_node ts)).eraseIdx
        (pick_min_node (ts.eraseIdx (pick_min_node ts)))) ++
        [HTree.node (ts.getD (pick_min_node ts) default)
          ((ts.eraseIdx (pick_min_node ts)).getD
            (pick_min_node (ts.eraseIdx (pick_min_node ts)))
            default)]).flatMap HTree.leaves =
        ((ts.eraseIdx (pick_min_node ts)).eraseIdx
          (pick_min_node (ts.eraseIdx (pick_min_node ts)))).flatMap
          HTree.leaves ++
        ((ts.getD (pick_min_node ts) default).leaves ++
          ((ts.eraseIdx (pick_min_node ts)).getD
            (pick_min_node (ts.eraseIdx (pick_min_node ts)))
            default).leaves) := by
      rw [List.flatMap_append, List.flatMap_cons, List.flatMap_nil,
        List.append_nil]
      rfl
    rw [hexpand]
    refine (List.perm_append_comm).trans ?_
    rw [List.append_assoc]
    exact hchain.symm
  · rw [List.length_append, List.length_singleton]
    omega

theorem merge_loop_spec : ∀ (fuel : ℕ) (ts : List HTree), MergeInv ts →
    1 ≤ ts.length → ts.length ≤ fuel + 1 →
    fibOK (merge_loop fuel ts) ∧
    ((merge_loop fuel ts).leaves).Perm (ts.flatMap HTree.leaves) := by
  intro fuel
  induction fuel with
  | zero =>
    intro ts hinv h1 h2
    rcases ts with - | ⟨t, rest⟩
    · simp at h1
    · have hrest : rest = [] := by
        have h2m : rest.length + 1 ≤ 1 := by simpa using h2
        exact List.length_eq_zero.mp (by omega)
      subst hrest
      rw [merge_loop]
      exact ⟨hinv.1 t (List.mem_cons_self _ _), by simp⟩
  | succ f ih =>
    intro ts hinv h1 h2
    rw [merge_loop]
    by_cases hle : ts.length ≤ 1
    · rw [if_pos hle]
      rcases ts with - | ⟨t, rest⟩
      · simp at h1
      · have hrest : rest = [] := by
          have h2m : rest.length + 1 ≤ 1 := by simpa using hle
          exact List.length_eq_zero.mp (by omega)
        subst hrest
        exact ⟨hinv.1 t (List.mem_cons_self _ _), by simp⟩
    · rw [if_neg hle]
      obtain ⟨hinv', hperm', hlen'⟩ := merge_step ts (by omega) hinv
      obtain ⟨hOK, hleaves⟩ := ih _ hinv' (by omega) (by omega)
      exact ⟨hOK, hleaves.trans hperm'⟩

theorem dfs_lens_stack : ∀ (st : List (HTree × ℕ)),
    dfs_lens st = st.flatMap (fun p => dfs_pairs_one p.1 p.2) := by
  intro st
  induction st using dfs_lens.induct with
  | case1 =>
    rw [dfs_lens]
    rfl
  | case2 s f d rest ih =>
    rw [dfs_lens, ih, List.flatMap_cons]
    dsimp only
    conv_rhs => rw [dfs_pairs_one]
    rfl
  | case3 l r d rest ih =>
    rw [dfs_lens, ih, List.flatMap_cons, List.flatMap_cons,
      List.flatMap_cons]
    dsimp only
    conv_rhs => rw [dfs_pairs_one]
    rw [List.append_assoc]

theorem dfs_pairs_syms : ∀ (t : HTree) (d : ℕ),
    ((dfs_pairs_one t d).map Prod.fst).Perm (t.leaves.map Prod.fst) := by
  intro t
  induction t with
  | leaf s f => intro d; rw [dfs_pairs_one]; rfl
  | node l r ihl ihr =>
    intro d
    rw [dfs_pairs_one]
    show ((dfs_pairs_one r (d+1) ++ dfs_pairs_one l (d+1)).map
      Prod.fst).Perm ((l.leaves ++ r.leaves).map Prod.fst)
    rw [List.map_append, List.map_append]
    exact (List.perm_append_comm).trans
      (((ihl (d+1)).append ((ihr (d+1)))).symm.symm)

theorem dfs_pairs_depths : ∀ (t : HTree) (d : ℕ), 1 ≤ d →
    ((dfs_pairs_one t d).map Prod.snd).Perm
      (t.leafDepths.map (fun x => x + d)) := by
  intro t
  induction t with
  | leaf s f =>
    intro d hd
    rw [dfs_pairs_one]
    show [if d = 0 then 1 else d].Perm _
    rw [if_neg (by omega)]
    show [d].Perm ([0].map (fun x => x + d))
    simp
  | node l r ihl ihr =>
    intro d hd
    rw [dfs_pairs_one]
    show ((dfs_pairs_one r (d+1) ++ dfs_pairs_one l (d+1)).map
      Prod.snd).Perm (((l.leafDepths ++ r.leafDepths).map
        (fun x => x + 1)).map (fun x => x + d))
    rw [List.map_append, List.map_map, List.map_append]
    have hfun : ((fun x => x + d) ∘ fun x => x + 1) =
        (fun x => x + (d + 1)) := by
      funext x
      simp
      omega
    rw [hfun]
    exact (List.perm_append_comm).trans
      ((ihl (d+1) (by omega)).append (ihr (d+1) (by omega))).symm.symm

theorem upd_foldl_notmem (l : List (ℕ × ℕ)) :
    ∀ (f : ℕ → ℕ) (x : ℕ), x ∉ l.map Prod.fst →
    (l.foldl (fun f p => Function.update f p.1 p.2) f) x = f x := by
  induction l with
  | nil => intro f x hx; rfl
  | cons p rest ih =>
    intro f x hx
    rw [List.map_cons, List.mem_cons] at hx
    push_neg at hx
    rw [List.foldl_cons, ih _ _ hx.2]
    exact Function.update_noteq hx.1 _ _

theorem upd_foldl_mem (l : List (ℕ × ℕ)) :
    ∀ (f : ℕ → ℕ), (l.map Prod.fst).Nodup →
    ∀ p ∈ l, (l.foldl (fun f p => Function.update f p.1 p.2) f) p.1 = p.2 := by
  induction l with
  | nil => intro f hnd p hp; exact absurd hp (List.not_mem_nil p)
  | cons q rest ih =>
    intro f hnd p hp
    rw [List.map_cons, List.nodup_cons] at hnd
    rw [List.foldl_cons]
    rcases List.mem_cons.mp hp with rfl | hp
    · rw [upd_foldl_notmem rest _ _ hnd.1]
      exact Function.update_same _ _ _
    · exact ih _ hnd.2 p hp

theorem tree_kraft : ∀ (t : HTree) (L : ℕ),
    (∀ d ∈ t.leafDepths, d ≤ L) → kraft_scaled L t.leafDepths = 2^L := by
  intro t
  induction t with
  | leaf s f =>
    intro L h
    simp [HTree.leafDepths, kraft_scaled]
  | node l r ihl ihr =>
    intro L h
    have hL : 1 ≤ L := by
      obtain ⟨d0, hd0⟩ := List.exists_mem_of_ne_nil _ (leafDepths_ne_nil l)
      have : (d0 + 1) ∈ (HTree.node l r).leafDepths := by
        simp only [HTree.leafDepths, List.mem_map, List.mem_append]
        exact ⟨d0, Or.inl hd0, rfl⟩
      have := h _ this
      omega
    show kraft_scaled L ((l.leafDepths ++ r.leafDepths).map
      (fun x => x + 1)) = 2^L
    unfold kraft_scaled
    rw [List.map_map]
    have hfun : ((fun d => 2^(L - d)) ∘ fun x => x + 1) =
        (fun d => 2^((L - 1) - d)) := by
      funext x
      have : L - (x + 1) = L - 1 - x := by omega
      simp [Function.comp]
      rw [this]
    rw [hfun, List.map_append, List.sum_append]
    have hdl : ∀ d ∈ l.leafDepths, d ≤ L - 1 := by
      intro d hd
      have : (d + 1) ∈ (HTree.node l r).leafDepths := by
        simp only [HTree.leafDepths, List.mem_map, List.mem_append]
        exact ⟨d, Or.inl hd, rfl⟩
      have := h _ this
      omega
    have hdr : ∀ d ∈ r.leafDepths, d ≤ L - 1 := by
      intro d hd
      have : (d + 1) ∈ (HTree.node l r).leafDepths := by
        simp only [HTree.leafDepths, List.mem_map, List.mem_append]
        exact ⟨d, Or.inr hd, rfl⟩
      have := h _ this
      omega
    have h1 := ihl (L - 1) hdl
    have h2 := ihr (L - 1) hdr
    unfold kraft_scaled at h1 h2
    have hp : (2:ℕ)^L = 2 * 2^(L - 1) := by
      conv_lhs => rw [show L = (L - 1) + 1 by omega]
      rw [pow_succ']
    rw [h1, h2, ← two_mul, hp]

theorem depth_le_28 (t : HTree) (hOK : fibOK t) (hw : t.weight ≤ 2^20) :
    ∀ d ∈ t.leafDepths, d ≤ 28 := by
  intro d hd
  by_contra hcon
  push_neg at hcon
  have h1 := fibOK_depth_bound t hOK d hd
  have h2 : Nat.fib 31 ≤ Nat.fib (d + 2) := Nat.fib_mono (by omega)
  have h3 : Nat.fib 31 = 1346269 := by decide
  have h4 : (2:ℕ)^20 = 1048576 := by norm_num
  omega

theorem pairwise_of_mem {R : HTree → HTree → Prop} :
    ∀ (l : List HTree), (∀ a ∈ l, ∀ b ∈ l, R a b) → l.Pairwise R := by
  intro l
  induction l with
  | nil => intro h; exact List.Pairwise.nil
  | cons a rest ih =>
    intro h
    rw [List.pairwise_cons]
    exact ⟨fun b hb => h a (List.mem_cons_self _ _) b
      (List.mem_cons_of_mem _ hb),
      ih (fun x hx y hy => h x (List.mem_cons_of_mem _ hx) y
        (List.mem_cons_of_mem _ hy))⟩

theorem sum_map_filter_le (l : List ℕ) (p : ℕ → Bool) (f : ℕ → ℕ) :
    ((l.filter p).map f).sum ≤ (l.map f).sum := by
  induction l with
  | nil => simp
  | cons a rest ih =>
    rw [List.filter_cons]
    by_cases hp : p a
    · rw [if_pos hp]
      simp only [List.map_cons, List.sum_cons]
      omega
    · rw [if_neg hp]
      simp only [List.map_cons, List.sum_cons]
      omega

theorem dfs_pairs_depths_root (l r : HTree) :
    ((dfs_pairs_one (HTree.node l r) 0).map Prod.snd).Perm
      ((HTree.node l r).leafDepths) := by
  rw [dfs_pairs_one]
  show ((dfs_pairs_one r 1 ++ dfs_pairs_one l 1).map Prod.snd).Perm _
  rw [List.map_append]
  refine (List.perm_append_comm).trans ?_
  refine ((dfs_pairs_depths l 1 le_rfl).append
    (dfs_pairs_depths r 1 le_rfl)).trans ?_
  show (l.leafDepths.map (fun x => x + 1) ++
    r.leafDepths.map (fun x => x + 1)).Perm
    ((l.leafDepths ++ r.leafDepths).map (fun x => x + 1))
  rw [List.map_append]

theorem flatMap_leaf_map (l : List ℕ) (freq : ℕ → ℕ) :
    ((l.map (fun s => HTree.leaf s (freq s))).flatMap HTree.leaves) =
      l.map (fun s => (s, freq s)) := by
  induction l with
  | nil => rfl
  | cons a rest ih =>
    rw [List.map_cons, List.flatMap_cons, List.map_cons, ih]
    rfl

theorem build_code_lengths_spec (freq : ℕ → ℕ)
    (hne : ((List.range 256).filter (fun s => freq s ≠ 0)).length ≠ 0)
    (htot : ((List.range 256).map freq).sum ≤ 2^20) :
    ∃ lens, build_code_lengths freq = .ok lens ∧
      (∀ s, lens s ≠ 0 ↔
        s ∈ (List.range 256).filter (fun s => freq s ≠ 0)) ∧
      (∀ s, lens s ≤ 32) ∧
      ((List.range 256).filter (fun s => lens s ≠ 0) =
        (List.range 256).filter (fun s => freq s ≠ 0)) ∧
      kraft_scaled 32 (((List.range 256).filter
        (fun s => lens s ≠ 0)).map lens) ≤ 2^32 ∧
      (2 ≤ ((List.range 256).filter (fun s => lens s ≠ 0)).length →
        kraft_scaled 32 (((List.range 256).filter
          (fun s => lens s ≠ 0)).map lens) = 2^32) := by
  have hfreq1 : ∀ s ∈ (List.range 256).filter (fun s => freq s ≠ 0),
      1 ≤ freq s := by
    intro s hs
    rw [List.mem_filter] at hs
    have := hs.2
    simp at this
    omega
  by_cases hone : ((List.range 256).filter (fun s => freq s ≠ 0)).length = 1
  · -- single used symbol
    obtain ⟨s0, hF1⟩ := List.length_eq_one.mp hone
    have hs0 : s0 ∈ (List.range 256).filter (fun s => freq s ≠ 0) := by
      rw [hF1]
      exact List.mem_singleton_self s0
    have hsupp : ∀ s, Function.update (fun _ => 0) s0 1 s ≠ 0 ↔
        s ∈ (List.range 256).filter (fun s => freq s ≠ 0) := by
      intro s
      by_cases hss : s = s0
      · subst hss
        rw [Function.update_same, hF1]
        simp
      · rw [Function.update_noteq hss, hF1]
        simp [hss]
    have hFL : (List.range 256).filter
        (fun s => Function.update (fun _ => 0) s0 1 s ≠ 0) =
        (List.range 256).filter (fun s => freq s ≠ 0) := by
      apply List.filter_congr
      intro s hs
      simp only [decide_eq_decide]
      rw [hsupp s, List.mem_filter]
      constructor
      · intro h
        simpa using h.2
      · intro h
        exact ⟨hs, by simpa using h⟩
    refine ⟨Function.update (fun _ => 0) s0 1, ?_, hsupp, ?_, hFL, ?_, ?_⟩
    · unfold build_code_lengths
      simp only []
      rw [hF1]
      rw [if_neg (by simp), if_pos (by simp)]
      rfl
    · intro s
      by_cases hss : s = s0
      · subst hss
        rw [Function.update_same]
        omega
      · rw [Function.update_noteq hss]
        omega
    · rw [hFL, hF1]
      simp only [List.map_cons, List.map_nil, Function.update_same]
      unfold kraft_scaled
      norm_num
    · intro h
      rw [hFL, hF1] at h
      simp at h
  · -- at least two used symbols
    have hn2 : 2 ≤ ((List.range 256).filter (fun s => freq s ≠ 0)).length := by
      omega
    set F := (List.range 256).filter (fun s => freq s ≠ 0) with hF
    set LV := F.map (fun s => HTree.leaf s (freq s)) with hLV
    have hLVlen : LV.length = F.length := List.length_map _ _
    have hinv0 : MergeInv LV := by
      constructor
      · intro t ht
        rw [hLV, List.mem_map] at ht
        obtain ⟨s, hsF, rfl⟩ := ht
        show 1 ≤ freq s
        exact hfreq1 s hsF
      · apply pairwise_of_mem
        intro a ha b hb
        rw [hLV, List.mem_map] at ha hb
        obtain ⟨sa, hsa, rfl⟩ := ha
        obtain ⟨sb, hsb, rfl⟩ := hb
        have hfa := hfreq1 sa hsa
        have hfb := hfreq1 sb hsb
        have hfib1 : Nat.fib 1 = 1 := rfl
        constructor
        · intro d hd
          simp [HTree.leafDepths] at hd
          subst hd
          show Nat.fib 1 ≤ freq sb
          omega
        · intro d hd
          simp [HTree.leafDepths] at hd
          subst hd
          show Nat.fib 1 ≤ freq sa
          omega
    obtain ⟨hOK, hlp⟩ := merge_loop_spec LV.length LV hinv0
      (by rw [hLVlen]; omega) (by omega)
    have hflat : LV.flatMap HTree.leaves = F.map (fun s => (s, freq s)) :=
      flatMap_leaf_map F freq
    have hrl : ((merge_loop LV.length LV).leaves).Perm
        (F.map (fun s => (s, freq s))) := by
      rw [← hflat]
      exact hlp
    have hweight : (merge_loop LV.length LV).weight ≤ 2^20 := by
      rw [weight_leaves, (hrl.map Prod.snd).sum_eq, List.map_map]
      have hcomp : (F.map (Prod.snd ∘ fun s => (s, freq s))).sum =
          (F.map freq).sum := rfl
      rw [hcomp, hF]
      exact le_trans (sum_map_filter_le _ _ _) htot
    have hd28 := depth_le_28 _ hOK hweight
    obtain ⟨lt, rt, hrootnode⟩ :
        ∃ l r, merge_loop LV.length LV = HTree.node l r := by
      rcases hroot2 : merge_loop LV.length LV with ⟨s, f⟩ | ⟨l, r⟩
      · exfalso
        have hll := hrl.length_eq
        rw [hroot2] at hll
        simp only [HTree.leaves, List.length_cons, List.length_nil,
          List.length_map] at hll
        omega
      · exact ⟨l, r, rfl⟩
    have hpairs : dfs_lens [(merge_loop LV.length LV, 0)] =
        dfs_pairs_one (merge_loop LV.length LV) 0 := by
      rw [dfs_lens_stack, List.flatMap_cons, List.flatMap_nil,
        List.append_nil]
    have hsyms : ((dfs_pairs_one (merge_loop LV.length LV) 0).map
        Prod.fst).Perm F := by
      refine (dfs_pairs_syms _ 0).trans ?_
      refine (hrl.map Prod.fst).trans ?_
      rw [List.map_map]
      have hid : (Prod.fst ∘ fun s => (s, freq s)) = id := rfl
      rw [hid, List.map_id]
    have hdeps : ((dfs_pairs_one (merge_loop LV.length LV) 0).map
        Prod.snd).Perm (merge_loop LV.length LV).leafDepths := by
      rw [hrootnode]
      exact dfs_pairs_depths_root lt rt
    have hdepmem : ∀ p ∈ dfs_pairs_one (merge_loop LV.length LV) 0,
        1 ≤ p.2 ∧ p.2 ≤ 28 := by
      intro p hp
      have hmem : p.2 ∈ (dfs_pairs_one (merge_loop LV.length LV) 0).map
          Prod.snd := List.mem_map_of_mem _ hp
      have hmem2 := hdeps.subset hmem
      refine ⟨?_, hd28 _ hmem2⟩
      rw [hrootnode] at hmem2
      simp only [HTree.leafDepths, List.mem_map] at hmem2
      obtain ⟨d', -, hd'⟩ := hmem2
      omega
    have hany : (dfs_lens [(merge_loop LV.length LV, 0)]).any
        (fun p => 32 < p.2) = false := by
      rw [hpairs, List.any_eq_false]
      intro p hp
      have := hdepmem p hp
      simp only [decide_eq_true_eq]
      omega
    have hFnodup : F.Nodup := by
      rw [hF]
      exact (List.nodup_range 256).filter _
    have hpnodup : ((dfs_pairs_one (merge_loop LV.length LV) 0).map
        Prod.fst).Nodup := (hsyms.nodup_iff).mpr hFnodup
    have hlensmem : ∀ p ∈ dfs_pairs_one (merge_loop LV.length LV) 0,
        ((dfs_lens [(merge_loop LV.length LV, 0)]).foldl
          (fun f p => Function.update f p.1 p.2) (fun _ => 0)) p.1 = p.2 := by
      intro p hp
      rw [hpairs]
      exact upd_foldl_mem _ _ hpnodup p hp
    have hlensnot : ∀ x, x ∉ (dfs_pairs_one (merge_loop LV.length LV) 0).map
        Prod.fst →
        ((dfs_lens [(merge_loop LV.length LV, 0)]).foldl
          (fun f p => Function.update f p.1 p.2) (fun _ => 0)) x = 0 := by
      intro x hx
      rw [hpairs]
      exact upd_foldl_notmem _ _ x hx
    have hsupport : ∀ s,
        ((dfs_lens [(merge_loop LV.length LV, 0)]).foldl
          (fun f p => Function.update f p.1 p.2) (fun _ => 0)) s ≠ 0 ↔
        s ∈ F := by
      intro s
      constructor
      · intro h
        by_contra hns
        exact h (hlensnot s (fun hmem => hns (hsyms.subset hmem)))
      · intro hs
        have hmem : s ∈ (dfs_pairs_one (merge_loop LV.length LV) 0).map
            Prod.fst := hsyms.symm.subset hs
        rw [List.mem_map] at hmem
        obtain ⟨p, hp, rfl⟩ := hmem
        rw [hlensmem p hp]
        have := hdepmem p hp
        omega
    have h32 : ∀ s,
        ((dfs_lens [(merge_loop LV.length LV, 0)]).foldl
          (fun f p => Function.update f p.1 p.2) (fun _ => 0)) s ≤ 32 := by
      intro s
      by_cases hmem : s ∈ (dfs_pairs_one (merge_loop LV.length LV) 0).map
          Prod.fst
      · rw [List.mem_map] at hmem
        obtain ⟨p, hp, rfl⟩ := hmem
        rw [hlensmem p hp]
        have := hdepmem p hp
        omega
      · rw [hlensnot s hmem]
        omega
    have hFL : (List.range 256).filter (fun s =>
        ((dfs_lens [(merge_loop LV.length LV, 0)]).foldl
          (fun f p => Function.update f p.1 p.2) (fun _ => 0)) s ≠ 0) =
        F := by
      rw [hF]
      apply List.filter_congr
      intro s hs
      simp only [decide_eq_decide]
      rw [hsupport s, hF, List.mem_filter]
      constructor
      · intro h
        simpa using h.2
      · intro h
        exact ⟨hs, by simpa using h⟩
    have hmaplens : (F.map
        ((dfs_lens [(merge_loop LV.length LV, 0)]).foldl
          (fun f p => Function.update f p.1 p.2) (fun _ => 0))).Perm
        ((dfs_pairs_one (merge_loop LV.length LV) 0).map Prod.snd) := by
      refine ((hsyms.symm).map _).trans ?_
      rw [List.map_map]
      have hcg : (dfs_pairs_one (merge_loop LV.length LV) 0).map
          (((dfs_lens [(merge_loop LV.length LV, 0)]).foldl
            (fun f p => Function.update f p.1 p.2) (fun _ => 0)) ∘
            Prod.fst) =
          (dfs_pairs_one (merge_loop LV.length LV) 0).map Prod.snd := by
        apply List.map_congr_left
        intro p hp
        exact hlensmem p hp
      rw [hcg]
    have hkrafteq : kraft_scaled 32 (F.map
        ((dfs_lens [(merge_loop LV.length LV, 0)]).foldl
          (fun f p => Function.update f p.1 p.2) (fun _ => 0))) = 2^32 := by
      unfold kraft_scaled
      rw [(hmaplens.map _).sum_eq, ((hdeps).map _).sum_eq]
      have hk := tree_kraft (merge_loop LV.length LV) 32
        (fun d hd => by have := hd28 d hd; omega)
      unfold kraft_scaled at hk
      exact hk
    have hbuild : build_code_lengths freq = .ok
        ((dfs_lens [(merge_loop LV.length LV, 0)]).foldl
          (fun f p => Function.update f p.1 p.2) (fun _ => 0)) := by
      unfold build_code_lengths
      simp only []
      rw [← hF, ← hLV]
      rw [if_neg (by rw [hLVlen]; exact hne),
        if_neg (by rw [hLVlen]; exact hone)]
      rw [if_neg (by rw [hany]; simp)]
      rfl
    refine ⟨_, hbuild, hsupport, h32, hFL, ?_, ?_⟩
    · rw [hFL]
      exact le_of_eq hkrafteq
    · intro h
      rw [hFL]
      exact hkrafteq

/-! ### Top-level assembly -/

theorem wr_u32_le_length (v : ℕ) : (wr_u32_le v).length = 4 := rfl

theorem rd_wr_u32_le (v : ℕ) (h : v < 2^32) :
    rd_u32_le (wr_u32_le v) = v := by
  unfold rd_u32_le wr_u32_le
  simp only [List.getD_cons_zero, List.getD_cons_succ]
  have h8 : (2:ℕ)^8 = 256 := by norm_num
  have h16 : (2:ℕ)^16 = 65536 := by norm_num
  have h24 : (2:ℕ)^24 = 16777216 := by norm_num
  have h32 : (2:ℕ)^32 = 4294967296 := by norm_num
  rw [h8, h16, h24]
  omega

theorem sum_range_count (l : List ℕ) (hb : ∀ b ∈ l, b < 256) :
    ((List.range 256).map l.count).sum = l.length := by
  have h1 : ((List.range 256).map l.count).sum =
      ∑ s ∈ Finset.range 256, l.count s := rfl
  rw [h1]
  have h2 : ∑ s ∈ Finset.range 256, l.count s =
      ∑ s ∈ (l : Multiset ℕ).toFinset, l.count s := by
    refine (Finset.sum_subset ?_ ?_).symm
    · intro x hx
      rw [Multiset.mem_toFinset, Multiset.mem_coe] at hx
      rw [Finset.mem_range]
      exact hb x hx
    · intro x hx hnx
      rw [Multiset.mem_toFinset, Multiset.mem_coe] at hnx
      exact List.count_eq_zero.mpr hnx
  rw [h2]
  have h3 := Multiset.toFinset_sum_count_eq (l : Multiset ℕ)
  simpa using h3

theorem build_canonical_codes_congr (l1 l2 : ℕ → ℕ)
    (h : ∀ s, s < 256 → l1 s = l2 s) :
    build_canonical_codes l1 = build_canonical_codes l2 := by
  unfold build_canonical_codes
  have hf : (List.range 256).filter (fun s => l1 s ≠ 0) =
      (List.range 256).filter (fun s => l2 s ≠ 0) := by
    apply List.filter_congr
    intro s hs
    rw [h s (List.mem_range.mp hs)]
  have hlist : ((List.range 256).filter (fun s => l1 s ≠ 0)).map
      (fun s => (s, l1 s)) =
      ((List.range 256).filter (fun s => l2 s ≠ 0)).map
      (fun s => (s, l2 s)) := by
    rw [hf]
    apply List.map_congr_left
    intro s hs
    rw [List.mem_filter] at hs
    rw [h s (List.mem_range.mp hs.1)]
  simp only []
  rw [hlist]

theorem build_decode_tree_congr (l1 l2 c : ℕ → ℕ)
    (h : ∀ s, s < 256 → l1 s = l2 s) :
    build_decode_tree l1 c = build_decode_tree l2 c := by
  unfold build_decode_tree
  have hgen : ∀ (sl : List ℕ), (∀ s ∈ sl, s < 256) →
      ∀ (tree : List dec_node_t),
      sl.foldlM (fun tree s => if l1 s = 0 then pure tree
        else insert_code tree 0 (natBits (c s) (l1 s)) s) tree =
      sl.foldlM (fun tree s => if l2 s = 0 then pure tree
        else insert_code tree 0 (natBits (c s) (l2 s)) s) tree := by
    intro sl
    induction sl with
    | nil => intro hsl tree; rfl
    | cons a rest ih =>
      intro hsl tree
      rw [List.foldlM_cons, List.foldlM_cons]
      rw [h a (hsl a (List.mem_cons_self _ _))]
      by_cases h0 : l2 a = 0
      · rw [if_pos h0]
        show (rest.foldlM _ tree : Except EspErr (List dec_node_t)) = _
        exact ih (fun s hs => hsl s (List.mem_cons_of_mem _ hs)) tree
      · rw [if_neg h0]
        rcases hins : insert_code tree 0 (natBits (c a) (l2 a)) a
          with e | tree1
        · rfl
        · show (rest.foldlM _ tree1 : Except EspErr (List dec_node_t)) = _
          exact ih (fun s hs => hsl s (List.mem_cons_of_mem _ hs)) tree1
  exact hgen (List.range 256) (fun s hs => List.mem_range.mp hs) _

theorem symAt_unique (cl : List (List Bool × ℕ)) (c : List Bool) (s : ℕ)
    (hmem : (c, s) ∈ cl) (huniq : ∀ e ∈ cl, e.1 = c → e.2 = s) :
    symAt cl c = some s := by
  induction cl with
  | nil => exact absurd hmem (List.not_mem_nil _)
  | cons e rest ih =>
    unfold symAt
    rw [List.find?_cons]
    by_cases hec : e.1 = c
    · have hb : (e.1 == c) = true := by simpa using hec
      rw [hb]
      show some e.2 = some s
      rw [huniq e (List.mem_cons_self _ _) hec]
    · have hb : (e.1 == c) = false := by simpa using hec
      rw [hb]
      have hmem2 : (c, s) ∈ rest := by
        rcases List.mem_cons.mp hmem with heq | hmem2
        · exfalso
          apply hec
          rw [← heq]
        · exact hmem2
      exact ih hmem2 (fun e2 he2 => huniq e2 (List.mem_cons_of_mem _ he2))

theorem eok_bind {α β : Type} (a : α) (f : α → Except EspErr β) :
    (Except.ok a >>= f) = f a := rfl

theorem huffman_compress_spec (input : List ℕ)
    (hbytes : ∀ b ∈ input, b < 256) (hne : input ≠ [])
    (hlen : input.length ≤ 2^20) :
    ∃ lens codes body,
      build_code_lengths (fun s => input.count s) = .ok lens ∧
      build_canonical_codes lens = .ok codes ∧
      huffman_compress input (huffman_bound input.length) = .ok
        ((wr_u32_le HUF_MAGIC ++ wr_u32_le input.length ++
          (List.range 256).map lens) ++ body) ∧
      (∀ b ∈ body, b < 256) ∧
      ∃ k, k < 8 ∧ bytesBits body =
        input.flatMap (fun s => natBits (codes s) (lens s)) ++
        List.replicate k false := by
  have hfilterne : ((List.range 256).filter
      (fun s => input.count s ≠ 0)).length ≠ 0 := by
    obtain ⟨b, hb⟩ := List.exists_mem_of_ne_nil input hne
    have hbmem : b ∈ (List.range 256).filter
        (fun s => input.count s ≠ 0) := by
      rw [List.mem_filter, List.mem_range]
      refine ⟨hbytes b hb, ?_⟩
      have := List.count_pos_iff.mpr hb
      simp only [decide_eq_true_eq]
      omega
    intro hzero
    rw [List.length_eq_zero] at hzero
    rw [hzero] at hbmem
    exact List.not_mem_nil b hbmem
  have htot : ((List.range 256).map (input.count)).sum ≤ 2^20 := by
    rw [sum_range_count input hbytes]
    exact hlen
  obtain ⟨lens, hlenseq, hsupp, h32, hFL, hkle, hkeq2⟩ :=
    build_code_lengths_spec (fun s => input.count s) hfilterne htot
  obtain ⟨codes, hcodeseq, hcbound, hcpf⟩ :=
    build_canonical_codes_spec lens (fun s _ => h32 s)
      (by rw [hFL]; exact hfilterne) hkle
  have hlens_input : ∀ s ∈ input, 1 ≤ lens s ∧ lens s ≤ 32 := by
    intro s hs
    refine ⟨?_, h32 s⟩
    have hmem : s ∈ (List.range 256).filter
        (fun t => input.count t ≠ 0) := by
      rw [List.mem_filter, List.mem_range]
      refine ⟨hbytes s hs, ?_⟩
      have := List.count_pos_iff.mpr hs
      simp only [decide_eq_true_eq]
      omega
    have := (hsupp s).mpr hmem
    omega
  have hsum32 : (input.map lens).sum ≤ 32 * input.length := by
    have := List.sum_le_card_nsmul (input.map lens) 32
      (by
        intro x hx
        rw [List.mem_map] at hx
        obtain ⟨s, hs, rfl⟩ := hx
        exact (hlens_input s hs).2)
    rw [List.length_map, smul_eq_mul] at this
    omega
  have hdiv : (32 * input.length + 7) / 8 = 4 * input.length := by omega
  have hbound : huffman_bound input.length = 264 + 4 * input.length := by
    unfold huffman_bound
    omega
  obtain ⟨w1, hw1run, hw1cap, hw1pos, hw1bc, hw1buf, hw1bits, hw1bytes⟩ :=
    bitw_encode_spec lens codes input
      (bitw_init (huffman_bound input.length) HUF_HEADER_SIZE)
      hlens_input (by norm_num [bitw_init]) (by norm_num [bitw_init])
      (by
        show 8 * HUF_HEADER_SIZE + 0 + (input.map lens).sum ≤
          8 * huffman_bound input.length
        rw [hbound]
        unfold HUF_HEADER_SIZE
        omega)
  obtain ⟨w2, hw2run, hw2bits, hw2bytes⟩ :=
    bitw_flush_spec w1 hw1bc hw1buf
      (by
        rw [hw1cap, hw1pos]
        have hp : (bitw_init (huffman_bound input.length)
          HUF_HEADER_SIZE).pos = 264 := rfl
        have hb0 : (bitw_init (huffman_bound input.length)
          HUF_HEADER_SIZE).bitcount = 0 := rfl
        have hc : (bitw_init (huffman_bound input.length)
          HUF_HEADER_SIZE).cap = huffman_bound input.length := rfl
        rw [hp, hb0, hc, hbound]
        omega)
  have hw0bits : wBits (bitw_init (huffman_bound input.length)
      HUF_HEADER_SIZE) = [] := rfl
  refine ⟨lens, codes, w2.out, hlenseq, hcodeseq, ?_, ?_, ?_⟩
  · unfold huffman_compress
    simp only []
    rw [if_neg (by norm_num at hlen ⊢; omega)]
    rw [hlenseq, eok_bind, hcodeseq, eok_bind]
    rw [if_neg (by rw [hbound]; unfold HUF_HEADER_SIZE; omega)]
    rw [hw1run, eok_bind, hw2run, eok_bind]
    rfl
  · intro b hb
    rcases hw2bytes b hb with hb1 | hlt
    · rcases hw1bytes b hb1 with hb0 | hlt
      · exact absurd hb0 (List.not_mem_nil b)
      · exact hlt
    · exact hlt
  · refine ⟨(8 - w1.bitcount) % 8, Nat.mod_lt _ (by norm_num), ?_⟩
    rw [hw2bits, hw1bits, hw0bits, List.nil_append]

theorem huffman_roundtrip (input : List ℕ)
    (hbytes : ∀ b ∈ input, b < 256) (hne : input ≠ [])
    (hlen : input.length ≤ 2^20) :
    ∃ out, huffman_compress input (huffman_bound input.length) = .ok out ∧
      huffman_decompress out input.length = .ok input := by
  obtain ⟨lens, codes, body, hlensrun, hcodesrun, hcomp, hbodyb, k, hk8,
    hbody⟩ := huffman_compress_spec input hbytes hne hlen
  have hfilterne : ((List.range 256).filter
      (fun s => input.count s ≠ 0)).length ≠ 0 := by
    obtain ⟨b, hb⟩ := List.exists_mem_of_ne_nil input hne
    have hbmem : b ∈ (List.range 256).filter
        (fun s => input.count s ≠ 0) := by
      rw [List.mem_filter, List.mem_range]
      refine ⟨hbytes b hb, ?_⟩
      have := List.count_pos_iff.mpr hb
      simp only [decide_eq_true_eq]
      omega
    intro hzero
    rw [List.length_eq_zero] at hzero
    rw [hzero] at hbmem
    exact List.not_mem_nil b hbmem
  have htot : ((List.range 256).map (fun s => input.count s)).sum ≤
      2^20 := by
    rw [sum_range_count input hbytes]
    exact hlen
  obtain ⟨lens2, hlensrun2, hsupp, h32, hFL, hkle, hkeq⟩ :=
    build_code_lengths_spec (fun s => input.count s) hfilterne htot
  rw [hlensrun] at hlensrun2
  have hl2 : lens = lens2 := Except.ok.inj hlensrun2
  subst hl2
  have hFne : ((List.range 256).filter
      (fun s => lens s ≠ 0)).length ≠ 0 := by
    rw [hFL]
    exact hfilterne
  obtain ⟨codes2, hcodesrun2, hcbound, hcpf⟩ :=
    build_canonical_codes_spec lens (fun s _ => h32 s) hFne hkle
  rw [hcodesrun] at hcodesrun2
  have hc2 : codes = codes2 := Except.ok.inj hcodesrun2
  subst hc2
  have hcs : (clP lens codes (List.range 256)).map (fun e => e.1) =
      ((List.range 256).filter (fun s => lens s ≠ 0)).map
        (fun s => natBits (codes s) (lens s)) := by
    unfold clP
    rw [List.map_map]
    rfl
  have hcard : (pfxF ((clP lens codes (List.range 256)).map
      (fun e => e.1))).card ≤ 510 := by
    rw [hcs]
    by_cases h2n : 2 ≤ ((List.range 256).filter
        (fun s => lens s ≠ 0)).length
    · have hnd : ((List.range 256).filter
          (fun s => lens s ≠ 0)).Nodup :=
        (List.nodup_range 256).filter _
      have hpw : ((List.range 256).filter
          (fun s => lens s ≠ 0)).Pairwise
          (fun a b =>
            ¬ natBits (codes a) (lens a) <+: natBits (codes b) (lens b) ∧
            ¬ natBits (codes b) (lens b) <+:
              natBits (codes a) (lens a)) := by
        refine List.Pairwise.imp_of_mem ?_ hnd
        intro a b ha hb hab
        rw [List.mem_filter, List.mem_range] at ha hb
        have haz : lens a ≠ 0 := by simpa using ha.2
        have hbz : lens b ≠ 0 := by simpa using hb.2
        exact ⟨hcpf a b ha.1 hb.1 haz hbz hab,
          hcpf b a hb.1 ha.1 hbz haz (Ne.symm hab)⟩
      have hpw2 : (((List.range 256).filter
          (fun s => lens s ≠ 0)).map
          (fun s => natBits (codes s) (lens s))).Pairwise
          (fun a c => ¬ a <+: c ∧ ¬ c <+: a) := by
        rw [List.pairwise_map]
        exact hpw
      have hlen32 : ∀ c ∈ ((List.range 256).filter
          (fun s => lens s ≠ 0)).map
          (fun s => natBits (codes s) (lens s)), c.length ≤ 32 := by
        intro c hc
        rw [List.mem_map] at hc
        obtain ⟨s, hs, rfl⟩ := hc
        rw [natBits_length]
        exact h32 s
      have hmapl : ((((List.range 256).filter
          (fun s => lens s ≠ 0)).map
          (fun s => natBits (codes s) (lens s))).map List.length) =
          ((List.range 256).filter (fun s => lens s ≠ 0)).map lens := by
        rw [List.map_map]
        apply List.map_congr_left
        intro s hs
        show (natBits (codes s) (lens s)).length = lens s
        exact natBits_length _ _
      have hkr : kraft_scaled 32 ((((List.range 256).filter
          (fun s => lens s ≠ 0)).map
          (fun s => natBits (codes s) (lens s))).map List.length) =
          2^32 := by
        rw [hmapl]
        exact hkeq h2n
      have hple := pfx_card_le 32 _ hpw2 hlen32 hkr
      rw [List.length_map] at hple
      have hle256 : ((List.range 256).filter
          (fun s => lens s ≠ 0)).length ≤ 256 := by
        have h := List.length_filter_le
          (fun s => decide (lens s ≠ 0)) (List.range 256)
        simpa using h
      omega
    · have hn : ((List.range 256).filter
          (fun s => lens s ≠ 0)).length = 1 := by
        omega
      obtain ⟨s0, hs0⟩ := List.length_eq_one.mp hn
      rw [hs0]
      have hmap1 : ([s0].map (fun s => natBits (codes s) (lens s))) =
          [natBits (codes s0) (lens s0)] := rfl
      rw [hmap1]
      have h1 := pfxF_single_card (natBits (codes s0) (lens s0))
      rw [natBits_length] at h1
      have h2 := h32 s0
      omega
  obtain ⟨tree, htreerun, hmodels⟩ :=
    build_decode_tree_spec lens codes hcpf h32 hcard
  have hroot : (tree.getD 0 default).sym = none := by
    have h0 : follow tree 0 [] = some 0 := rfl
    rw [hmodels.2.2.2.1 [] 0 h0]
    apply symAt_none
    intro e he
    obtain ⟨hmem, hlz, hcq⟩ := clP_mem lens codes _ e he
    rw [hcq]
    intro hnil
    have hl := natBits_length (codes e.2) (lens e.2)
    rw [hnil] at hl
    have h0' : lens e.2 = 0 := by simpa using hl.symm
    exact hlz h0'
  have hlensne : ∀ s ∈ input, lens s ≠ 0 := by
    intro s hs
    rw [hsupp s, List.mem_filter, List.mem_range]
    refine ⟨hbytes s hs, ?_⟩
    have hpos := List.count_pos_iff.mpr hs
    show decide (input.count s ≠ 0) = true
    simp only [decide_eq_true_eq]
    omega
  have hmemcl : ∀ s ∈ input,
      (natBits (codes s) (lens s), s) ∈
        clP lens codes (List.range 256) := by
    intro s hs
    unfold clP
    rw [List.mem_map]
    refine ⟨s, ?_, rfl⟩
    rw [List.mem_filter, List.mem_range]
    refine ⟨hbytes s hs, ?_⟩
    simp only [decide_eq_true_eq]
    exact hlensne s hs
  have hcl_uniq : ∀ s ∈ input, ∀ e ∈ clP lens codes (List.range 256),
      e.1 = natBits (codes s) (lens s) → e.2 = s := by
    intro s hs e he heq
    obtain ⟨hmem, hlz, hcq⟩ := clP_mem lens codes _ e he
    by_contra hne2
    have he256 : e.2 < 256 := List.mem_range.mp hmem
    have hnp := hcpf e.2 s he256 (hbytes s hs) hlz (hlensne s hs) hne2
    apply hnp
    rw [← hcq, heq]
  have henc : ∀ s ∈ input,
      natBits (codes s) (lens s) ≠ [] ∧
      symAt (clP lens codes (List.range 256))
        (natBits (codes s) (lens s)) = some s ∧
      (∃ e ∈ clP lens codes (List.range 256),
        e.1 = natBits (codes s) (lens s)) ∧
      ∀ p, p <+: natBits (codes s) (lens s) →
        p ≠ natBits (codes s) (lens s) →
        symAt (clP lens codes (List.range 256)) p = none := by
    intro s hs
    refine ⟨?_, ?_, ⟨_, hmemcl s hs, rfl⟩, ?_⟩
    · intro hnil
      have hl := natBits_length (codes s) (lens s)
      rw [hnil] at hl
      have h0' : lens s = 0 := by simpa using hl.symm
      exact hlensne s hs h0'
    · exact symAt_unique _ _ _ (hmemcl s hs) (hcl_uniq s hs)
    · intro p hp hpne
      apply symAt_none
      intro e he
      obtain ⟨hmem, hlz, hcq⟩ := clP_mem lens codes _ e he
      rw [hcq]
      intro hpe
      by_cases hes : e.2 = s
      · rw [hes] at hpe
        exact hpne hpe.symm
      · have he256 : e.2 < 256 := List.mem_range.mp hmem
        have hnp := hcpf e.2 s he256 (hbytes s hs) hlz
          (hlensne s hs) hes
        apply hnp
        rw [hpe]
        exact hp
  refine ⟨(wr_u32_le HUF_MAGIC ++ wr_u32_le input.length ++
    (List.range 256).map lens) ++ body, hcomp, ?_⟩
  have hhdrlen : (wr_u32_le HUF_MAGIC ++ wr_u32_le input.length ++
      (List.range 256).map lens).length = 264 := by
    rw [List.length_append, List.length_append, wr_u32_le_length,
      wr_u32_le_length, List.length_map, List.length_range]
  have hassoc : (wr_u32_le HUF_MAGIC ++ wr_u32_le input.length ++
      (List.range 256).map lens) ++ body =
      wr_u32_le HUF_MAGIC ++ (wr_u32_le input.length ++
        ((List.range 256).map lens ++ body)) := by
    simp [List.append_assoc]
  have htake4 : ((wr_u32_le HUF_MAGIC ++ wr_u32_le input.length ++
      (List.range 256).map lens) ++ body).take 4 =
      wr_u32_le HUF_MAGIC := by
    rw [hassoc, show (4:ℕ) = (wr_u32_le HUF_MAGIC).length from rfl]
    exact List.take_left _ _
  have hdrop4 : ((wr_u32_le HUF_MAGIC ++ wr_u32_le input.length ++
      (List.range 256).map lens) ++ body).drop 4 =
      wr_u32_le input.length ++
        ((List.range 256).map lens ++ body) := by
    rw [hassoc, show (4:ℕ) = (wr_u32_le HUF_MAGIC).length from rfl]
    exact List.drop_left _ _
  have htake8 : (((wr_u32_le HUF_MAGIC ++ wr_u32_le input.length ++
      (List.range 256).map lens) ++ body).drop 4).take 4 =
      wr_u32_le input.length := by
    rw [hdrop4, show (4:ℕ) = (wr_u32_le input.length).length from rfl]
    exact List.take_left _ _
  have hdrop8 : ((wr_u32_le HUF_MAGIC ++ wr_u32_le input.length ++
      (List.range 256).map lens) ++ body).drop 8 =
      (List.range 256).map lens ++ body := by
    have h44 : (((wr_u32_le HUF_MAGIC ++ wr_u32_le input.length ++
        (List.range 256).map lens) ++ body).drop 4).drop 4 =
        ((wr_u32_le HUF_MAGIC ++ wr_u32_le input.length ++
        (List.range 256).map lens) ++ body).drop 8 := by
      rw [List.drop_drop]
    rw [← h44, hdrop4,
      show (4:ℕ) = (wr_u32_le input.length).length from rfl]
    exact List.drop_left _ _
  have hdrop264 : ((wr_u32_le HUF_MAGIC ++ wr_u32_le input.length ++
      (List.range 256).map lens) ++ body).drop 264 = body := by
    rw [show (264:ℕ) = (wr_u32_le HUF_MAGIC ++ wr_u32_le input.length ++
      (List.range 256).map lens).length from hhdrlen.symm]
    exact List.drop_left _ _
  have hmag : rd_u32_le (((wr_u32_le HUF_MAGIC ++
      wr_u32_le input.length ++
      (List.range 256).map lens) ++ body).take 4) = HUF_MAGIC := by
    rw [htake4]
    exact rd_wr_u32_le _ (by norm_num [HUF_MAGIC])
  have hilen32 : input.length < 2^32 := lt_of_le_of_lt hlen (by norm_num)
  have hrdlen : rd_u32_le ((((wr_u32_le HUF_MAGIC ++
      wr_u32_le input.length ++
      (List.range 256).map lens) ++ body).drop 4).take 4) =
      input.length := by
    rw [htake8]
    exact rd_wr_u32_le _ hilen32
  have hlensD : ∀ i, i < 256 →
      (((wr_u32_le HUF_MAGIC ++ wr_u32_le input.length ++
        (List.range 256).map lens) ++ body).drop 8).getD i 0 =
      lens i := by
    intro i hi
    rw [hdrop8]
    rw [List.getD_append _ _ _ _ (by
      rw [List.length_map, List.length_range]; exact hi)]
    rw [List.getD_eq_getElem _ _ (by
      rw [List.length_map, List.length_range]; exact hi)]
    rw [List.getElem_map, List.getElem_range]
  have hanyf : ((List.range 256).any fun i =>
      32 < (((wr_u32_le HUF_MAGIC ++ wr_u32_le input.length ++
        (List.range 256).map lens) ++ body).drop 8).getD i 0) =
      false := by
    rw [List.any_eq_false]
    intro i hi
    rw [hlensD i (List.mem_range.mp hi)]
    simp only [decide_eq_true_eq, not_lt]
    exact h32 i
  have hcodesD : build_canonical_codes (fun i =>
      (((wr_u32_le HUF_MAGIC ++ wr_u32_le input.length ++
        (List.range 256).map lens) ++ body).drop 8).getD i 0) =
      .ok codes := by
    rw [build_canonical_codes_congr _ lens hlensD]
    exact hcodesrun
  have htreeD : build_decode_tree (fun i =>
      (((wr_u32_le HUF_MAGIC ++ wr_u32_le input.length ++
        (List.range 256).map lens) ++ body).drop 8).getD i 0) codes =
      .ok tree := by
    rw [build_decode_tree_congr _ lens codes hlensD]
    exact htreerun
  have hsrclen : ((wr_u32_le HUF_MAGIC ++ wr_u32_le input.length ++
      (List.range 256).map lens) ++ body).length =
      264 + body.length := by
    rw [List.length_append, hhdrlen]
  have hrb : rBits ((wr_u32_le HUF_MAGIC ++ wr_u32_le input.length ++
      (List.range 256).map lens) ++ body)
      (bitr_init ((wr_u32_le HUF_MAGIC ++ wr_u32_le input.length ++
        (List.range 256).map lens) ++ body).length 264) =
      input.flatMap (fun s => natBits (codes s) (lens s)) ++
        List.replicate k false := by
    have hstep : rBits ((wr_u32_le HUF_MAGIC ++
        wr_u32_le input.length ++
        (List.range 256).map lens) ++ body)
        (bitr_init ((wr_u32_le HUF_MAGIC ++ wr_u32_le input.length ++
          (List.range 256).map lens) ++ body).length 264) =
        bytesBits (((wr_u32_le HUF_MAGIC ++ wr_u32_le input.length ++
          (List.range 256).map lens) ++ body).drop 264) := rfl
    rw [hstep, hdrop264, hbody]
  have hflatlen : (input.flatMap
      (fun s => natBits (codes s) (lens s))).length <
      8 * ((wr_u32_le HUF_MAGIC ++ wr_u32_le input.length ++
        (List.range 256).map lens) ++ body).length + 1 := by
    have h1 : (bytesBits body).length =
        (input.flatMap (fun s => natBits (codes s) (lens s))).length +
          k := by
      rw [hbody, List.length_append, List.length_replicate]
    rw [bytesBits_length] at h1
    rw [hsrclen]
    omega
  have hwalk := huffman_walk_spec
    ((wr_u32_le HUF_MAGIC ++ wr_u32_le input.length ++
      (List.range 256).map lens) ++ body) tree
    (clP lens codes (List.range 256)) hmodels input.length
    (fun s => natBits (codes s) (lens s)) input
    (8 * ((wr_u32_le HUF_MAGIC ++ wr_u32_le input.length ++
      (List.range 256).map lens) ++ body).length + 1) []
    (bitr_init ((wr_u32_le HUF_MAGIC ++ wr_u32_le input.length ++
      (List.range 256).map lens) ++ body).length 264)
    (List.replicate k false) henc rfl (Nat.zero_le 8) hrb (by simp)
    hflatlen
  unfold huffman_decompress
  simp only []
  rw [if_neg (by
    rw [hsrclen]
    show ¬ (264 + body.length < 264)
    omega)]
  rw [if_neg (by
    rw [hmag]
    exact fun h => h rfl)]
  rw [hrdlen]
  rw [if_neg (lt_irrefl input.length)]
  rw [if_neg (by
    rw [hanyf]
    exact Bool.false_ne_true)]
  rw [hcodesD, eok_bind]
  rw [htreeD, eok_bind]
  rw [if_neg (by
    intro hcon
    rw [hroot] at hcon
    simp at hcon)]
  exact hwalk

/-- C1 counterexample: the compressor rejects the empty input (the
Huffman table construction fails with an empty alphabet), so the claimed
round-trip does not hold for the empty string. -/
theorem C1_roundtrip_counterexample :
    huffman_compress [] (huffman_bound 0) = .error EspErr.invalidArg :=
  rfl

/-- C1 (amended): for every nonempty byte string of length at most 2^20,
compression succeeds and decompression with output capacity equal to the
original length restores the input exactly. -/
theorem C1_roundtrip_amended (input : List ℕ)
    (hbytes : ∀ b ∈ input, b < 256) (hne : input ≠ [])
    (hlen : input.length ≤ 2^20) :
    ∃ out, huffman_compress input (huffman_bound input.length) = .ok out ∧
      huffman_decompress out input.length = .ok input :=
  huffman_roundtrip input hbytes hne hlen

/-- C1 witness: the amended round-trip at the concrete input
"AABCA". -/
theorem C1_roundtrip_amended_witness :
    (∀ b ∈ ([65, 65, 66, 67, 65] : List ℕ), b < 256) ∧
    ([65, 65, 66, 67, 65] : List ℕ) ≠ [] ∧
    ([65, 65, 66, 67, 65] : List ℕ).length ≤ 2^20 ∧
    ∃ out, huffman_compress [65, 65, 66, 67, 65]
        (huffman_bound ([65, 65, 66, 67, 65] : List ℕ).length) =
        .ok out ∧
      huffman_decompress out ([65, 65, 66, 67, 65] : List ℕ).length =
        .ok [65, 65, 66, 67, 65] :=
  ⟨by decide, by decide, by decide,
    C1_roundtrip_amended [65, 65, 66, 67, 65] (by decide) (by decide)
      (by decide)⟩

end WSN
